import Mathlib

/-! Texor (SeedClass_Test): row store, coordinate mapping, loading and saving, key decoding,
scrolling and the key dispatcher.

A shallow embedding of `src/c_project/main.c`.

Conventions of the embedding

* A C byte is a `Nat` (its unsigned value, `0 .. 255`); `'\t'` is `9`, `'\n'` is `10`,
  `'\r'` is `13`, `' '` is `32`.  Storing an `int` into a `char` keeps its value modulo 256.
* A C buffer together with the `int` that holds its length is one Lean `List`:
  `erow.characters` is the byte string `characters[0 .. size)` and `erow.size` is its length,
  `E.row` is the array `E.row[0 .. number_of_rows)` and `E.number_of_rows` is its length.
  The terminating NUL that the C code keeps after each string is not part of the list.
* The render cache of a row (`rendered_characters`, `rendered_size`) is stored as two separate
  fields, written only where the C code writes them.
* C `int`s are `Int`; overflow is modelled where a size is computed (`wrapInt` in
  `renderCapacity`, the argument of `malloc` in `editorUpdateRow`) and nowhere else.  An
  `erow *` into `E.row` is the row's index.
* The global `E` is passed explicitly: every operation maps an `editorConfig` to the next one.
* The terminal is the list of the outcomes of the coming `read` calls; a call that waits for
  a key on a stream that has ended never returns (`blocked`).  What the operating system
  contributes to one call (the clock, the answer to a save, the signedness of plain `char`)
  is an `Env`.  Bytes written to the terminal are not part of the state.
-/

namespace Texor

/-! ## Constants -/

/-- The macro `TEXOR_TAB_STOP`. -/
def TEXOR_TAB_STOP : Nat := 8

/-- The macro `TEXOR_QUIT_TIMES`. -/
def TEXOR_QUIT_TIMES : Int := 2

/-- The tab byte. -/
def TAB : Nat := 9

/-- The newline byte. -/
def NEWLINE : Nat := 10

/-- The carriage-return byte. -/
def CR : Nat := 13

/-- The space byte. -/
def SPACE : Nat := 32

/-! ## Data model -/

/-- The struct `erow`: `characters` is the raw content (`size` bytes), `rendered_characters`
and `rendered_size` are the cached tab-expanded form. -/
structure erow where
  rendered_size : Int
  characters : List Nat
  rendered_characters : List Nat
deriving DecidableEq, Repr

/-- The field `size` of `erow`: the number of bytes of `characters`. -/
def erow.size (row : erow) : Int := row.characters.length

/-- The struct `editorConfig` (the global `E`). -/
structure editorConfig where
  file_position_x : Int
  file_position_y : Int
  screen_position_x : Int
  row_offset : Int
  column_offset : Int
  screen_rows : Int
  screen_columns : Int
  row : List erow
  dirty : Int
  filename : Option (List Nat)
  status_message : List Nat
  status_message_time : Int
deriving DecidableEq, Repr

/-- The field `number_of_rows` of `editorConfig`: the number of rows of `E.row`. -/
def editorConfig.number_of_rows (E : editorConfig) : Int := E.row.length

/-- The row `E.row[i]`, when `0 <= i < E.number_of_rows`. -/
def rowAt (E : editorConfig) (i : Int) : Option erow :=
  if i < 0 then none else E.row.get? i.toNat

/-! ## Rendering (`editorUpdateRow`) and coordinate mapping -/

/-- The first loop of `editorUpdateRow`: the number of tab bytes of the row. -/
def countTabs : List Nat → Nat
  | [] => 0
  | c :: rest => (if c = TAB then 1 else 0) + countTabs rest

/-- The inner loop `while (index % TEXOR_TAB_STOP != 0) rendered[index++] = ' ';` of
`editorUpdateRow`, on the pair (bytes written so far, `index`).  The first argument bounds the
number of iterations; `padToTabStop_index` shows that `TEXOR_TAB_STOP` iterations always reach
the exit condition. -/
def padToTabStop : Nat → List Nat × Nat → List Nat × Nat
  | 0, st => st
  | fuel + 1, (buf, index) =>
    if index % TEXOR_TAB_STOP ≠ 0 then padToTabStop fuel (buf ++ [SPACE], index + 1)
    else (buf, index)

/-- The main loop of `editorUpdateRow` over the bytes `characters[j]`, `j = 0 .. size - 1`, on
the pair (bytes written so far, `index`); `rendered[index++] = b` appends `b`. -/
def renderLoop : List Nat → List Nat × Nat → List Nat × Nat
  | [], st => st
  | c :: rest, (buf, index) =>
    if c = TAB then
      renderLoop rest (padToTabStop TEXOR_TAB_STOP (buf ++ [SPACE], index + 1))
    else
      renderLoop rest (buf ++ [c], index + 1)

/-- The function `editorUpdateRow`: recompute the render cache of a row from `characters`. -/
def editorUpdateRow (row : erow) : erow :=
  let st := renderLoop row.characters ([], 0)
  { row with rendered_characters := st.1, rendered_size := (st.2 : Int) }

/-- The macro `INT_MAX` of a 32-bit `int`. -/
def INT_MAX : Int := 2147483647

/-- The value of a C `int` expression whose mathematical value is `v`: `v` itself when it is a
value of a 32-bit `int`.  Outside that range the signed overflow has no defined behaviour in
C; the embedding takes the wrap modulo `2 ^ 32` that two's-complement machines give. -/
def wrapInt (v : Int) : Int := (v + 2147483648) % 4294967296 - 2147483648

/-- The argument `row->size + tabs * (TEXOR_TAB_STOP - 1) + 1` that `editorUpdateRow` hands to
`malloc` for `rendered_characters`, computed in `int` as the C expression is: the product
first, then the two sums. -/
def renderCapacity (row : erow) : Int :=
  wrapInt (wrapInt (row.size +
    wrapInt ((countTabs row.characters : Int) * ((TEXOR_TAB_STOP : Int) - 1))) + 1)

/-- The loop of `editorRowFilePositionXToScreenPositionX`: `n` iterations left, at index `j`,
with running value `screen_position_x`.  A read at index `size` yields the terminating NUL. -/
def screenXLoop (chars : List Nat) : Nat → Nat → Int → Int
  | 0, _, sx => sx
  | n + 1, j, sx =>
    let sx1 :=
      if chars.getD j 0 = TAB then
        sx + (((TEXOR_TAB_STOP : Int) - 1) - (sx % (TEXOR_TAB_STOP : Int)))
      else sx
    screenXLoop chars n (j + 1) (sx1 + 1)

/-- The function `editorRowFilePositionXToScreenPositionX`. -/
def editorRowFilePositionXToScreenPositionX (row : erow) (file_position_x : Int) : Int :=
  screenXLoop row.characters file_position_x.toNat 0 0

/-- The tab expansion as the specification words it, continuing an already rendered `out`:
a non-tab byte is copied unchanged; a tab byte becomes one space followed by further spaces
until the rendered length is a multiple of the tab stop. -/
def tabExpansionFrom (t : Nat) (out : List Nat) : List Nat → List Nat
  | [] => out
  | b :: rest =>
    if b = TAB then
      tabExpansionFrom t (out ++ SPACE :: List.replicate ((t - (out.length + 1) % t) % t) SPACE) rest
    else
      tabExpansionFrom t (out ++ [b]) rest

/-- The tab expansion of a raw byte string at tab stop `TEXOR_TAB_STOP`. -/
def tabExpansion (raw : List Nat) : List Nat := tabExpansionFrom TEXOR_TAB_STOP [] raw

/-! ## Row store operations -/

/-- The function `editorInsertRow(at, s, len)`, with `s` the byte string `s[0 .. len)`. -/
def editorInsertRow (E : editorConfig) (idx : Int) (s : List Nat) : editorConfig :=
  if idx < 0 ∨ idx > E.number_of_rows then E
  else
    let newRow : erow :=
      editorUpdateRow { characters := s, rendered_size := 0, rendered_characters := [] }
    { E with
      row := E.row.take idx.toNat ++ newRow :: E.row.drop idx.toNat
      dirty := E.dirty + 1 }

/-- The function `editorDelRow(at)`. -/
def editorDelRow (E : editorConfig) (idx : Int) : editorConfig :=
  if idx < 0 ∨ idx ≥ E.number_of_rows then E
  else { E with row := E.row.eraseIdx idx.toNat, dirty := E.dirty + 1 }

/-- The function `editorRowInsertChar(row, at, c)` with `row = &E.row[ri]`.  When `ri` is not
the index of a row the C call has no defined behaviour; the embedding leaves `E` as it is. -/
def editorRowInsertChar (E : editorConfig) (ri : Int) (idx : Int) (c : Int) : editorConfig :=
  match rowAt E ri with
  | none => E
  | some row =>
    let k : Int := if idx < 0 ∨ idx > row.size then row.size else idx
    let row1 : erow :=
      { row with
        characters := row.characters.take k.toNat ++ (c % 256).toNat :: row.characters.drop k.toNat }
    { E with row := E.row.set ri.toNat (editorUpdateRow row1), dirty := E.dirty + 1 }

/-- The function `editorRowAppendString(row, s, len)` with `row = &E.row[ri]` and `s` the byte
string `s[0 .. len)`. -/
def editorRowAppendString (E : editorConfig) (ri : Int) (s : List Nat) : editorConfig :=
  match rowAt E ri with
  | none => E
  | some row =>
    let row1 : erow := { row with characters := row.characters ++ s }
    { E with row := E.row.set ri.toNat (editorUpdateRow row1), dirty := E.dirty + 1 }

/-- The function `editorRowDelChar(row, at)` with `row = &E.row[ri]`. -/
def editorRowDelChar (E : editorConfig) (ri : Int) (idx : Int) : editorConfig :=
  match rowAt E ri with
  | none => E
  | some row =>
    if idx < 0 ∨ idx ≥ row.size then E
    else
      let row1 : erow := { row with characters := row.characters.eraseIdx idx.toNat }
      { E with row := E.row.set ri.toNat (editorUpdateRow row1), dirty := E.dirty + 1 }

/-! ## Editing operations at the cursor -/

/-- The function `editorInsertChar(c)`. -/
def editorInsertChar (E : editorConfig) (c : Int) : editorConfig :=
  let E1 :=
    if E.file_position_y = E.number_of_rows then editorInsertRow E E.number_of_rows [] else E
  let E2 := editorRowInsertChar E1 E1.file_position_y E1.file_position_x c
  { E2 with file_position_x := E2.file_position_x + 1 }

/-- The function `editorInsertNewline()`.  In the second branch `row = &E.row[file_position_y]`
must be a row for the C code to be defined; the embedding leaves the rows as they are otherwise. -/
def editorInsertNewline (E : editorConfig) : editorConfig :=
  let E3 :=
    if E.file_position_x = 0 then editorInsertRow E E.file_position_y []
    else
      match rowAt E E.file_position_y with
      | none => E
      | some row =>
        let E1 :=
          editorInsertRow E (E.file_position_y + 1)
            (row.characters.drop E.file_position_x.toNat)
        match rowAt E1 E1.file_position_y with
        | none => E1
        | some row1 =>
          let row2 : erow :=
            { row1 with characters := row1.characters.take E1.file_position_x.toNat }
          { E1 with row := E1.row.set E1.file_position_y.toNat (editorUpdateRow row2) }
  { E3 with file_position_y := E3.file_position_y + 1, file_position_x := 0 }

/-- The function `editorDelChar()`. -/
def editorDelChar (E : editorConfig) : editorConfig :=
  if E.file_position_y = E.number_of_rows then E
  else if E.file_position_x = 0 ∧ E.file_position_y = 0 then E
  else
    match rowAt E E.file_position_y with
    | none => E
    | some row =>
      if E.file_position_x > 0 then
        let E1 := editorRowDelChar E E.file_position_y (E.file_position_x - 1)
        { E1 with file_position_x := E1.file_position_x - 1 }
      else
        match rowAt E (E.file_position_y - 1) with
        | none => E
        | some prev =>
          let E1 := { E with file_position_x := prev.size }
          let E2 := editorRowAppendString E1 (E1.file_position_y - 1) row.characters
          let E3 := editorDelRow E2 E2.file_position_y
          { E3 with file_position_y := E3.file_position_y - 1 }

/-! ## File text -/

/-- The first loop of `editorRowsToString`: `totlen += E.row[j].size + 1`. -/
def totlenLoop : List erow → Int → Int
  | [], totlen => totlen
  | r :: rest, totlen => totlenLoop rest (totlen + (r.size + 1))

/-- The second loop of `editorRowsToString`: copy each row, then a newline byte. -/
def copyLoop : List erow → List Nat → List Nat
  | [], buf => buf
  | r :: rest, buf => copyLoop rest (buf ++ r.characters ++ [NEWLINE])

/-- The function `editorRowsToString`: the returned buffer and the length stored in `*buflen`. -/
def editorRowsToString (E : editorConfig) : List Nat × Int :=
  (copyLoop E.row [], totlenLoop E.row 0)

/-- The libc call `getline` on the unread bytes of the stream: `none` at end of file, otherwise
the line read (up to and including the first newline byte, or up to the end of the file) and
the bytes left unread. -/
def getline : List Nat → Option (List Nat × List Nat)
  | [] => none
  | b :: rest =>
    if b = NEWLINE then some ([b], rest)
    else
      match getline rest with
      | none => some ([b], [])
      | some (line, unread) => some (b :: line, unread)

/-- The inner loop of `editorOpen`: drop the trailing newline and carriage-return bytes. -/
def stripLineEnd (line : List Nat) : List Nat :=
  line.rdropWhile (fun b => decide (b = NEWLINE ∨ b = CR))

/-- The loop `while ((linelen = getline(...)) != -1)` of `editorOpen`; the first argument
bounds the number of iterations (every iteration consumes at least one byte). -/
def openLoop : Nat → List Nat → editorConfig → editorConfig
  | 0, _, E => E
  | fuel + 1, unread, E =>
    match getline unread with
    | none => E
    | some (line, rest) =>
      openLoop fuel rest (editorInsertRow E E.number_of_rows (stripLineEnd line))

/-- The function `editorOpen(filename)` when `fopen` succeeds on a file holding `content`. -/
def editorOpen (E : editorConfig) (filename : List Nat) (content : List Nat) : editorConfig :=
  let E1 := openLoop content.length content { E with filename := some filename }
  { E1 with dirty := 0 }

/-! ## Sequences of editing operations -/

/-- The document the editing starts from: the empty document `E` itself, or the one
`editorOpen` loads into it from a file (name, content). -/
def startDocument (E : editorConfig) : Option (List Nat × List Nat) → editorConfig
  | none => E
  | some (filename, content) => editorOpen E filename content

/-- The render cache of a row agrees with its raw content. -/
def cacheFresh (r : erow) : Prop :=
  r.rendered_characters = tabExpansion r.characters ∧
    r.rendered_size = ((tabExpansion r.characters).length : Int)

instance (r : erow) : Decidable (cacheFresh r) := by
  unfold cacheFresh; infer_instance

/-- The insertion index as the specification words it for `insert_char`: `col` clamped to
`[0, size]`. -/
def clampedIndex (col size : Int) : Int := max 0 (min col size)

/-! ## Loading and saving: lines of a file -/

/-- The lines that the successive `getline` calls of the loop of `editorOpen` return, in
order; the first argument bounds the number of calls as in `openLoop`. -/
def readLines : Nat → List Nat → List (List Nat)
  | 0, _ => []
  | fuel + 1, unread =>
    match getline unread with
    | none => []
    | some (line, rest) => line :: readLines fuel rest

/-- The row `editorOpen` creates for one line read by `getline`. -/
def lineRow (line : List Nat) : erow :=
  editorUpdateRow
    { characters := stripLineEnd line, rendered_size := 0, rendered_characters := [] }

/-- The input lines of a file as the specification words them, continuing a line `cur` that
has been started: a line ends at each newline byte (which belongs to it), and a final
non-empty fragment without newline byte is also a line. -/
def fileLinesFrom (cur : List Nat) : List Nat → List (List Nat)
  | [] => if cur = [] then [] else [cur]
  | b :: rest =>
    if b = NEWLINE then (cur ++ [b]) :: fileLinesFrom [] rest
    else fileLinesFrom (cur ++ [b]) rest

/-- The input lines of a file as the specification words them. -/
def fileLines (content : List Nat) : List (List Nat) := fileLinesFrom [] content

/-- The byte ends a line: it is a newline or a carriage return. -/
def isLineEnd (b : Nat) : Prop := b = NEWLINE ∨ b = CR

instance (b : Nat) : Decidable (isLineEnd b) := by
  unfold isLineEnd; infer_instance

/-- The row content survives a save and a load: it has no newline byte and does not end with
a carriage return. -/
def roundTrips (chars : List Nat) : Prop :=
  NEWLINE ∉ chars ∧ chars.getLast? ≠ some CR

instance (chars : List Nat) : Decidable (roundTrips chars) := by
  unfold roundTrips; infer_instance

/-- Line-ending normalisation as the specification words it, with `pending` carriage returns
read and not yet emitted: every CR LF and every stray CR line ending (a run of carriage
returns directly before a newline byte or at the end of the file) is replaced by a single
newline byte; every other byte, a carriage return inside a line included, is kept. -/
def normalizeFrom (pending : Nat) : List Nat → List Nat
  | [] => if pending = 0 then [] else [NEWLINE]
  | b :: rest =>
    if b = CR then normalizeFrom (pending + 1) rest
    else if b = NEWLINE then NEWLINE :: normalizeFrom 0 rest
    else List.replicate pending CR ++ b :: normalizeFrom 0 rest

/-- Line-ending normalisation of a file content. -/
def normalizeLineEndings (content : List Nat) : List Nat := normalizeFrom 0 content

/-- The file content has a last line that no line ending closes: it is not empty and its last
byte is neither a newline nor a carriage return. -/
def endsOpen (content : List Nat) : Prop :=
  ∃ b, content.getLast? = some b ∧ ¬ isLineEnd b

instance (content : List Nat) : Decidable (endsOpen content) := by
  unfold endsOpen
  cases h : content.getLast? with
  | none => exact isFalse (by simp)
  | some b =>
    by_cases hb : isLineEnd b
    · exact isFalse (by simp [hb])
    · exact isTrue ⟨b, rfl, hb⟩

/-! ## Keys and the key decoder (`editorReadKey`) -/

/-- The escape byte `'\x1b'`, also the value of the bare escape key. -/
def ESC : Int := 27

/-- The enum constant `BACKSPACE`. -/
def BACKSPACE : Int := 127

/-- The enum constant `ARROW_LEFT`. -/
def ARROW_LEFT : Int := 1000

/-- The enum constant `ARROW_RIGHT`. -/
def ARROW_RIGHT : Int := 1001

/-- The enum constant `ARROW_UP`. -/
def ARROW_UP : Int := 1002

/-- The enum constant `ARROW_DOWN`. -/
def ARROW_DOWN : Int := 1003

/-- The enum constant `DEL_KEY`. -/
def DEL_KEY : Int := 1004

/-- The enum constant `HOME_KEY`. -/
def HOME_KEY : Int := 1005

/-- The enum constant `END_KEY`. -/
def END_KEY : Int := 1006

/-- The enum constant `PAGE_UP`. -/
def PAGE_UP : Int := 1007

/-- The enum constant `PAGE_DOWN`. -/
def PAGE_DOWN : Int := 1008

/-- The macro `CTRL_KEY(k)`, `(k) & 0x1f`, on a character code. -/
def CTRL_KEY (k : Nat) : Int := ((k &&& 0x1f : Nat) : Int)

/-- The key `'\r'` (Enter). -/
def ENTER : Int := 13

/-- The `int` value of a `char` holding the byte `b`: the byte itself, or `b - 256` for
`b >= 128` where plain `char` is signed (the choice is left to the C implementation). -/
def charToInt (charSigned : Bool) (b : Nat) : Int :=
  if charSigned = true ∧ 128 ≤ b then (b : Int) - 256 else (b : Int)

/-- The outcome of one call `read(STDIN_FILENO, &c, 1)` on the raw-mode terminal: one byte
was read (the call returns 1), no byte arrived in time (it returns 0, or -1 with `errno` set
to `EAGAIN`), or the call failed (it returns -1 with another `errno`). -/
inductive ReadResult where
  | byte (b : Nat)
  | nothing
  | error
deriving DecidableEq, Repr

/-- One call of `read` on the outcomes still to come: a stream that has ended delivers
nothing, for ever. -/
def readByte : List ReadResult → ReadResult × List ReadResult
  | [] => (ReadResult.nothing, [])
  | r :: rest => (r, rest)

/-- The `switch (seq[1])` of `editorReadKey` after `ESC [ digit ~`. -/
def tildeKey (s1 : Nat) : Int :=
  if s1 = 49 then HOME_KEY
  else if s1 = 51 then DEL_KEY
  else if s1 = 52 then END_KEY
  else if s1 = 53 then PAGE_UP
  else if s1 = 54 then PAGE_DOWN
  else if s1 = 55 then HOME_KEY
  else if s1 = 56 then END_KEY
  else ESC

/-- The `switch (seq[1])` of `editorReadKey` after `ESC [` and a byte that is no digit. -/
def bracketKey (s1 : Nat) : Int :=
  if s1 = 65 then ARROW_UP
  else if s1 = 66 then ARROW_DOWN
  else if s1 = 67 then ARROW_RIGHT
  else if s1 = 68 then ARROW_LEFT
  else if s1 = 72 then HOME_KEY
  else if s1 = 70 then END_KEY
  else ESC

/-- The `switch (seq[1])` of `editorReadKey` after `ESC O`. -/
def letterOKey (s1 : Nat) : Int :=
  if s1 = 72 then HOME_KEY
  else if s1 = 70 then END_KEY
  else ESC

/-- The branch `if (c == '\x1b')` of `editorReadKey`, entered after the escape byte was read:
the key returned, the outcomes left unread, and the number of `read` calls made.  The bytes
`91`, `79`, `48`, `57`, `126` are `[`, `O`, `0`, `9`, `~`. -/
def readEscapeSequence (input : List ReadResult) : Int × List ReadResult × Nat :=
  match readByte input with
  | (ReadResult.byte s0, in1) =>
    match readByte in1 with
    | (ReadResult.byte s1, in2) =>
      if s0 = 91 then
        if 48 ≤ s1 ∧ s1 ≤ 57 then
          match readByte in2 with
          | (ReadResult.byte s2, in3) =>
            if s2 = 126 then (tildeKey s1, in3, 3) else (ESC, in3, 3)
          | (_, in3) => (ESC, in3, 3)
        else (bracketKey s1, in2, 2)
      else if s0 = 79 then (letterOKey s1, in2, 2)
      else (ESC, in2, 2)
    | (_, in2) => (ESC, in2, 2)
  | (_, in1) => (ESC, in1, 1)

/-- What a call of `editorReadKey` comes to: it returns a key and leaves the rest of the
outcomes unread; it calls `die("read")`; or the stream ends before any byte arrives and the
call never returns. -/
inductive KeyResult where
  | key (c : Int) (rest : List ReadResult)
  | died
  | blocked
deriving DecidableEq, Repr

/-- The function `editorReadKey` on the outcomes of the coming `read` calls. -/
def editorReadKey (charSigned : Bool) : List ReadResult → KeyResult
  | [] => KeyResult.blocked
  | ReadResult.nothing :: rest => editorReadKey charSigned rest
  | ReadResult.error :: _ => KeyResult.died
  | ReadResult.byte b :: rest =>
    if b = 27 then
      KeyResult.key (readEscapeSequence rest).1 (readEscapeSequence rest).2.1
    else KeyResult.key (charToInt charSigned b) rest

/-- The decoding table of the specification: the bytes that follow the escape byte, and the
key they stand for. -/
def decodingTable : List (List Nat × Int) :=
  [([91, 49, 126], HOME_KEY), ([91, 55, 126], HOME_KEY), ([91, 72], HOME_KEY),
    ([79, 72], HOME_KEY), ([91, 51, 126], DEL_KEY), ([91, 52, 126], END_KEY),
    ([91, 56, 126], END_KEY), ([91, 70], END_KEY), ([79, 70], END_KEY),
    ([91, 53, 126], PAGE_UP), ([91, 54, 126], PAGE_DOWN), ([91, 65], ARROW_UP),
    ([91, 66], ARROW_DOWN), ([91, 67], ARROW_RIGHT), ([91, 68], ARROW_LEFT)]

/-- The nine special key codes. -/
def specialKeys : List Int :=
  [ARROW_LEFT, ARROW_RIGHT, ARROW_UP, ARROW_DOWN, DEL_KEY, HOME_KEY, END_KEY, PAGE_UP,
    PAGE_DOWN]

/-! ## Cursor movement and scrolling -/

/-- The function `editorScroll`.  The row is read only when `file_position_y` is the index
of a row; for a negative `file_position_y` the C code has no defined behaviour and the
embedding takes the render column 0. -/
def editorScroll (E : editorConfig) : editorConfig :=
  let E1 : editorConfig := { E with screen_position_x := 0 }
  let E2 : editorConfig :=
    if E1.file_position_y < E1.number_of_rows then
      match rowAt E1 E1.file_position_y with
      | some row =>
        { E1 with
          screen_position_x := editorRowFilePositionXToScreenPositionX row E1.file_position_x }
      | none => E1
    else E1
  let E3 : editorConfig :=
    if E2.file_position_y < E2.row_offset then { E2 with row_offset := E2.file_position_y }
    else E2
  let E4 : editorConfig :=
    if E3.file_position_y ≥ E3.row_offset + E3.screen_rows then
      { E3 with row_offset := E3.file_position_y - E3.screen_rows + 1 }
    else E3
  let E5 : editorConfig :=
    if E4.screen_position_x < E4.column_offset then
      { E4 with column_offset := E4.screen_position_x }
    else E4
  if E5.screen_position_x ≥ E5.column_offset + E5.screen_columns then
    { E5 with column_offset := E5.screen_position_x - E5.screen_columns + 1 }
  else E5

/-- The pointer `row` of `editorMoveCursor`: `NULL` when `file_position_y >= number_of_rows`,
the row at `file_position_y` otherwise. -/
def cursorRow (E : editorConfig) : Option erow :=
  if E.file_position_y ≥ E.number_of_rows then none else rowAt E E.file_position_y

/-- The `switch (key)` of `editorMoveCursor`. -/
def moveCursorSwitch (E : editorConfig) (key : Int) : editorConfig :=
  if key = ARROW_LEFT then
    if E.file_position_x ≠ 0 then { E with file_position_x := E.file_position_x - 1 }
    else if E.file_position_y > 0 then
      let E1 : editorConfig := { E with file_position_y := E.file_position_y - 1 }
      match rowAt E1 E1.file_position_y with
      | some row => { E1 with file_position_x := row.size }
      | none => E1
    else E
  else if key = ARROW_RIGHT then
    match cursorRow E with
    | some row =>
      if E.file_position_x < row.size then { E with file_position_x := E.file_position_x + 1 }
      else if E.file_position_x = row.size then
        { E with file_position_y := E.file_position_y + 1, file_position_x := 0 }
      else E
    | none => E
  else if key = ARROW_UP then
    if E.file_position_y ≠ 0 then { E with file_position_y := E.file_position_y - 1 } else E
  else if key = ARROW_DOWN then
    if E.file_position_y < E.number_of_rows then
      { E with file_position_y := E.file_position_y + 1 }
    else E
  else E

/-- The function `editorMoveCursor`: the `switch`, then the column is cut back to the length
of the row the cursor is on (0 when it is on no row). -/
def editorMoveCursor (E : editorConfig) (key : Int) : editorConfig :=
  let E1 := moveCursorSwitch E key
  let rowlen : Int :=
    match cursorRow E1 with
    | some row => row.size
    | none => 0
  if E1.file_position_x > rowlen then { E1 with file_position_x := rowlen } else E1

/-- The render column `editorScroll` computes for the cursor: the render column of
`file_position_x` on the cursor row, 0 when the cursor is on no row. -/
def cursorRenderCol (E : editorConfig) : Int :=
  if E.file_position_y < E.number_of_rows then
    match rowAt E E.file_position_y with
    | some row => editorRowFilePositionXToScreenPositionX row E.file_position_x
    | none => 0
  else 0

/-- The two checks of `editorScroll` on one axis: the new offset for a cursor position
`pos`, an old offset and a screen extent. -/
def scrollOffset (pos offset extent : Int) : Int :=
  if pos ≥ (if pos < offset then pos else offset) + extent then pos - extent + 1
  else if pos < offset then pos else offset

/-! ## Status message, prompt, saving and the key dispatcher -/

/-- The bytes of a string literal of the C source (ASCII). -/
def bytesOf (s : String) : List Nat := s.toList.map Char.toNat

/-- The text `printf` writes for `%d`. -/
def decimal (n : Int) : List Nat :=
  if n < 0 then 45 :: (Nat.toDigits 10 n.natAbs).map Char.toNat
  else (Nat.toDigits 10 n.toNat).map Char.toNat

/-- The function `editorSetStatusMessage`, given the formatted text and the value `now` that
`time(NULL)` returns: `vsnprintf` keeps at most 79 bytes in `status_message[80]`. -/
def editorSetStatusMessage (now : Int) (E : editorConfig) (text : List Nat) : editorConfig :=
  { E with status_message := text.take 79, status_message_time := now }

/-- The effect of `editorRefreshScreen` on the editor state: `editorScroll`.  The frame it
writes to the terminal is computed from the state and is not part of the state. -/
def editorRefreshScreen (E : editorConfig) : editorConfig := editorScroll E

/-- The libc function `iscntrl` in the C locale: the codes 0 .. 31 and 127. -/
def iscntrl (c : Int) : Prop := (0 ≤ c ∧ c ≤ 31) ∨ c = 127

instance (c : Int) : Decidable (iscntrl c) := by
  unfold iscntrl; infer_instance

/-- The macro `INPUT_BUFSIZE`. -/
def INPUT_BUFSIZE : Nat := 128

/-- What one key does to the input of `editorPrompt`. -/
inductive PromptAction where
  | more (buf : List Nat) (bufsize : Nat)
  | cancel
  | confirm (buf : List Nat)
deriving DecidableEq, Repr

/-- The body of the loop of `editorPrompt` after the key `c` was read, on the buffer `buf`
(`buflen` bytes, in an allocation of `bufsize` bytes). -/
def promptKey (buf : List Nat) (bufsize : Nat) (c : Int) : PromptAction :=
  if c = DEL_KEY ∨ c = CTRL_KEY 104 ∨ c = BACKSPACE then
    PromptAction.more (if buf.length ≠ 0 then buf.dropLast else buf) bufsize
  else if c = ESC then PromptAction.cancel
  else if c = ENTER then
    if buf.length ≠ 0 then PromptAction.confirm buf else PromptAction.more buf bufsize
  else if ¬ iscntrl c ∧ c < 128 then
    PromptAction.more (buf ++ [(c % 256).toNat])
      (if buf.length = bufsize - 1 then bufsize * 2 else bufsize)
  else PromptAction.more buf bufsize

/-- What a call of `editorPrompt` comes to: it returns the buffer, it returns `NULL`, it
ends in `die` (inside `editorReadKey`), or the key stream ends and it never returns. -/
inductive PromptResult where
  | entered (buf : List Nat) (E : editorConfig) (rest : List ReadResult)
  | cancelled (E : editorConfig) (rest : List ReadResult)
  | died
  | blocked
deriving DecidableEq, Repr

/-- The loop `while (1)` of `editorPrompt`, with the prompt format given as the text before
and after its `%s`, and `callback` being `NULL` as at its only call.  The first argument
bounds the number of iterations; every iteration that goes on reads at least one outcome of
the stream, see `promptLoop_fuel_enough`. -/
def promptLoop (charSigned : Bool) (now : Int) (before after : List Nat) :
    Nat → List Nat → Nat → editorConfig → List ReadResult → PromptResult
  | 0, _, _, _, _ => PromptResult.blocked
  | fuel + 1, buf, bufsize, E, input =>
    let E1 := editorRefreshScreen (editorSetStatusMessage now E (before ++ buf ++ after))
    match editorReadKey charSigned input with
    | KeyResult.blocked => PromptResult.blocked
    | KeyResult.died => PromptResult.died
    | KeyResult.key c rest =>
      match promptKey buf bufsize c with
      | PromptAction.more buf1 bufsize1 =>
        promptLoop charSigned now before after fuel buf1 bufsize1 E1 rest
      | PromptAction.cancel => PromptResult.cancelled (editorSetStatusMessage now E1 []) rest
      | PromptAction.confirm buf1 =>
        PromptResult.entered buf1 (editorSetStatusMessage now E1 []) rest

/-- The function `editorPrompt(prompt, NULL)`. -/
def editorPrompt (charSigned : Bool) (now : Int) (before after : List Nat)
    (E : editorConfig) (input : List ReadResult) : PromptResult :=
  promptLoop charSigned now before after (input.length + 1) [] INPUT_BUFSIZE E input

/-- How the operating system answers the three calls of a save: `open` fails, `ftruncate`
fails, `write` does not write all of the bytes, or all three succeed. -/
inductive SaveOutcome where
  | openFails
  | truncateFails
  | writeShort
  | written
deriving DecidableEq, Repr

/-- What the surroundings of one call contribute: whether plain `char` is signed, the value
`time(NULL)` returns, the answer of the operating system to a save, and the text of
`strerror(errno)`. -/
structure Env where
  charSigned : Bool
  now : Int
  save : SaveOutcome
  errstr : List Nat
deriving DecidableEq, Repr

/-- The state of the running editor: the global `E`, the static counter `quit_times` of
`editorProcessKeypress`, the outcomes of the coming `read` calls on the terminal, and the
files written so far by successful saves (name, content; latest last). -/
structure World where
  E : editorConfig
  quit_times : Int
  input : List ReadResult
  written : List (List Nat × List Nat)
deriving DecidableEq, Repr

/-- What a call of `editorProcessKeypress` (or of a function it calls) comes to: it returns;
the process leaves through `exit(0)` after writing `out` to the terminal; it ends in `die`;
or it waits for a key that never comes. -/
inductive Outcome where
  | running (W : World)
  | exited (W : World) (out : List Nat)
  | died
  | blocked
deriving DecidableEq, Repr

/-- The text `Can't save! I/O error: ` of the C source. -/
def cantSaveText : List Nat := bytesOf "Can" ++ [39] ++ bytesOf "t save! I/O error: "

/-- The part that `editorSave` and `editorSaveAs` share once `E.filename` is set:
`editorRowsToString`, then `open`, `ftruncate`, `write`, and the status message. -/
def writeFile (env : Env) (W : World) : World :=
  match env.save with
  | SaveOutcome.written =>
    { W with
      E := editorSetStatusMessage env.now { W.E with dirty := 0 }
        (decimal (editorRowsToString W.E).2 ++ bytesOf " bytes written to disk")
      written := W.written ++ [(W.E.filename.getD [], (editorRowsToString W.E).1)] }
  | _ =>
    { W with E := editorSetStatusMessage env.now W.E (cantSaveText ++ env.errstr) }

/-- The function `editorSaveAs`. -/
def editorSaveAs (env : Env) (W : World) : Outcome :=
  match editorPrompt env.charSigned env.now (bytesOf "Save as: ") (bytesOf " (ESC to cancel)")
      W.E W.input with
  | PromptResult.blocked => Outcome.blocked
  | PromptResult.died => Outcome.died
  | PromptResult.cancelled E1 rest =>
    Outcome.running
      { W with E := editorSetStatusMessage env.now E1 (bytesOf "Save As aborted"), input := rest }
  | PromptResult.entered buf E1 rest =>
    Outcome.running (writeFile env { W with E := { E1 with filename := some buf }, input := rest })

/-- The function `editorSave`. -/
def editorSave (env : Env) (W : World) : Outcome :=
  match W.E.filename with
  | none => editorSaveAs env W
  | some _ => Outcome.running (writeFile env W)

/-- The bytes `editorProcessKeypress` writes before `exit(0)`: `ESC [ 2 J` and `ESC [ H`. -/
def exitSequence : List Nat := [27, 91, 50, 74, 27, 91, 72]

/-- The warning of `editorProcessKeypress` for a quit request with unsaved changes. -/
def quitWarning (quit_times : Int) : List Nat :=
  bytesOf "WARNING!!! File has unsaved changes. Press Ctrl-Q " ++ decimal quit_times ++
    bytesOf " more times to quit."

/-- The loop `while (times--) editorMoveCursor(...)` of the page keys. -/
def moveCursorTimes (key : Int) : Nat → editorConfig → editorConfig
  | 0, E => E
  | times + 1, E => moveCursorTimes key times (editorMoveCursor E key)

/-- The `switch (c)` of `editorProcessKeypress` for the keys that neither quit nor save: the
new `E`.  The page keys run their loop `screen_rows` times (no time for a negative
`screen_rows`, where the C loop has no defined end). -/
def processEditKey (E : editorConfig) (c : Int) : editorConfig :=
  if c = ENTER then editorInsertNewline E
  else if c = HOME_KEY then { E with file_position_x := 0 }
  else if c = END_KEY then
    if E.file_position_y < E.number_of_rows then
      match rowAt E E.file_position_y with
      | some row => { E with file_position_x := row.size }
      | none => E
    else E
  else if c = BACKSPACE ∨ c = CTRL_KEY 104 ∨ c = DEL_KEY then
    editorDelChar (if c = DEL_KEY then editorMoveCursor E ARROW_RIGHT else E)
  else if c = PAGE_UP ∨ c = PAGE_DOWN then
    let E1 : editorConfig :=
      if c = PAGE_UP then { E with file_position_y := E.row_offset }
      else
        let E0 : editorConfig :=
          { E with file_position_y := E.row_offset + E.screen_rows - 1 }
        if E0.file_position_y > E0.number_of_rows then
          { E0 with file_position_y := E0.number_of_rows }
        else E0
    moveCursorTimes (if c = PAGE_UP then ARROW_UP else ARROW_DOWN) E1.screen_rows.toNat E1
  else if c = ARROW_UP ∨ c = ARROW_DOWN ∨ c = ARROW_LEFT ∨ c = ARROW_RIGHT then
    editorMoveCursor E c
  else if c = CTRL_KEY 108 ∨ c = ESC then E
  else editorInsertChar E c

/-- The last statement of `editorProcessKeypress`: `quit_times = TEXOR_QUIT_TIMES`. -/
def resetQuitTimes : Outcome → Outcome
  | Outcome.running W => Outcome.running { W with quit_times := TEXOR_QUIT_TIMES }
  | o => o

/-- The function `editorProcessKeypress`: read one key, then the `switch`; `113`, `97`, `115`
are the letters `q`, `a`, `s`. -/
def editorProcessKeypress (env : Env) (W : World) : Outcome :=
  match editorReadKey env.charSigned W.input with
  | KeyResult.blocked => Outcome.blocked
  | KeyResult.died => Outcome.died
  | KeyResult.key c rest =>
    let W1 : World := { W with input := rest }
    if c = CTRL_KEY 113 then
      if W1.E.dirty ≠ 0 ∧ W1.quit_times > 0 then
        Outcome.running
          { W1 with
            E := editorSetStatusMessage env.now W1.E (quitWarning W1.quit_times)
            quit_times := W1.quit_times - 1 }
      else Outcome.exited W1 exitSequence
    else if c = CTRL_KEY 97 then resetQuitTimes (editorSaveAs env W1)
    else if c = CTRL_KEY 115 then resetQuitTimes (editorSave env W1)
    else resetQuitTimes (Outcome.running { W1 with E := processEditKey W1.E c })

/-- The byte is typed as a character: it is a byte, and none of Enter (13), Ctrl-Q (17),
Ctrl-A (1), Ctrl-S (19), Ctrl-H (8), Backspace (127), Ctrl-L (12) and the escape byte (27). -/
def insertableByte (b : Nat) : Prop :=
  b < 256 ∧ b ≠ 13 ∧ b ≠ 17 ∧ b ≠ 1 ∧ b ≠ 19 ∧ b ≠ 8 ∧ b ≠ 127 ∧ b ≠ 12 ∧ b ≠ 27

instance (b : Nat) : Decidable (insertableByte b) := by
  unfold insertableByte; infer_instance

/-- The editing keys of a sequence dispatched one after the other by the `switch` of
`editorProcessKeypress`. -/
def pressEditKeys (E : editorConfig) (keys : List Int) : editorConfig :=
  keys.foldl processEditKey E

/-! ## Start-up and the main loop -/

/-- The function `initEditor` when `getWindowSize` reports a window of `rows` by `cols`. -/
def initEditor (rows cols : Int) : editorConfig :=
  { file_position_x := 0, file_position_y := 0, screen_position_x := 0, row_offset := 0,
    column_offset := 0, row := [], dirty := 0, filename := none, status_message := [],
    status_message_time := 0, screen_rows := rows - 2, screen_columns := cols }

/-- The help text `main` puts in the status message. -/
def helpText : List Nat := bytesOf "HELP: Ctrl-S = save | Ctrl-A = save as | Ctrl-Q = quit"

/-- The state in which `main` enters its loop: `initEditor` for a window of `rows` by
`cols`, then `editorOpen` when a file (name, content) is given, then the help message; the
keys are the outcomes of the `read` calls to come. -/
def startWorld (now rows cols : Int) (file : Option (List Nat × List Nat))
    (input : List ReadResult) : World :=
  { E := editorSetStatusMessage now (startDocument (initEditor rows cols) file) helpText
    quit_times := TEXOR_QUIT_TIMES
    input := input
    written := [] }

/-- One turn of the loop of `main`: `editorRefreshScreen(); editorProcessKeypress();`. -/
def mainLoopStep (env : Env) (W : World) : Outcome :=
  editorProcessKeypress env { W with E := editorRefreshScreen W.E }

/-- The loop of `main` for as many turns as there are surroundings given, or until a turn does
not return. -/
def mainLoop : List Env → World → Outcome
  | [], W => Outcome.running W
  | env :: envs, W =>
    match mainLoopStep env W with
    | Outcome.running W1 => mainLoop envs W1
    | o => o

/-- The length of row `i` as `editorMoveCursor` takes it: its size, 0 when there is no such
row. -/
def rowLen (E : editorConfig) (i : Int) : Int :=
  match rowAt E i with
  | some row => row.size
  | none => 0

/-- The cursor bounds: `0 <= file_position_y <= number_of_rows`, `0 <= file_position_x`,
and `file_position_x` is at most the size of the cursor row, 0 when the cursor is on no row
(the append position). -/
def cursorInBounds (E : editorConfig) : Prop :=
  0 ≤ E.file_position_y ∧ E.file_position_y ≤ E.number_of_rows ∧ 0 ≤ E.file_position_x ∧
    E.file_position_x ≤ rowLen E E.file_position_y

instance (E : editorConfig) : Decidable (cursorInBounds E) := by
  unfold cursorInBounds; infer_instance

/-- The row store keeps the dirty counter honest between two states: the counter did not go
down, and the rows are the same if the counter is. -/
def dirtyTracks (E E1 : editorConfig) : Prop :=
  E.dirty ≤ E1.dirty ∧ (E1.dirty = E.dirty → E1.row = E.row)

/-- The byte offset of the cursor in the text of `editorRowsToString`: the bytes of the rows
before the cursor row, each with its newline byte, then `file_position_x` bytes. -/
def cursorByteOffset (E : editorConfig) : Nat :=
  (copyLoop (E.row.take E.file_position_y.toNat) []).length + E.file_position_x.toNat

/-! ## The status bar -/

/-- The invariant of the loop of `main`: the cursor is within its bounds, the row offset is not
negative, and the screen has at least one text row. -/
def loopInvariant (E : editorConfig) : Prop :=
  cursorInBounds E ∧ 0 ≤ E.row_offset ∧ 1 ≤ E.screen_rows

instance (E : editorConfig) : Decidable (loopInvariant E) := by
  unfold loopInvariant; infer_instance

/-- The row offset and the number of screen rows are the same in two states. -/
def sameView (E E1 : editorConfig) : Prop :=
  E1.row_offset = E.row_offset ∧ E1.screen_rows = E.screen_rows

/-! ## The buffer of the prompt -/

/-- The buffer of `editorPrompt` and its capacity `bufsize` after the loop has handled the
keys of a list, one after the other, from the buffer and capacity given; a key that ends the
prompt (ESC, or Enter on a buffer that is not empty) leaves them as they are. -/
def promptBuffer : List Int → List Nat × Nat → List Nat × Nat
  | [], st => st
  | c :: cs, (buf, bufsize) =>
    match promptKey buf bufsize c with
    | PromptAction.more buf1 bufsize1 => promptBuffer cs (buf1, bufsize1)
    | _ => (buf, bufsize)

/-! ## Drawing the rows -/

/-- The row `a TAB b` with its render cache. -/
def sampleRow : erow :=
  { characters := [97, 9, 98]
    rendered_size := 9
    rendered_characters := [97, 32, 32, 32, 32, 32, 32, 32, 98] }

/-- An editor with no rows, as after `initEditor` on a 24 x 80 window. -/
def sampleEmpty : editorConfig :=
  { file_position_x := 0, file_position_y := 0, screen_position_x := 0, row_offset := 0,
    column_offset := 0, screen_rows := 22, screen_columns := 80, row := [], dirty := 0,
    filename := none, status_message := [], status_message_time := 0 }

/-- A two-row document, `a TAB b` and `c`, with the cursor on row 0 at column 2. -/
def sampleDoc : editorConfig :=
  { sampleEmpty with
    file_position_x := 2
    row := [sampleRow, { characters := [99], rendered_size := 1, rendered_characters := [99] }] }

/-- Surroundings in which plain `char` is signed and every save succeeds. -/
def sampleEnv : Env :=
  { charSigned := true, now := 100, save := SaveOutcome.written, errstr := [] }

/-- The two-row sample document with one unsaved change, a fresh quit counter, and three
presses of Ctrl-Q (byte 17) to come. -/
def sampleDirtyWorld : World :=
  { E := { sampleDoc with dirty := 1 }
    quit_times := TEXOR_QUIT_TIMES
    input := [ReadResult.byte 17, ReadResult.byte 17, ReadResult.byte 17]
    written := [] }

/-- The two-row sample document with the cursor at the start of row 1. -/
def sampleDocRow1 : editorConfig :=
  { sampleDoc with file_position_x := 0, file_position_y := 1 }

/-- The two-row sample document with the cursor at `(0, 2)`, no unsaved change, and the keys
Backspace (byte 127) and `x` (byte 120) to come. -/
def sampleTypingWorld : World :=
  { E := sampleDoc
    quit_times := TEXOR_QUIT_TIMES
    input := [ReadResult.byte 127, ReadResult.byte 120]
    written := [] }

/-- Surroundings in which the `open` of a save fails with the error text `EACCES`. -/
def sampleFailEnv : Env :=
  { charSigned := true, now := 100, save := SaveOutcome.openFails, errstr := bytesOf "EACCES" }

/-- The two-row sample document with one unsaved change and the file name `f`, no key to
come. -/
def sampleNamedWorld : World :=
  { E := { sampleDoc with dirty := 1, filename := some [102] }
    quit_times := TEXOR_QUIT_TIMES
    input := []
    written := [] }

/-- The state after a session on a 24 x 80 window that starts with no file and types `x` and
Enter: the rows `x` and the empty row, the cursor at `(1, 0)`. -/
def sampleSessionEnd : World :=
  { E :=
      { sampleEmpty with
        file_position_y := 1
        screen_position_x := 1
        row :=
          [{ characters := [120], rendered_size := 1, rendered_characters := [120] },
            { characters := [], rendered_size := 0, rendered_characters := [] }]
        dirty := 3
        status_message := helpText }
    quit_times := TEXOR_QUIT_TIMES
    input := []
    written := [] }

/-- The two-row sample document with the cursor at the end of row 0, and the key Delete (the
bytes `ESC [ 3 ~`) to come. -/
def sampleDeleteWorld : World :=
  { E := { sampleDoc with file_position_x := 3 }
    quit_times := TEXOR_QUIT_TIMES
    input := [ReadResult.byte 27, ReadResult.byte 91, ReadResult.byte 51, ReadResult.byte 126]
    written := [] }

/-- The two-row sample document with the cursor at `(0, 2)` and the key Page-Down (the bytes
`ESC [ 6 ~`) to come. -/
def samplePageWorld : World :=
  { E := sampleDoc
    quit_times := TEXOR_QUIT_TIMES
    input := [ReadResult.byte 27, ReadResult.byte 91, ReadResult.byte 54, ReadResult.byte 126]
    written := [] }

/-- The start of a session on a window of 2 rows by 80 columns, with no file: `screen_rows` is
0; the keys Page-Up (the bytes `ESC [ 5 ~`) and `x` (byte 120) are to come. -/
def sampleTinyStart : World :=
  startWorld 0 2 80 none
    [ReadResult.byte 27, ReadResult.byte 91, ReadResult.byte 53, ReadResult.byte 126,
      ReadResult.byte 120]

/-- The state of that session after the first turn of the loop of `main`: the cursor is on
row 1 of a document without rows. -/
def sampleTinyAfterPageUp : World :=
  { E :=
      { sampleEmpty with
        file_position_y := 1
        row_offset := 1
        screen_rows := 0
        status_message := helpText }
    quit_times := TEXOR_QUIT_TIMES
    input := [ReadResult.byte 120]
    written := [] }

/-- A row of `n` tab bytes, as `editorInsertRow` stores it before it calls
`editorUpdateRow`. -/
def tabsRow (n : Nat) : erow :=
  { characters := List.replicate n TAB, rendered_size := 0, rendered_characters := [] }

/-- A row of `2 ^ 28` tab bytes (256 MiB). -/
def sampleTabs28 : erow := tabsRow 268435456

/-- A row of `2 ^ 29` tab bytes (512 MiB). -/
def sampleTabs29 : erow := tabsRow 536870912

/-! ## Rendering: the loops of `editorUpdateRow` compute the tab expansion -/

/-- Closed form of the padding loop once the iteration bound covers the distance to the next
tab stop. -/
theorem padToTabStop_eq (fuel : Nat) : ∀ (buf : List Nat) (index : Nat),
    (TEXOR_TAB_STOP - index % TEXOR_TAB_STOP) % TEXOR_TAB_STOP ≤ fuel →
    padToTabStop fuel (buf, index) =
      (buf ++ List.replicate ((TEXOR_TAB_STOP - index % TEXOR_TAB_STOP) % TEXOR_TAB_STOP) SPACE,
        index + (TEXOR_TAB_STOP - index % TEXOR_TAB_STOP) % TEXOR_TAB_STOP) := by
  induction fuel with
  | zero =>
    intro buf index h
    have hk : (TEXOR_TAB_STOP - index % TEXOR_TAB_STOP) % TEXOR_TAB_STOP = 0 := by omega
    simp [padToTabStop, hk]
  | succ fuel ih =>
    intro buf index h
    unfold padToTabStop
    by_cases hz : index % TEXOR_TAB_STOP = 0
    · have hk : (TEXOR_TAB_STOP - index % TEXOR_TAB_STOP) % TEXOR_TAB_STOP = 0 := by
        simp [hz]
      simp [hz, hk]
    · have hk : (TEXOR_TAB_STOP - index % TEXOR_TAB_STOP) % TEXOR_TAB_STOP =
          (TEXOR_TAB_STOP - (index + 1) % TEXOR_TAB_STOP) % TEXOR_TAB_STOP + 1 := by
        unfold TEXOR_TAB_STOP at hz ⊢
        omega
      have hle : (TEXOR_TAB_STOP - (index + 1) % TEXOR_TAB_STOP) % TEXOR_TAB_STOP ≤ fuel := by
        omega
      rw [if_pos hz, ih _ _ hle, hk]
      simp [List.replicate_succ, Nat.add_assoc, Nat.add_comm 1]

/-- The padding loop of `editorUpdateRow` always leaves through its exit condition within
`TEXOR_TAB_STOP` iterations: `index` is then a multiple of the tab stop. -/
theorem padToTabStop_index (buf : List Nat) (index : Nat) :
    (padToTabStop TEXOR_TAB_STOP (buf, index)).2 % TEXOR_TAB_STOP = 0 := by
  have hle : (TEXOR_TAB_STOP - index % TEXOR_TAB_STOP) % TEXOR_TAB_STOP ≤ TEXOR_TAB_STOP := by
    unfold TEXOR_TAB_STOP
    omega
  rw [padToTabStop_eq _ _ _ hle]
  show (index + (TEXOR_TAB_STOP - index % TEXOR_TAB_STOP) % TEXOR_TAB_STOP) % TEXOR_TAB_STOP = 0
  unfold TEXOR_TAB_STOP
  omega

/-- The main loop of `editorUpdateRow`, started with `index` equal to the number of bytes
written, writes the tab expansion and leaves `index` at its length. -/
theorem renderLoop_eq (chars : List Nat) : ∀ (buf : List Nat),
    renderLoop chars (buf, buf.length) =
      (tabExpansionFrom TEXOR_TAB_STOP buf chars,
        (tabExpansionFrom TEXOR_TAB_STOP buf chars).length) := by
  induction chars with
  | nil => intro buf; simp [renderLoop, tabExpansionFrom]
  | cons c rest ih =>
    intro buf
    unfold renderLoop tabExpansionFrom
    by_cases hc : c = TAB
    · have hle : (TEXOR_TAB_STOP - (buf.length + 1) % TEXOR_TAB_STOP) % TEXOR_TAB_STOP
          ≤ TEXOR_TAB_STOP := by
        unfold TEXOR_TAB_STOP
        omega
      rw [if_pos hc, if_pos hc, padToTabStop_eq _ _ _ hle]
      have h := ih (buf ++ SPACE ::
        List.replicate ((TEXOR_TAB_STOP - (buf.length + 1) % TEXOR_TAB_STOP) % TEXOR_TAB_STOP) SPACE)
      simp only [List.length_append, List.length_cons, List.length_replicate] at h
      rw [← h]
      congr 2
      · simp
      · omega
    · rw [if_neg hc, if_neg hc]
      have h := ih (buf ++ [c])
      simp only [List.length_append, List.length_cons, List.length_nil] at h
      exact h

/-- What `editorUpdateRow` returns, in terms of the tab expansion. -/
theorem editorUpdateRow_eq (row : erow) :
    editorUpdateRow row =
      { row with
        rendered_characters := tabExpansion row.characters
        rendered_size := ((tabExpansion row.characters).length : Int) } := by
  have h := renderLoop_eq row.characters []
  simp only [List.length_nil] at h
  simp [editorUpdateRow, tabExpansion, h]

/-- The row `editorUpdateRow` returns has a fresh cache. -/
theorem cacheFresh_editorUpdateRow (row : erow) : cacheFresh (editorUpdateRow row) := by
  rw [editorUpdateRow_eq]
  exact ⟨rfl, rfl⟩

/-- Reading a row at a natural-number index. -/
theorem rowAt_natCast (E : editorConfig) (n : Nat) : rowAt E (n : Int) = E.row[n]? := by
  simp [rowAt]

/-- There is no row at a negative index. -/
theorem rowAt_neg (E : editorConfig) (i : Int) (h : i < 0) : rowAt E i = none := by
  simp [rowAt, h]

/-- A row that exists has an index inside the document. -/
theorem rowAt_some_bounds (E : editorConfig) (i : Int) (r : erow) (h : rowAt E i = some r) :
    0 ≤ i ∧ i < E.number_of_rows := by
  by_cases hi : i < 0
  · rw [rowAt_neg E i hi] at h
    cases h
  · have h0 : 0 ≤ i := by omega
    lift i to Nat using h0
    rw [rowAt_natCast] at h
    have hlt : i < E.row.length := by
      by_contra hge
      rw [List.getElem?_eq_none (by omega)] at h
      cases h
    exact ⟨by omega, by unfold editorConfig.number_of_rows; exact_mod_cast hlt⟩

/-- Rows before an inserted element keep their index. -/
theorem insertAt_getElem_lt {α : Type} (l : List α) (x : α) (k j : Nat)
    (hk : k ≤ l.length) (hj : j < k) : (l.take k ++ x :: l.drop k)[j]? = l[j]? := by
  rw [List.getElem?_append_left (by simp; omega), List.getElem?_take, if_pos hj]

/-- The inserted element sits at the insertion index. -/
theorem insertAt_getElem_eq {α : Type} (l : List α) (x : α) (k : Nat)
    (hk : k ≤ l.length) : (l.take k ++ x :: l.drop k)[k]? = some x := by
  rw [List.getElem?_append_right (by simp)]
  simp [Nat.min_eq_left hk]

/-- Rows from the insertion index on move up by one. -/
theorem insertAt_getElem_gt {α : Type} (l : List α) (x : α) (k j : Nat)
    (hk : k ≤ l.length) (hj : k ≤ j) : (l.take k ++ x :: l.drop k)[j + 1]? = l[j]? := by
  rw [List.getElem?_append_right (by simp; omega)]
  have h1 : j + 1 - (List.take k l).length = (j - k) + 1 := by
    simp [Nat.min_eq_left hk]; omega
  rw [h1, List.getElem?_cons_succ, List.getElem?_drop]
  congr 1
  omega

/-- The rows after `editorInsertRow` at an index inside `[0, number_of_rows]`. -/
theorem editorInsertRow_in_range (E : editorConfig) (k : Nat) (s : List Nat)
    (hk : k ≤ E.row.length) :
    editorInsertRow E (k : Int) s =
      { E with
        row := E.row.take k ++
          editorUpdateRow { characters := s, rendered_size := 0, rendered_characters := [] } ::
            E.row.drop k
        dirty := E.dirty + 1 } := by
  have h : ¬ ((k : Int) < 0 ∨ (k : Int) > E.number_of_rows) := by
    unfold editorConfig.number_of_rows
    omega
  simp [editorInsertRow, h]

/-- The state after `editorDelRow` at an index inside `[0, number_of_rows)`. -/
theorem editorDelRow_in_range (E : editorConfig) (k : Nat) (hk : k < E.row.length) :
    editorDelRow E (k : Int) = { E with row := E.row.eraseIdx k, dirty := E.dirty + 1 } := by
  have h : ¬ ((k : Int) < 0 ∨ (k : Int) ≥ E.number_of_rows) := by
    unfold editorConfig.number_of_rows
    omega
  simp [editorDelRow, h]

/-! ## Row store contracts -/

/-- C4: for `0 <= at <= number_of_rows`, `editorInsertRow(at, s)` gives a document with one
more row, whose row `at` has raw content `s`; every row before `at` is unchanged, every old
row `i >= at` is now row `i + 1`, unchanged; `dirty` grows by exactly 1. -/
theorem C4_editorInsertRow_inserts (E : editorConfig) (idx : Int) (s : List Nat)
    (h0 : 0 ≤ idx) (h1 : idx ≤ E.number_of_rows) :
    (editorInsertRow E idx s).number_of_rows = E.number_of_rows + 1 ∧
    (rowAt (editorInsertRow E idx s) idx).map erow.characters = some s ∧
    (∀ i : Int, i < idx → rowAt (editorInsertRow E idx s) i = rowAt E i) ∧
    (∀ i : Int, idx ≤ i → rowAt (editorInsertRow E idx s) (i + 1) = rowAt E i) ∧
    (editorInsertRow E idx s).dirty = E.dirty + 1 := by
  lift idx to Nat using h0
  have hk : idx ≤ E.row.length := by
    unfold editorConfig.number_of_rows at h1
    exact_mod_cast h1
  rw [editorInsertRow_in_range E idx s hk]
  refine ⟨?_, ?_, ?_, ?_, rfl⟩
  · simp only [editorConfig.number_of_rows, List.length_append, List.length_cons,
      List.length_take, List.length_drop]
    omega
  · rw [rowAt_natCast]
    simp only [insertAt_getElem_eq _ _ _ hk, Option.map_some']
    rw [editorUpdateRow_eq]
  · intro i hi
    by_cases hneg : i < 0
    · rw [rowAt_neg _ i hneg, rowAt_neg _ i hneg]
    · have hi0 : 0 ≤ i := by omega
      lift i to Nat using hi0
      rw [rowAt_natCast, rowAt_natCast]
      exact insertAt_getElem_lt _ _ _ _ hk (by omega)
  · intro i hi
    have hi0 : 0 ≤ i := by omega
    lift i to Nat using hi0
    have e : ((i : Int) + 1) = ((i + 1 : Nat) : Int) := by push_cast; rfl
    rw [e, rowAt_natCast, rowAt_natCast]
    exact insertAt_getElem_gt _ _ _ _ hk (by omega)

/-- C5: for `0 <= at < number_of_rows`, `editorDelRow(at)` gives a document with one row
fewer; every row before `at` is unchanged, every old row `i > at` is now row `i - 1`,
unchanged; `dirty` grows by exactly 1. -/
theorem C5_editorDelRow_removes (E : editorConfig) (idx : Int)
    (h0 : 0 ≤ idx) (h1 : idx < E.number_of_rows) :
    (editorDelRow E idx).number_of_rows = E.number_of_rows - 1 ∧
    (∀ i : Int, i < idx → rowAt (editorDelRow E idx) i = rowAt E i) ∧
    (∀ i : Int, idx < i → rowAt (editorDelRow E idx) (i - 1) = rowAt E i) ∧
    (editorDelRow E idx).dirty = E.dirty + 1 := by
  lift idx to Nat using h0
  have hk : idx < E.row.length := by
    unfold editorConfig.number_of_rows at h1
    exact_mod_cast h1
  rw [editorDelRow_in_range E idx hk]
  refine ⟨?_, ?_, ?_, rfl⟩
  · simp only [editorConfig.number_of_rows, List.length_eraseIdx, if_pos hk]
    omega
  · intro i hi
    by_cases hneg : i < 0
    · rw [rowAt_neg _ i hneg, rowAt_neg _ i hneg]
    · have hi0 : 0 ≤ i := by omega
      lift i to Nat using hi0
      rw [rowAt_natCast, rowAt_natCast]
      show (E.row.eraseIdx idx)[i]? = E.row[i]?
      rw [List.getElem?_eraseIdx, if_pos (by omega)]
  · intro i hi
    have hi0 : 0 ≤ i - 1 := by omega
    obtain ⟨j, hj⟩ := Int.eq_ofNat_of_zero_le hi0
    have e : i = ((j + 1 : Nat) : Int) := by push_cast; omega
    rw [hj, e, rowAt_natCast, rowAt_natCast]
    show (E.row.eraseIdx idx)[j]? = E.row[j + 1]?
    rw [List.getElem?_eraseIdx, if_neg (by omega)]

/-- C6: out-of-range structural operations change nothing: `editorInsertRow` with `at < 0`
or `at > number_of_rows`, `editorDelRow` with `at < 0` or `at >= number_of_rows`, and
`editorRowDelChar` on a row with `at < 0` or `at >= row.size` each return the editor state
they were given (rows, row count, cursor, dirty counter and all other fields). -/
theorem C6_out_of_range_is_no_op (E : editorConfig) (idx : Int) (s : List Nat)
    (ri : Int) (row : erow) (col : Int) :
    (idx < 0 ∨ idx > E.number_of_rows → editorInsertRow E idx s = E) ∧
    (idx < 0 ∨ idx ≥ E.number_of_rows → editorDelRow E idx = E) ∧
    (rowAt E ri = some row → col < 0 ∨ col ≥ row.size → editorRowDelChar E ri col = E) := by
  refine ⟨?_, ?_, ?_⟩
  · intro h
    simp [editorInsertRow, h]
  · intro h
    simp [editorDelRow, h]
  · intro hrow h
    simp [editorRowDelChar, hrow, h]

/-- The state after `editorRowInsertChar` on a row that exists. -/
theorem editorRowInsertChar_of_row (E : editorConfig) (ri : Int) (row : erow)
    (hrow : rowAt E ri = some row) (idx c : Int) :
    editorRowInsertChar E ri idx c =
      { E with
        row := E.row.set ri.toNat (editorUpdateRow
          { row with
            characters :=
              row.characters.take (if idx < 0 ∨ idx > row.size then row.size else idx).toNat ++
                (c % 256).toNat ::
                  row.characters.drop
                    (if idx < 0 ∨ idx > row.size then row.size else idx).toNat })
        dirty := E.dirty + 1 } := by
  simp [editorRowInsertChar, hrow]

/-- The state after `editorRowAppendString` on a row that exists. -/
theorem editorRowAppendString_of_row (E : editorConfig) (ri : Int) (row : erow)
    (hrow : rowAt E ri = some row) (s : List Nat) :
    editorRowAppendString E ri s =
      { E with
        row := E.row.set ri.toNat (editorUpdateRow { row with characters := row.characters ++ s })
        dirty := E.dirty + 1 } := by
  simp [editorRowAppendString, hrow]

/-- The state after `editorRowDelChar` on a row that exists, at a column inside the row. -/
theorem editorRowDelChar_of_row (E : editorConfig) (ri : Int) (row : erow)
    (hrow : rowAt E ri = some row) (idx : Int) (h0 : 0 ≤ idx) (h1 : idx < row.size) :
    editorRowDelChar E ri idx =
      { E with
        row := E.row.set ri.toNat
          (editorUpdateRow { row with characters := row.characters.eraseIdx idx.toNat })
        dirty := E.dirty + 1 } := by
  have h : ¬ (idx < 0 ∨ idx ≥ row.size) := by omega
  simp [editorRowDelChar, hrow, h]

/-- Reading back a row that was just stored at the index of an existing row. -/
theorem rowAt_set_same (E E1 : editorConfig) (ri : Int) (row r : erow)
    (hrow : rowAt E ri = some row) (hE1 : E1.row = E.row.set ri.toNat r) :
    rowAt E1 ri = some r := by
  obtain ⟨h0, h1⟩ := rowAt_some_bounds E ri row hrow
  lift ri to Nat using h0
  have hlt : ri < E.row.length := by
    unfold editorConfig.number_of_rows at h1
    exact_mod_cast h1
  rw [rowAt_natCast, hE1]
  simp [List.getElem?_set, hlt]

/-- Reading another row after one row was stored. -/
theorem rowAt_set_other (E E1 : editorConfig) (ri i : Int) (r : erow)
    (h0 : 0 ≤ ri) (hne : i ≠ ri) (hE1 : E1.row = E.row.set ri.toNat r) :
    rowAt E1 i = rowAt E i := by
  by_cases hneg : i < 0
  · rw [rowAt_neg _ i hneg, rowAt_neg _ i hneg]
  · have hi0 : 0 ≤ i := by omega
    lift i to Nat using hi0
    lift ri to Nat using h0
    have hne1 : ri ≠ i := by
      intro h
      exact hne (by rw [h])
    rw [rowAt_natCast, rowAt_natCast, hE1]
    simp [List.getElem?_set, hne1]

/-- Removing the byte that was just inserted gives back the original bytes. -/
theorem eraseIdx_insertAt {α : Type} (l : List α) (x : α) (k : Nat) (hk : k ≤ l.length) :
    (l.take k ++ x :: l.drop k).eraseIdx k = l := by
  rw [List.eraseIdx_append_of_length_le (by simp)]
  simp [Nat.min_eq_left hk]

/-- C7 (amended): on a row that exists, `editorRowInsertChar(row, col, ch)` inserts the byte
`ch` at index `col` when `0 <= col <= row.size`, and appends it at the end of the row for every
other `col` (negative or greater than `row.size`); the size grows by exactly 1 in every
case. -/
theorem C7_editorRowInsertChar_inserts (E : editorConfig) (ri : Int) (row : erow) (col : Int)
    (ch : Nat) (hrow : rowAt E ri = some row) (hch : ch < 256) :
    (0 ≤ col ∧ col ≤ row.size →
      (rowAt (editorRowInsertChar E ri col (ch : Int)) ri).map erow.characters =
        some (row.characters.take col.toNat ++ ch :: row.characters.drop col.toNat)) ∧
    (col < 0 ∨ col > row.size →
      (rowAt (editorRowInsertChar E ri col (ch : Int)) ri).map erow.characters =
        some (row.characters ++ [ch])) ∧
    (rowAt (editorRowInsertChar E ri col (ch : Int)) ri).map erow.size = some (row.size + 1) := by
  have hbyte : ((ch : Int) % 256).toNat = ch := by omega
  have key := rowAt_set_same E _ ri row _ hrow
    (congrArg editorConfig.row (editorRowInsertChar_of_row E ri row hrow col (ch : Int)))
  rw [key, editorUpdateRow_eq]
  simp only [Option.map_some', hbyte]
  refine ⟨?_, ?_, ?_⟩
  · intro h
    have hn : ¬ (col < 0 ∨ col > row.size) := by omega
    rw [if_neg hn]
  · intro h
    rw [if_pos h]
    simp [erow.size]
  · simp only [erow.size, List.length_append, List.length_cons, List.length_take,
      List.length_drop]
    congr 1
    split
    · simp
    · rename_i hn
      have h2 : col.toNat ≤ row.characters.length := by
        omega
      push_cast
      omega

/-- C8: on a row that exists and for `0 <= col <= row.size`, `editorRowInsertChar(row, col,
ch)` followed by `editorRowDelChar(row, col)` leaves the row with the raw content and the size
it had before the insertion, and with a render cache equal to the expansion of that content. -/
theorem C8_insert_then_delete_char (E : editorConfig) (ri : Int) (row : erow) (col : Int)
    (ch : Int) (hrow : rowAt E ri = some row) (h0 : 0 ≤ col) (h1 : col ≤ row.size) :
    ∃ row2 : erow,
      rowAt (editorRowDelChar (editorRowInsertChar E ri col ch) ri col) ri = some row2 ∧
      row2.characters = row.characters ∧ row2.size = row.size ∧
      row2.rendered_characters = tabExpansion row.characters ∧
      row2.rendered_size = ((tabExpansion row.characters).length : Int) := by
  have hn : ¬ (col < 0 ∨ col > row.size) := by omega
  have hk : col.toNat ≤ row.characters.length := by
    unfold erow.size at h1
    omega
  have hins := editorRowInsertChar_of_row E ri row hrow col ch
  rw [if_neg hn] at hins
  have key1 := rowAt_set_same E _ ri row _ hrow (congrArg editorConfig.row hins)
  have hsz : col < (editorUpdateRow
      { row with
        characters := row.characters.take col.toNat ++ (ch % 256).toNat ::
          row.characters.drop col.toNat }).size := by
    rw [editorUpdateRow_eq]
    simp only [erow.size, List.length_append, List.length_cons, List.length_take,
      List.length_drop]
    unfold erow.size at h1
    push_cast
    omega
  have hdel := editorRowDelChar_of_row _ ri _ key1 col h0 hsz
  have key2 := rowAt_set_same _ _ ri _ _ key1 (congrArg editorConfig.row hdel)
  refine ⟨_, key2, ?_⟩
  have hchars : (editorUpdateRow
      { row with
        characters := row.characters.take col.toNat ++ (ch % 256).toNat ::
          row.characters.drop col.toNat }).characters.eraseIdx col.toNat = row.characters := by
    rw [editorUpdateRow_eq]
    exact eraseIdx_insertAt _ _ _ hk
  rw [editorUpdateRow_eq]
  simp only [hchars, erow.size]
  trivial

/-! ## The text of the document (`editorRowsToString`) -/

/-- The copy loop appends, for each row in order, its bytes and one newline byte. -/
theorem copyLoop_eq (rows : List erow) : ∀ (buf : List Nat),
    copyLoop rows buf = buf ++ (rows.map (fun r => r.characters ++ [NEWLINE])).flatten := by
  induction rows with
  | nil => intro buf; simp [copyLoop]
  | cons r rest ih =>
    intro buf
    simp [copyLoop, ih, List.append_assoc]

/-- A row that exists splits the row list around it. -/
theorem rowAt_some_split (E : editorConfig) (i : Int) (r : erow) (h : rowAt E i = some r) :
    ∃ pre post : List erow, E.row = pre ++ r :: post ∧ i = (pre.length : Int) := by
  obtain ⟨h0, h1⟩ := rowAt_some_bounds E i r h
  lift i to Nat using h0
  have hlt : i < E.row.length := by
    unfold editorConfig.number_of_rows at h1
    exact_mod_cast h1
  rw [rowAt_natCast, List.getElem?_eq_getElem hlt] at h
  have hr : E.row[i] = r := by simpa using h
  refine ⟨E.row.take i, E.row.drop (i + 1), ?_, ?_⟩
  · rw [← hr, ← List.drop_eq_getElem_cons hlt, List.take_append_drop]
  · simp [Nat.min_eq_left (Nat.le_of_lt hlt)]

/-- The row right after a given beginning of the row list. -/
theorem rowAt_append_cons (E : editorConfig) (pre rest : List erow) (a : erow)
    (h : E.row = pre ++ a :: rest) : rowAt E (pre.length : Int) = some a := by
  rw [rowAt_natCast, h, List.getElem?_append_right (le_refl _)]
  simp

/-- The second row after a given beginning of the row list. -/
theorem rowAt_append_cons_succ (E : editorConfig) (pre rest : List erow) (a b : erow)
    (h : E.row = pre ++ a :: b :: rest) : rowAt E ((pre.length : Int) + 1) = some b := by
  have e : ((pre.length : Int) + 1) = ((pre.length + 1 : Nat) : Int) := by push_cast; rfl
  rw [e, rowAt_natCast, h, List.getElem?_append_right (by omega)]
  simp

/-- Storing at the index right after `pre` replaces the row there. -/
theorem set_append_cons {α : Type} (pre rest : List α) (a b : α) :
    (pre ++ a :: rest).set pre.length b = pre ++ b :: rest := by
  rw [List.set_append]
  simp

/-- Erasing the index right after `pre` removes the row there. -/
theorem eraseIdx_append_cons {α : Type} (pre rest : List α) (a : α) :
    (pre ++ a :: rest).eraseIdx pre.length = pre ++ rest := by
  rw [List.eraseIdx_append_of_length_le (le_refl _)]
  simp

/-- What `editorInsertNewline` does with the cursor on an existing row, at a column inside
it: the row is replaced by its two halves and the cursor moves to the start of the second. -/
theorem editorInsertNewline_split (E : editorConfig) (pre post : List erow) (row : erow)
    (m : Nat) (hrows : E.row = pre ++ row :: post)
    (hy : E.file_position_y = (pre.length : Int)) (hx : E.file_position_x = (m : Int))
    (hm : m ≤ row.characters.length) :
    ∃ A B : erow,
      (editorInsertNewline E).row = pre ++ A :: B :: post ∧
      A.characters = row.characters.take m ∧ B.characters = row.characters.drop m ∧
      cacheFresh A ∧ (cacheFresh row → cacheFresh B) ∧
      (editorInsertNewline E).file_position_y = (pre.length : Int) + 1 ∧
      (editorInsertNewline E).file_position_x = 0 ∧
      (editorInsertNewline E).dirty = E.dirty + 1 := by
  have hlen : E.row.length = pre.length + (post.length + 1) := by simp [hrows]
  by_cases hm0 : m = 0
  · subst hm0
    have hx0 : E.file_position_x = 0 := by simpa using hx
    have hins := editorInsertRow_in_range E pre.length [] (by omega)
    refine ⟨editorUpdateRow { characters := [], rendered_size := 0, rendered_characters := [] },
      row, ?_, ?_, ?_, cacheFresh_editorUpdateRow _, fun h => h, ?_, ?_, ?_⟩
    · simp [editorInsertNewline, hx0, hy, hins, hrows]
    · rw [editorUpdateRow_eq]; simp
    · simp
    · simp [editorInsertNewline, hx0, hy, hins]
    · simp [editorInsertNewline, hx0, hy, hins]
    · simp [editorInsertNewline, hx0, hy, hins]
  · have hx0 : E.file_position_x ≠ 0 := by omega
    have hrow : rowAt E E.file_position_y = some row := by
      rw [hy]; exact rowAt_append_cons E pre post row hrows
    have e : ((pre.length : Int) + 1) = ((pre.length + 1 : Nat) : Int) := by push_cast; rfl
    have hins := editorInsertRow_in_range E (pre.length + 1)
      (row.characters.drop m) (by omega)
    have hrows1 : (editorInsertRow E ((pre.length + 1 : Nat) : Int)
        (row.characters.drop m)).row =
        pre ++ row :: editorUpdateRow
          { characters := row.characters.drop m, rendered_size := 0,
            rendered_characters := [] } :: post := by
      rw [hins, hrows]
      simp [List.take_append, List.drop_append]
    have hy1 : (editorInsertRow E ((pre.length + 1 : Nat) : Int)
        (row.characters.drop m)).file_position_y = (pre.length : Int) := by
      rw [hins]; exact hy
    have hx1 : (editorInsertRow E ((pre.length + 1 : Nat) : Int)
        (row.characters.drop m)).file_position_x = (m : Int) := by
      rw [hins]; exact hx
    have hd1 : (editorInsertRow E ((pre.length + 1 : Nat) : Int)
        (row.characters.drop m)).dirty = E.dirty + 1 := by
      rw [hins]
    have hrow1 := rowAt_append_cons _ pre _ row hrows1
    have hrow0 : rowAt E (pre.length : Int) = some row := by rw [← hy]; exact hrow
    have hmz : ¬ ((m : Int) = 0) := by omega
    refine ⟨editorUpdateRow { row with characters := row.characters.take m },
      editorUpdateRow
        { characters := row.characters.drop m, rendered_size := 0, rendered_characters := [] },
      ?_, ?_, ?_, cacheFresh_editorUpdateRow _, fun _ => cacheFresh_editorUpdateRow _, ?_, ?_, ?_⟩
    · simp only [editorInsertNewline, hy, hx, if_neg hmz, hrow0, e, hy1, hx1, hrow1,
        Int.toNat_ofNat, hrows1, set_append_cons]
    · rw [editorUpdateRow_eq]
    · rw [editorUpdateRow_eq]
    · simp only [editorInsertNewline, hy, hx, if_neg hmz, hrow0, e, Int.toNat_ofNat, hy1, hx1,
        hrow1]
    · simp only [editorInsertNewline, hy, hx, if_neg hmz, hrow0, e, Int.toNat_ofNat, hy1, hx1,
        hrow1]
    · simp only [editorInsertNewline, hy, hx, if_neg hmz, hrow0, e, Int.toNat_ofNat, hy1, hx1,
        hrow1, hd1]

/-- Erasing the second index after `pre` removes the row there. -/
theorem eraseIdx_append_cons_succ {α : Type} (pre rest : List α) (a b : α) :
    (pre ++ a :: b :: rest).eraseIdx (pre.length + 1) = pre ++ a :: rest := by
  rw [List.eraseIdx_append_of_length_le (by omega)]
  simp

/-- What `editorDelChar` does with the cursor at column 0 of a row that has a row before it:
the two rows are merged into the earlier one and the cursor moves to the join. -/
theorem editorDelChar_merge (E : editorConfig) (pre post : List erow) (A B : erow)
    (hrows : E.row = pre ++ A :: B :: post)
    (hy : E.file_position_y = (pre.length : Int) + 1) (hx : E.file_position_x = 0) :
    editorDelChar E =
      { E with
        row := pre ++
          editorUpdateRow { A with characters := A.characters ++ B.characters } :: post
        dirty := E.dirty + 1 + 1
        file_position_x := A.size
        file_position_y := (pre.length : Int) } := by
  obtain ⟨fx, fy, sx, ro, co, sr, sc, rows, d, fn, sm, smt⟩ := E
  simp only at hrows hy hx
  subst hrows hy hx
  have h1 : ¬ ((pre.length : Int) + 1 = ((pre ++ A :: B :: post).length : Int)) := by
    simp only [List.length_append, List.length_cons]
    push_cast
    omega
  have h2 : ¬ ((pre.length : Int) + 1 = 0) := by omega
  have hy1 : (pre.length : Int) + 1 - 1 = (pre.length : Int) := by omega
  have hn1 : ¬ ((pre.length : Int) + 1 < 0) := by omega
  have hn0 : ¬ ((pre.length : Int) < 0) := by omega
  have ht1 : ((pre.length : Int) + 1).toNat = pre.length + 1 := by omega
  have hgB : (pre ++ A :: B :: post)[pre.length + 1]? = some B := by
    rw [List.getElem?_append_right (by omega)]; simp
  have hgA : (pre ++ A :: B :: post)[pre.length]? = some A := by
    rw [List.getElem?_append_right (le_refl _)]; simp
  have h3 : ¬ ((pre.length : Int) + 1 ≥
      ((pre ++ editorUpdateRow { A with characters := A.characters ++ B.characters } ::
        B :: post).length : Int)) := by
    simp only [List.length_append, List.length_cons]
    push_cast
    omega
  have h4 : ¬ ((pre.length : Int) + 1 < 0 ∨ (pre.length : Int) + 1 ≥
      ((pre ++ editorUpdateRow { A with characters := A.characters ++ B.characters } ::
        B :: post).length : Int)) := by
    intro h
    rcases h with h | h
    · exact hn1 h
    · exact h3 h
  simp only [editorDelChar, editorConfig.number_of_rows, if_neg h1, h2, and_false, if_false,
    hy1, gt_iff_lt, lt_irrefl, editorRowAppendString, editorDelRow, rowAt, if_neg hn1,
    if_neg hn0, List.get?_eq_getElem?, if_neg h4, ht1,
    Int.toNat_ofNat, hgA, hgB, set_append_cons, eraseIdx_append_cons_succ]

/-- C9: with the cursor on an existing row `y` at a column `c`, `0 <= c <= size`,
`editorInsertNewline` followed immediately by `editorDelChar` restores the document: the same
number of rows, every row's raw content as before, and the cursor back at `(y, c)`. -/
theorem C9_newline_then_delchar_restores (E : editorConfig) (row : erow)
    (hrow : rowAt E E.file_position_y = some row)
    (h0 : 0 ≤ E.file_position_x) (h1 : E.file_position_x ≤ row.size) :
    (editorDelChar (editorInsertNewline E)).number_of_rows = E.number_of_rows ∧
    (editorDelChar (editorInsertNewline E)).row.map erow.characters =
      E.row.map erow.characters ∧
    (editorDelChar (editorInsertNewline E)).file_position_y = E.file_position_y ∧
    (editorDelChar (editorInsertNewline E)).file_position_x = E.file_position_x := by
  obtain ⟨pre, post, hrows, hy⟩ := rowAt_some_split E _ row hrow
  obtain ⟨m, hm⟩ := Int.eq_ofNat_of_zero_le h0
  have hml : m ≤ row.characters.length := by
    unfold erow.size at h1
    omega
  obtain ⟨A, B, hr, hA, hB, -, -, hy2, hx2, -⟩ :=
    editorInsertNewline_split E pre post row m hrows hy hm hml
  rw [editorDelChar_merge (editorInsertNewline E) pre post A B hr hy2 hx2]
  have hAsize : A.size = (m : Int) := by
    simp [erow.size, hA, Nat.min_eq_left hml]
  refine ⟨?_, ?_, ?_, ?_⟩
  · simp [editorConfig.number_of_rows, hrows]
  · simp only [hrows, List.map_append, List.map_cons]
    rw [editorUpdateRow_eq]
    simp [hA, hB]
  · exact hy.symm
  · show A.size = E.file_position_x
    rw [hAsize, hm]

/-! ## Loading: the loop of `editorOpen` ends at end of file -/

/-- Every successful `getline` consumes at least one byte. -/
theorem getline_unread_length (input : List Nat) : ∀ (line rest : List Nat),
    getline input = some (line, rest) → rest.length < input.length := by
  induction input with
  | nil => intro line rest h; simp [getline] at h
  | cons b tl ih =>
    intro line rest h
    unfold getline at h
    by_cases hb : b = NEWLINE
    · rw [if_pos hb] at h
      injection h with h
      injection h with _ h2
      rw [← h2]
      simp
    · rw [if_neg hb] at h
      cases hg : getline tl with
      | none =>
        rw [hg] at h
        injection h with h
        injection h with _ h2
        rw [← h2]
        simp
      | some p =>
        obtain ⟨l, u⟩ := p
        rw [hg] at h
        injection h with h
        injection h with _ h2
        have := ih l u hg
        rw [← h2]
        simp only [List.length_cons]
        omega

/-- The loading loop leaves through `getline` reporting end of file: any iteration bound
that is at least the number of unread bytes gives the same result. -/
theorem openLoop_fuel_enough (fuel1 : Nat) : ∀ (fuel2 : Nat) (unread : List Nat)
    (E : editorConfig), unread.length ≤ fuel1 → unread.length ≤ fuel2 →
    openLoop fuel1 unread E = openLoop fuel2 unread E := by
  induction fuel1 with
  | zero =>
    intro fuel2 unread E h1 _
    have hnil : unread = [] := List.length_eq_zero.1 (by omega)
    subst hnil
    cases fuel2 with
    | zero => rfl
    | succ n => simp [openLoop, getline]
  | succ n ih =>
    intro fuel2 unread E h1 h2
    cases fuel2 with
    | zero =>
      have hnil : unread = [] := List.length_eq_zero.1 (by omega)
      subst hnil
      simp [openLoop, getline]
    | succ k =>
      unfold openLoop
      cases hg : getline unread with
      | none => rfl
      | some p =>
        obtain ⟨line, rest⟩ := p
        have hlt := getline_unread_length unread line rest hg
        exact ih k rest _ (by omega) (by omega)

/-! ## The render cache is never stale -/

/-- C4 at the two-row sample document, inserting `x` as row 1. -/
theorem C4_witness :
    (0 : Int) ≤ 1 ∧ (1 : Int) ≤ sampleDoc.number_of_rows ∧
    (editorInsertRow sampleDoc 1 [120]).number_of_rows = sampleDoc.number_of_rows + 1 ∧
    (rowAt (editorInsertRow sampleDoc 1 [120]) 1).map erow.characters = some [120] :=
  ⟨by decide, by decide,
    (C4_editorInsertRow_inserts sampleDoc 1 [120] (by decide) (by decide)).1,
    (C4_editorInsertRow_inserts sampleDoc 1 [120] (by decide) (by decide)).2.1⟩

/-- C5 at the two-row sample document, deleting row 0. -/
theorem C5_witness :
    (0 : Int) ≤ 0 ∧ (0 : Int) < sampleDoc.number_of_rows ∧
    (editorDelRow sampleDoc 0).number_of_rows = sampleDoc.number_of_rows - 1 ∧
    (editorDelRow sampleDoc 0).dirty = sampleDoc.dirty + 1 :=
  ⟨by decide, by decide,
    (C5_editorDelRow_removes sampleDoc 0 (by decide) (by decide)).1,
    (C5_editorDelRow_removes sampleDoc 0 (by decide) (by decide)).2.2.2⟩

/-- C6 at the two-row sample document: row index 3 and column 3 are out of range. -/
theorem C6_witness :
    editorInsertRow sampleDoc 3 [120] = sampleDoc ∧
    editorDelRow sampleDoc 3 = sampleDoc ∧
    editorRowDelChar sampleDoc 0 3 = sampleDoc :=
  ⟨(C6_out_of_range_is_no_op sampleDoc 3 [120] 0 sampleRow 3).1 (Or.inr (by decide)),
    (C6_out_of_range_is_no_op sampleDoc 3 [120] 0 sampleRow 3).2.1 (Or.inr (by decide)),
    (C6_out_of_range_is_no_op sampleDoc 3 [120] 0 sampleRow 3).2.2 rfl (Or.inr (by decide))⟩

/-- C7 as the claim words it fails at a negative column: on the row `a TAB b`,
`editorRowInsertChar(row, -1, 'x')` gives `a TAB b x`, while insertion at the clamped index
`max(0, min(-1, 3)) = 0` would give `x a TAB b`. -/
theorem C7_counterexample_negative_column :
    rowAt sampleDoc 0 = some sampleRow ∧
    (rowAt (editorRowInsertChar sampleDoc 0 (-1) 120) 0).map erow.characters =
      some [97, 9, 98, 120] ∧
    sampleRow.characters.take (clampedIndex (-1) sampleRow.size).toNat ++
      120 :: sampleRow.characters.drop (clampedIndex (-1) sampleRow.size).toNat =
        [120, 97, 9, 98] ∧
    (rowAt (editorRowInsertChar sampleDoc 0 (-1) 120) 0).map erow.characters ≠
      some (sampleRow.characters.take (clampedIndex (-1) sampleRow.size).toNat ++
        120 :: sampleRow.characters.drop (clampedIndex (-1) sampleRow.size).toNat) := by
  decide

/-- C7 (amended) at the row `a TAB b`: column 1 inserts in place, column -1 appends. -/
theorem C7_witness :
    rowAt sampleDoc 0 = some sampleRow ∧ (120 : Nat) < 256 ∧
    (rowAt (editorRowInsertChar sampleDoc 0 1 ((120 : Nat) : Int)) 0).map erow.characters =
      some (sampleRow.characters.take (1 : Int).toNat ++
        120 :: sampleRow.characters.drop (1 : Int).toNat) ∧
    (rowAt (editorRowInsertChar sampleDoc 0 (-1) ((120 : Nat) : Int)) 0).map erow.characters =
      some (sampleRow.characters ++ [120]) :=
  ⟨rfl, by decide,
    (C7_editorRowInsertChar_inserts sampleDoc 0 sampleRow 1 120 rfl (by decide)).1
      ⟨by decide, by decide⟩,
    (C7_editorRowInsertChar_inserts sampleDoc 0 sampleRow (-1) 120 rfl (by decide)).2.1
      (Or.inl (by decide))⟩

/-- C8 at the row `a TAB b`, column 1. -/
theorem C8_witness :
    rowAt sampleDoc 0 = some sampleRow ∧ (0 : Int) ≤ 1 ∧ (1 : Int) ≤ sampleRow.size ∧
    ∃ row2 : erow,
      rowAt (editorRowDelChar (editorRowInsertChar sampleDoc 0 1 120) 0 1) 0 = some row2 ∧
      row2.characters = sampleRow.characters ∧ row2.size = sampleRow.size ∧
      row2.rendered_characters = tabExpansion sampleRow.characters ∧
      row2.rendered_size = ((tabExpansion sampleRow.characters).length : Int) :=
  ⟨rfl, by decide, by decide,
    C8_insert_then_delete_char sampleDoc 0 sampleRow 1 120 rfl (by decide) (by decide)⟩

/-- C9 at the two-row sample document, cursor on row 0 at column 2. -/
theorem C9_witness :
    rowAt sampleDoc sampleDoc.file_position_y = some sampleRow ∧
    (0 : Int) ≤ sampleDoc.file_position_x ∧ sampleDoc.file_position_x ≤ sampleRow.size ∧
    (editorDelChar (editorInsertNewline sampleDoc)).row.map erow.characters =
      sampleDoc.row.map erow.characters ∧
    (editorDelChar (editorInsertNewline sampleDoc)).file_position_x =
      sampleDoc.file_position_x :=
  ⟨rfl, by decide, by decide,
    (C9_newline_then_delchar_restores sampleDoc sampleRow rfl (by decide) (by decide)).2.1,
    (C9_newline_then_delchar_restores sampleDoc sampleRow rfl (by decide) (by decide)).2.2.2⟩

/-! ## Loading: `editorOpen` makes one row per line -/

/-- The function `getline` stops right after the first newline byte. -/
theorem getline_append_newline (l : List Nat) (rest : List Nat) (h : NEWLINE ∉ l) :
    getline (l ++ NEWLINE :: rest) = some (l ++ [NEWLINE], rest) := by
  induction l with
  | nil => simp [getline]
  | cons b tl ih =>
    have hb : b ≠ NEWLINE := fun e => h (by simp [e])
    have htl : NEWLINE ∉ tl := fun e => h (List.mem_cons_of_mem _ e)
    simp [getline, hb, ih htl]

/-- The function `getline` returns what is left of a file that has no newline byte. -/
theorem getline_no_newline (l : List Nat) (h : NEWLINE ∉ l) (hne : l ≠ []) :
    getline l = some (l, []) := by
  induction l with
  | nil => exact absurd rfl hne
  | cons b tl ih =>
    have hb : b ≠ NEWLINE := fun e => h (by simp [e])
    have htl : NEWLINE ∉ tl := fun e => h (List.mem_cons_of_mem _ e)
    cases tl with
    | nil => simp [getline, hb]
    | cons c tl2 =>
      have := ih htl (by simp)
      simp only [getline, if_neg hb] at this ⊢
      rw [this]

/-- The lines `getline` returns are the input lines of the file: with a line `cur` begun,
and for any bound on the number of calls that is at least the number of unread bytes. -/
theorem readLines_eq_fileLinesFrom (content : List Nat) : ∀ (cur : List Nat) (fuel : Nat),
    NEWLINE ∉ cur → (cur ++ content).length ≤ fuel →
    readLines fuel (cur ++ content) = fileLinesFrom cur content := by
  induction content with
  | nil =>
    intro cur fuel hcur hfuel
    simp only [List.append_nil, fileLinesFrom]
    by_cases hc : cur = []
    · subst hc
      cases fuel with
      | zero => simp [readLines]
      | succ n => simp [readLines, getline]
    · rw [if_neg hc]
      cases fuel with
      | zero =>
        simp only [List.append_nil] at hfuel
        exact absurd (List.length_eq_zero.1 (by omega)) hc
      | succ n =>
        simp only [readLines, getline_no_newline cur hcur hc]
        cases n with
        | zero => simp [readLines]
        | succ m => simp [readLines, getline]
  | cons b rest ih =>
    intro cur fuel hcur hfuel
    simp only [List.length_append, List.length_cons] at hfuel
    cases fuel with
    | zero => omega
    | succ n =>
      by_cases hb : b = NEWLINE
      · subst hb
        simp only [readLines, getline_append_newline cur rest hcur, fileLinesFrom, if_true]
        have := ih [] n (by simp) (by simp; omega)
        simp only [List.nil_append] at this
        rw [this]
      · have hcur2 : NEWLINE ∉ cur ++ [b] := by
          intro hmem
          rcases List.mem_append.1 hmem with h1 | h1
          · exact hcur h1
          · simp at h1
            exact hb h1.symm
        have := ih (cur ++ [b]) (n + 1) hcur2 (by simp; omega)
        simp only [List.append_assoc, List.singleton_append] at this
        rw [this]
        simp [fileLinesFrom, hb]

/-- The lines `getline` returns for a whole file are its input lines. -/
theorem readLines_eq_fileLines (content : List Nat) :
    readLines content.length content = fileLines content := by
  have := readLines_eq_fileLinesFrom content [] content.length (by simp) (by simp)
  simpa [fileLines] using this

/-- The loading loop appends one row per line read, and changes nothing else but `dirty`. -/
theorem openLoop_eq (fuel : Nat) : ∀ (unread : List Nat) (E : editorConfig),
    openLoop fuel unread E =
      { E with
        row := E.row ++ (readLines fuel unread).map lineRow
        dirty := E.dirty + ((readLines fuel unread).length : Int) } := by
  induction fuel with
  | zero => intro unread E; simp [openLoop, readLines]
  | succ n ih =>
    intro unread E
    unfold openLoop readLines
    cases hg : getline unread with
    | none => simp
    | some p =>
      obtain ⟨line, rest⟩ := p
      have hins : editorInsertRow E E.number_of_rows (stripLineEnd line) =
          { E with row := E.row ++ [lineRow line], dirty := E.dirty + 1 } := by
        have h := editorInsertRow_in_range E E.row.length (stripLineEnd line) (le_refl _)
        simp only [List.take_length, List.drop_length] at h
        exact h
      simp only [hins, ih]
      simp only [List.map_cons, List.length_cons, List.append_assoc, List.singleton_append,
        Nat.cast_add, Nat.cast_one, editorConfig.mk.injEq, true_and, and_true]
      omega

/-- The rows of a document after `editorOpen`. -/
theorem editorOpen_eq (E : editorConfig) (filename content : List Nat) :
    editorOpen E filename content =
      { E with
        row := E.row ++ (fileLines content).map lineRow
        filename := some filename
        dirty := 0 } := by
  simp [editorOpen, openLoop_eq, readLines_eq_fileLines]

/-! ## Stripping line ends -/

/-- A trailing line-end byte is stripped. -/
theorem stripLineEnd_concat_lineEnd (l : List Nat) (b : Nat) (hb : isLineEnd b) :
    stripLineEnd (l ++ [b]) = stripLineEnd l := by
  unfold stripLineEnd
  exact List.rdropWhile_concat_pos _ l b (by simpa [isLineEnd] using hb)

/-- A line whose last byte is no line end is kept whole. -/
theorem stripLineEnd_concat_other (l : List Nat) (b : Nat) (hb : ¬ isLineEnd b) :
    stripLineEnd (l ++ [b]) = l ++ [b] := by
  unfold stripLineEnd
  exact List.rdropWhile_concat_neg _ l b (by simpa [isLineEnd] using hb)

/-- A trailing run of carriage returns is stripped. -/
theorem stripLineEnd_append_replicate (l : List Nat) (k : Nat) :
    stripLineEnd (l ++ List.replicate k CR) = stripLineEnd l := by
  induction k with
  | zero => simp
  | succ n ih =>
    rw [List.replicate_succ', ← List.append_assoc,
      stripLineEnd_concat_lineEnd _ _ (Or.inr rfl), ih]

/-- A line that does not end with a line-end byte is kept whole. -/
theorem stripLineEnd_fixed (l : List Nat) (h : ∀ b, l.getLast? = some b → ¬ isLineEnd b) :
    stripLineEnd l = l := by
  rcases List.eq_nil_or_concat l with hl | ⟨L, b, hl⟩
  · subst hl
    simp [stripLineEnd]
  · rw [List.concat_eq_append] at hl
    subst hl
    exact stripLineEnd_concat_other L b (h b (List.getLast?_concat L))

/-- What is left after stripping does not end with a line-end byte. -/
theorem stripLineEnd_getLast (l : List Nat) (b : Nat)
    (h : (stripLineEnd l).getLast? = some b) : ¬ isLineEnd b := by
  have hne : stripLineEnd l ≠ [] := by
    intro e
    rw [e] at h
    simp at h
  have hlast := List.rdropWhile_last_not (fun b => decide (b = NEWLINE ∨ b = CR)) l hne
  rw [List.getLast?_eq_getLast _ hne] at h
  injection h with h
  rw [← h]
  simpa [isLineEnd, stripLineEnd] using hlast

/-- Stripping keeps a beginning of the line. -/
theorem stripLineEnd_isPrefix (l : List Nat) : stripLineEnd l <+: l :=
  List.rdropWhile_prefix _ l

/-- The bytes stripped are all line-end bytes. -/
theorem stripLineEnd_dropped (l : List Nat) :
    ∀ b ∈ l.drop (stripLineEnd l).length, isLineEnd b := by
  intro b hb
  have hsplit : l = stripLineEnd l ++
      (List.takeWhile (fun b => decide (b = NEWLINE ∨ b = CR)) l.reverse).reverse := by
    have h := List.takeWhile_append_dropWhile (fun b => decide (b = NEWLINE ∨ b = CR)) l.reverse
    have h2 := congrArg List.reverse h
    simp only [List.reverse_append, List.reverse_reverse] at h2
    rw [stripLineEnd, List.rdropWhile]
    exact h2.symm
  have hdrop : l.drop (stripLineEnd l).length =
      (List.takeWhile (fun b => decide (b = NEWLINE ∨ b = CR)) l.reverse).reverse := by
    have h3 := congrArg (fun x => List.drop (stripLineEnd l).length x) hsplit
    simp only [List.drop_left] at h3
    exact h3
  rw [hdrop] at hb
  have := List.mem_takeWhile_imp (List.mem_reverse.1 hb)
  simpa [isLineEnd] using this

/-- C13: `editorOpen` creates exactly one row per input line of the file, in file order,
after the rows already there (a line ends at each newline byte; a final non-empty fragment
without newline byte is also a line); the raw content of each row is its line with all
trailing newline and carriage-return bytes removed (a beginning of the line, not ending in
such a byte, with only such bytes left out); `dirty` is 0 afterwards.  For the content
`a TAB b LF c LF LF` loaded into an editor without rows this gives 3 rows, and row 0 renders as
`a`, 7 spaces, `b`. -/
theorem C13_editorOpen_one_row_per_line (E : editorConfig) (filename content : List Nat) :
    (editorOpen E filename content).row = E.row ++ (fileLines content).map lineRow ∧
    (editorOpen E filename content).row.map erow.characters =
      E.row.map erow.characters ++ (fileLines content).map stripLineEnd ∧
    (∀ line : List Nat,
      stripLineEnd line <+: line ∧
      (∀ b ∈ line.drop (stripLineEnd line).length, b = NEWLINE ∨ b = CR) ∧
      (stripLineEnd line).getLast? ≠ some NEWLINE ∧
      (stripLineEnd line).getLast? ≠ some CR) ∧
    (editorOpen E filename content).dirty = 0 ∧
    (editorOpen sampleEmpty [102] [97, 9, 98, 10, 99, 10, 10]).number_of_rows = 3 ∧
    (editorOpen sampleEmpty [102] [97, 9, 98, 10, 99, 10, 10]).row.map erow.characters =
      [[97, 9, 98], [99], []] ∧
    (rowAt (editorOpen sampleEmpty [102] [97, 9, 98, 10, 99, 10, 10]) 0).map
        erow.rendered_characters = some [97, 32, 32, 32, 32, 32, 32, 32, 98] := by
  rw [editorOpen_eq]
  refine ⟨rfl, ?_, ?_, rfl, by decide, by decide, by decide⟩
  · simp only [List.map_append, List.map_map]
    congr 1
  · intro line
    refine ⟨stripLineEnd_isPrefix line, stripLineEnd_dropped line, ?_, ?_⟩
    · intro h
      exact stripLineEnd_getLast line _ h (Or.inl rfl)
    · intro h
      exact stripLineEnd_getLast line _ h (Or.inr rfl)

/-! ## Round trips between rows and file text -/

/-- The input lines of a text that starts with a row without newline byte and a newline. -/
theorem fileLinesFrom_append_newline (l : List Nat) : ∀ (cur rest : List Nat),
    NEWLINE ∉ l →
    fileLinesFrom cur (l ++ NEWLINE :: rest) = (cur ++ l ++ [NEWLINE]) :: fileLinesFrom [] rest := by
  induction l with
  | nil => intro cur rest _; simp [fileLinesFrom]
  | cons b tl ih =>
    intro cur rest h
    have hb : b ≠ NEWLINE := fun e => h (by simp [e])
    have htl : NEWLINE ∉ tl := fun e => h (List.mem_cons_of_mem _ e)
    simp [fileLinesFrom, hb, ih _ _ htl]

/-- The input lines of the text of rows that survive the round trip are the rows, each with
its newline byte. -/
theorem fileLines_rows_text (rows : List (List Nat)) (h : ∀ r ∈ rows, NEWLINE ∉ r) :
    fileLines ((rows.map (fun r => r ++ [NEWLINE])).flatten) =
      rows.map (fun r => r ++ [NEWLINE]) := by
  induction rows with
  | nil => simp [fileLines, fileLinesFrom]
  | cons r rest ih =>
    have hr : NEWLINE ∉ r := h r (List.mem_cons_self _ _)
    have hrest : ∀ x ∈ rest, NEWLINE ∉ x := fun x hx => h x (List.mem_cons_of_mem _ hx)
    have ih2 := ih hrest
    unfold fileLines at ih2 ⊢
    simp only [List.map_cons, List.flatten_cons, List.append_assoc, List.singleton_append]
    rw [fileLinesFrom_append_newline r [] _ hr, ih2]
    simp

/-- Every input line is a body without newline byte, possibly followed by one newline. -/
theorem fileLinesFrom_mem (content : List Nat) : ∀ (cur : List Nat), NEWLINE ∉ cur →
    ∀ l ∈ fileLinesFrom cur content,
      ∃ body : List Nat, NEWLINE ∉ body ∧ (l = body ∨ l = body ++ [NEWLINE]) := by
  induction content with
  | nil =>
    intro cur hcur l hl
    unfold fileLinesFrom at hl
    by_cases hc : cur = []
    · simp [hc] at hl
    · simp only [if_neg hc, List.mem_singleton] at hl
      exact ⟨cur, hcur, Or.inl hl⟩
  | cons b rest ih =>
    intro cur hcur l hl
    unfold fileLinesFrom at hl
    by_cases hb : b = NEWLINE
    · rw [if_pos hb] at hl
      rcases List.mem_cons.1 hl with h1 | h1
      · exact ⟨cur, hcur, Or.inr (by rw [h1, hb])⟩
      · exact ih [] (by simp) l h1
    · rw [if_neg hb] at hl
      refine ih (cur ++ [b]) ?_ l hl
      intro hmem
      rcases List.mem_append.1 hmem with h1 | h1
      · exact hcur h1
      · simp at h1
        exact hb h1.symm

/-- Every row that `editorOpen` creates survives the round trip. -/
theorem roundTrips_stripLineEnd (content : List Nat) :
    ∀ l ∈ fileLines content, roundTrips (stripLineEnd l) := by
  intro l hl
  obtain ⟨body, hbody, hcase⟩ := fileLinesFrom_mem content [] (by simp) l hl
  have hstrip : stripLineEnd l = stripLineEnd body := by
    rcases hcase with h | h
    · rw [h]
    · rw [h, stripLineEnd_concat_lineEnd _ _ (Or.inl rfl)]
  refine ⟨?_, ?_⟩
  · rw [hstrip]
    intro hmem
    exact hbody ((stripLineEnd_isPrefix body).subset hmem)
  · intro h
    exact stripLineEnd_getLast l _ h (Or.inr rfl)

/-- A row content that survives the round trip is what stripping its saved line gives. -/
theorem stripLineEnd_saved_row (r : List Nat) (h : roundTrips r) :
    stripLineEnd (r ++ [NEWLINE]) = r := by
  rw [stripLineEnd_concat_lineEnd _ _ (Or.inl rfl)]
  apply stripLineEnd_fixed
  intro b hb hend
  rcases hend with e | e
  · subst e
    exact h.1 (List.mem_of_mem_getLast? hb)
  · subst e
    exact h.2 hb

/-- The text `editorRowsToString` returns, as a function of the row contents. -/
theorem editorRowsToString_text (E : editorConfig) :
    (editorRowsToString E).1 =
      ((E.row.map erow.characters).map (fun r => r ++ [NEWLINE])).flatten := by
  simp [editorRowsToString, copyLoop_eq, Function.comp_def]

/-- C11 (amended): load the bytes that `editorRowsToString` returns for a document into an
editor without rows, with the line splitting of `editorOpen`; the row contents obtained are
the row contents of the document exactly when no row of the document contains a newline byte
and no row ends with a carriage return. -/
theorem C11_round_trip_iff (E0 E : editorConfig) (filename : List Nat)
    (hempty : E0.row = []) :
    (editorOpen E0 filename (editorRowsToString E).1).row.map erow.characters =
        E.row.map erow.characters ↔
      ∀ r ∈ E.row, NEWLINE ∉ r.characters ∧ r.characters.getLast? ≠ some CR := by
  have hload : (editorOpen E0 filename (editorRowsToString E).1).row.map erow.characters =
      (fileLines (editorRowsToString E).1).map stripLineEnd := by
    rw [editorOpen_eq]
    simp only [hempty, List.nil_append, List.map_map]
    apply List.map_congr_left
    intro l _
    simp [lineRow, editorUpdateRow_eq]
  rw [hload]
  constructor
  · intro heq r hr
    have hmem : r.characters ∈ (fileLines (editorRowsToString E).1).map stripLineEnd := by
      rw [heq]
      exact List.mem_map_of_mem _ hr
    obtain ⟨l, hl, hls⟩ := List.mem_map.1 hmem
    rw [← hls]
    exact roundTrips_stripLineEnd _ l hl
  · intro hall
    rw [editorRowsToString_text, fileLines_rows_text _ (by
      intro r hr
      obtain ⟨x, hx, hxr⟩ := List.mem_map.1 hr
      rw [← hxr]
      exact (hall x hx).1)]
    simp only [List.map_map]
    apply List.map_congr_left
    intro r hr
    exact stripLineEnd_saved_row r.characters (hall r hr)

/-! ## Loading and saving at once: line-ending normalisation -/

/-- The last line of `b :: rest` is open when `rest` is empty and `b` is no line end, or when
the last line of `rest` is open. -/
theorem endsOpen_cons (b : Nat) (rest : List Nat) :
    endsOpen (b :: rest) ↔ (rest = [] ∧ ¬ isLineEnd b) ∨ endsOpen rest := by
  cases rest with
  | nil => simp [endsOpen]
  | cons c tl => simp [endsOpen, List.getLast?_cons_cons]

/-- The saved text of the input lines of `content`, read with a line begun that consists of
`pre` (not ending in a line-end byte) and `k` carriage returns. -/
theorem saved_text_from (content : List Nat) : ∀ (pre : List Nat) (k : Nat),
    (∀ b, pre.getLast? = some b → ¬ isLineEnd b) →
    ((fileLinesFrom (pre ++ List.replicate k CR) content).map
        (fun l => stripLineEnd l ++ [NEWLINE])).flatten =
      pre ++ normalizeFrom k content ++
        (if (content = [] ∧ k = 0 ∧ pre ≠ []) ∨ endsOpen content then [NEWLINE] else []) := by
  induction content with
  | nil =>
    intro pre k hpre
    have hno : ¬ endsOpen [] := by simp [endsOpen]
    simp only [fileLinesFrom, normalizeFrom, true_and, hno, or_false]
    by_cases hk : k = 0
    · subst hk
      by_cases hp : pre = []
      · subst hp
        simp
      · simp [hp, stripLineEnd_fixed pre hpre]
    · have hcur : pre ++ List.replicate k CR ≠ [] := by
        intro e
        have := congrArg List.length e
        simp at this
        omega
      simp [hcur, hk, stripLineEnd_append_replicate, stripLineEnd_fixed pre hpre]
  | cons b rest ih =>
    intro pre k hpre
    have hne : ¬ (b :: rest = []) := by simp
    simp only [hne, false_and, false_or]
    by_cases hcr : b = CR
    · subst hcr
      have hnl : CR ≠ NEWLINE := by decide
      have e1 : pre ++ List.replicate k CR ++ [CR] = pre ++ List.replicate (k + 1) CR := by
        rw [List.replicate_succ', List.append_assoc]
      have hopen : endsOpen (CR :: rest) ↔ endsOpen rest := by
        rw [endsOpen_cons]
        simp [isLineEnd]
      have hih := ih pre (k + 1) hpre
      have hcond : ((rest = [] ∧ k + 1 = 0 ∧ pre ≠ []) ∨ endsOpen rest) ↔ endsOpen rest := by
        constructor
        · rintro (⟨_, h, _⟩ | h)
          · omega
          · exact h
        · exact Or.inr
      simp only [fileLinesFrom, if_neg hnl, e1, hih, normalizeFrom, if_true, hcond, hopen]
    · by_cases hnl : b = NEWLINE
      · subst hnl
        have hopen : endsOpen (NEWLINE :: rest) ↔ endsOpen rest := by
          rw [endsOpen_cons]
          simp [isLineEnd]
        have hih := ih [] 0 (by simp)
        have hcond : ((rest = [] ∧ 0 = 0 ∧ ([] : List Nat) ≠ []) ∨ endsOpen rest) ↔
            endsOpen rest := by
          simp
        simp only [List.replicate_zero, List.append_nil, List.nil_append] at hih
        simp only [fileLinesFrom, if_true, List.map_cons, List.flatten_cons, hih, normalizeFrom,
          if_neg hcr, hcond, hopen, stripLineEnd_concat_lineEnd _ _ (Or.inl rfl),
          stripLineEnd_append_replicate, stripLineEnd_fixed pre hpre]
        simp
      · have hb : ¬ isLineEnd b := by
          intro h
          rcases h with h | h
          · exact hnl h
          · exact hcr h
        have hopen : endsOpen (b :: rest) ↔ rest = [] ∨ endsOpen rest := by
          rw [endsOpen_cons]
          simp [hb]
        have hih := ih (pre ++ List.replicate k CR ++ [b]) 0 (by
          intro c hc
          rw [List.getLast?_concat] at hc
          injection hc with hc
          rw [← hc]
          exact hb)
        have hcond : ((rest = [] ∧ 0 = 0 ∧ pre ++ List.replicate k CR ++ [b] ≠ []) ∨
            endsOpen rest) ↔ rest = [] ∨ endsOpen rest := by
          simp
        simp only [List.replicate_zero, List.append_nil] at hih
        simp only [fileLinesFrom, if_neg hnl, hih, normalizeFrom, if_neg hcr, hcond, hopen]
        simp

/-- Normalisation keeps a content without carriage return as it is. -/
theorem normalizeFrom_no_cr (content : List Nat) (h : CR ∉ content) :
    normalizeFrom 0 content = content := by
  induction content with
  | nil => simp [normalizeFrom]
  | cons b rest ih =>
    have hb : b ≠ CR := fun e => h (by simp [e])
    have hrest : CR ∉ rest := fun e => h (List.mem_cons_of_mem _ e)
    by_cases hnl : b = NEWLINE
    · subst hnl
      simp [normalizeFrom, hb, ih hrest]
    · simp [normalizeFrom, hb, hnl, ih hrest]

/-- C12 (amended): the bytes saved right after loading a file (`editorOpen` into an editor
without rows, then `editorRowsToString`) are the file content with every CR LF and every
stray CR line ending replaced by a single newline byte, followed by one more newline byte
when the content is not empty and its last byte is neither a newline nor a carriage return.
In particular a content without carriage return is reproduced byte for byte when it is
empty or ends with a newline byte, and with one newline byte appended otherwise. -/
theorem C12_load_then_save_normalizes (E0 : editorConfig) (filename content : List Nat)
    (hempty : E0.row = []) :
    (editorRowsToString (editorOpen E0 filename content)).1 =
      normalizeLineEndings content ++ (if endsOpen content then [NEWLINE] else []) ∧
    (CR ∉ content → ¬ endsOpen content →
      (editorRowsToString (editorOpen E0 filename content)).1 = content) ∧
    (CR ∉ content → endsOpen content →
      (editorRowsToString (editorOpen E0 filename content)).1 = content ++ [NEWLINE]) := by
  have hmain : (editorRowsToString (editorOpen E0 filename content)).1 =
      normalizeLineEndings content ++ (if endsOpen content then [NEWLINE] else []) := by
    rw [editorRowsToString_text, editorOpen_eq]
    simp only [hempty, List.nil_append, List.map_map]
    have h := saved_text_from content [] 0 (by simp)
    simp only [List.replicate_zero, List.append_nil, List.nil_append, ne_eq, not_true,
      and_false, false_or] at h
    rw [normalizeLineEndings, ← h, fileLines]
    congr 1
  refine ⟨hmain, ?_, ?_⟩
  · intro hcr hopen
    rw [hmain, normalizeLineEndings, normalizeFrom_no_cr content hcr, if_neg hopen]
    simp
  · intro hcr hopen
    rw [hmain, normalizeLineEndings, normalizeFrom_no_cr content hcr, if_pos hopen]

/-! ## The key decoder -/

/-- C14: when the byte source delivers the escape byte followed by the bytes of an entry of
the decoding table, `editorReadKey` returns the key of that entry and leaves the bytes after
it unread; the nine special key codes are pairwise distinct, differ from the value returned
for every single byte (whether plain `char` is signed or not) and from the bare escape key;
every key of the table is one of them. -/
theorem C14_decoding_table (charSigned : Bool) :
    (∀ p ∈ decodingTable, ∀ rest : List ReadResult,
      editorReadKey charSigned (ReadResult.byte 27 :: (p.1.map ReadResult.byte ++ rest)) =
        KeyResult.key p.2 rest) ∧
    specialKeys.Nodup ∧
    (∀ b : Nat, b < 256 → charToInt charSigned b ∉ specialKeys) ∧
    ESC ∉ specialKeys ∧
    (∀ p ∈ decodingTable, p.2 ∈ specialKeys) := by
  refine ⟨?_, by decide, ?_, by decide, by decide⟩
  · intro p hp rest
    simp only [decodingTable, List.mem_cons, List.mem_singleton, List.not_mem_nil,
      or_false] at hp
    rcases hp with h | h | h | h | h | h | h | h | h | h | h | h | h | h | h <;>
      (subst h; rfl)
  · intro b hb hmem
    have hrange : -128 ≤ charToInt charSigned b ∧ charToInt charSigned b ≤ 255 := by
      unfold charToInt
      split <;> omega
    simp only [specialKeys, ARROW_LEFT, ARROW_RIGHT, ARROW_UP, ARROW_DOWN, DEL_KEY, HOME_KEY,
      END_KEY, PAGE_UP, PAGE_DOWN, List.mem_cons, List.mem_singleton, List.not_mem_nil,
      or_false] at hmem
    omega

/-- The function `editorScroll` changes the render column and the two offsets, axis by
axis. -/
theorem editorScroll_eq (E : editorConfig) :
    editorScroll E =
      { E with
        screen_position_x := cursorRenderCol E
        row_offset := scrollOffset E.file_position_y E.row_offset E.screen_rows
        column_offset := scrollOffset (cursorRenderCol E) E.column_offset E.screen_columns } := by
  have h2 : (if E.file_position_y < E.number_of_rows then
        match rowAt E E.file_position_y with
        | some row =>
          ({ E with
            screen_position_x :=
              editorRowFilePositionXToScreenPositionX row E.file_position_x } : editorConfig)
        | none => { E with screen_position_x := 0 }
      else { E with screen_position_x := 0 }) =
      { E with screen_position_x := cursorRenderCol E } := by
    unfold cursorRenderCol
    split_ifs
    · cases rowAt E E.file_position_y <;> rfl
    · rfl
  generalize hsx : cursorRenderCol E = SX at h2 ⊢
  unfold editorScroll
  simp only [editorConfig.number_of_rows, rowAt] at h2 ⊢
  rw [h2]
  simp only [scrollOffset]
  by_cases c1 : E.file_position_y < E.row_offset <;>
  by_cases c3 : SX < E.column_offset <;>
  simp only [c1, c3, if_true, if_false] <;>
  split_ifs <;> rfl

/-- After the two checks the position is inside the window, for a positive extent. -/
theorem scrollOffset_bounds (pos offset extent : Int) (h : 1 ≤ extent) :
    scrollOffset pos offset extent ≤ pos ∧ pos < scrollOffset pos offset extent + extent := by
  unfold scrollOffset
  split_ifs <;> omega

/-- Doing the two checks again changes nothing, for every extent. -/
theorem scrollOffset_idem (pos offset extent : Int) :
    scrollOffset pos (scrollOffset pos offset extent) extent =
      scrollOffset pos offset extent := by
  unfold scrollOffset
  split_ifs <;> omega

/-- The `switch` of `editorMoveCursor` changes nothing but the cursor. -/
theorem moveCursorSwitch_frame (E : editorConfig) (key : Int) :
    moveCursorSwitch E key =
      { E with
        file_position_x := (moveCursorSwitch E key).file_position_x
        file_position_y := (moveCursorSwitch E key).file_position_y } := by
  unfold moveCursorSwitch
  split_ifs
  all_goals try rfl
  all_goals try dsimp only
  all_goals split
  all_goals try rfl
  all_goals split_ifs <;> rfl

/-- The function `editorMoveCursor` changes nothing but the cursor. -/
theorem editorMoveCursor_frame (E : editorConfig) (key : Int) :
    editorMoveCursor E key =
      { E with
        file_position_x := (editorMoveCursor E key).file_position_x
        file_position_y := (editorMoveCursor E key).file_position_y } := by
  have hM := moveCursorSwitch_frame E key
  unfold editorMoveCursor
  dsimp only
  generalize moveCursorSwitch E key = M at hM ⊢
  split_ifs
  · rw [hM]
  · exact hM

/-- C16: for `screen_rows >= 1` and `screen_columns >= 1`, after `editorMoveCursor` (for any
key) followed by `editorScroll` the cursor row lies in `[row_offset, row_offset +
screen_rows)` and the render column in `[column_offset, column_offset + screen_columns)`,
whatever the offsets were before; the render column is the one of the cursor that
`editorMoveCursor` left, which `editorScroll` does not move. -/
theorem C16_cursor_inside_window (E : editorConfig) (key : Int)
    (hr : 1 ≤ E.screen_rows) (hc : 1 ≤ E.screen_columns) :
    (editorScroll (editorMoveCursor E key)).row_offset ≤
      (editorScroll (editorMoveCursor E key)).file_position_y ∧
    (editorScroll (editorMoveCursor E key)).file_position_y <
      (editorScroll (editorMoveCursor E key)).row_offset +
        (editorScroll (editorMoveCursor E key)).screen_rows ∧
    (editorScroll (editorMoveCursor E key)).column_offset ≤
      (editorScroll (editorMoveCursor E key)).screen_position_x ∧
    (editorScroll (editorMoveCursor E key)).screen_position_x <
      (editorScroll (editorMoveCursor E key)).column_offset +
        (editorScroll (editorMoveCursor E key)).screen_columns ∧
    (editorScroll (editorMoveCursor E key)).screen_position_x =
      cursorRenderCol (editorMoveCursor E key) ∧
    (editorScroll (editorMoveCursor E key)).file_position_y =
      (editorMoveCursor E key).file_position_y ∧
    (editorScroll (editorMoveCursor E key)).file_position_x =
      (editorMoveCursor E key).file_position_x := by
  have hsr : (editorMoveCursor E key).screen_rows = E.screen_rows := by
    rw [editorMoveCursor_frame]
  have hsc : (editorMoveCursor E key).screen_columns = E.screen_columns := by
    rw [editorMoveCursor_frame]
  rw [editorScroll_eq]
  have h1 := scrollOffset_bounds (editorMoveCursor E key).file_position_y
    (editorMoveCursor E key).row_offset (editorMoveCursor E key).screen_rows (by rw [hsr]; exact hr)
  have h2 := scrollOffset_bounds (cursorRenderCol (editorMoveCursor E key))
    (editorMoveCursor E key).column_offset (editorMoveCursor E key).screen_columns
    (by rw [hsc]; exact hc)
  exact ⟨h1.1, h1.2, h2.1, h2.2, rfl, rfl, rfl⟩

/-- C17: `editorScroll` is idempotent: for every editor state (any cursor, any offsets, any
screen extents), applying it twice gives the state that applying it once gives. -/
theorem C17_editorScroll_idempotent (E : editorConfig) :
    editorScroll (editorScroll E) = editorScroll E := by
  have hcol : cursorRenderCol (editorScroll E) = cursorRenderCol E := by
    rw [editorScroll_eq]
    rfl
  rw [editorScroll_eq (editorScroll E), hcol]
  rw [editorScroll_eq E]
  simp only [scrollOffset_idem]

/-! ## Typing -/

/-- What `editorInsertChar` does with the cursor on an existing row, at a column inside it. -/
theorem editorInsertChar_on_row (E : editorConfig) (row : erow) (c : Int)
    (hrow : rowAt E E.file_position_y = some row)
    (h0 : 0 ≤ E.file_position_x) (h1 : E.file_position_x ≤ row.size) :
    editorInsertChar E c =
      { E with
        row := E.row.set E.file_position_y.toNat (editorUpdateRow
          { row with
            characters := row.characters.take E.file_position_x.toNat ++
              (c % 256).toNat :: row.characters.drop E.file_position_x.toNat })
        dirty := E.dirty + 1
        file_position_x := E.file_position_x + 1 } := by
  have hb := rowAt_some_bounds E _ row hrow
  have hy : ¬ (E.file_position_y = E.number_of_rows) := by omega
  have hn : ¬ (E.file_position_x < 0 ∨ E.file_position_x > row.size) := by omega
  have hins := editorRowInsertChar_of_row E E.file_position_y row hrow E.file_position_x c
  rw [if_neg hn] at hins
  unfold editorInsertChar
  simp only [if_neg hy, hins]

/-- A typed byte takes the default branch of the `switch`, and is the byte stored. -/
theorem processEditKey_insertable (charSigned : Bool) (E : editorConfig) (b : Nat)
    (hb : insertableByte b) :
    processEditKey E (charToInt charSigned b) = editorInsertChar E (charToInt charSigned b) ∧
    ((charToInt charSigned b) % 256).toNat = b := by
  obtain ⟨h256, h13, h17, h1, h19, h8, h127, h12, h27⟩ := hb
  have hc : charToInt charSigned b = (b : Int) ∨ charToInt charSigned b = (b : Int) - 256 := by
    unfold charToInt
    split
    · exact Or.inr rfl
    · exact Or.inl rfl
  have hneg : charToInt charSigned b = (b : Int) - 256 → 128 ≤ b := by
    unfold charToInt
    split
    · intro _; omega
    · intro h; omega
  have hh : CTRL_KEY 104 = 8 := by decide
  have hl : CTRL_KEY 108 = 12 := by decide
  constructor
  · unfold processEditKey
    simp only [ENTER, HOME_KEY, END_KEY, BACKSPACE, DEL_KEY, PAGE_UP, PAGE_DOWN, ARROW_UP,
      ARROW_DOWN, ARROW_LEFT, ARROW_RIGHT, ESC, hh, hl]
    split_ifs <;> first | rfl | omega
  · rcases hc with h | h
    · rw [h]; omega
    · have := hneg h
      rw [h]; omega

/-- Rows before a given beginning of the row list are read from that beginning. -/
theorem rowAt_append_left (E : editorConfig) (pre rest : List erow) (i : Int)
    (h : E.row = pre ++ rest) (hi : i < (pre.length : Int)) :
    rowAt E i = if i < 0 then none else pre[i.toNat]? := by
  by_cases hneg : i < 0
  · rw [rowAt_neg _ i hneg, if_pos hneg]
  · rw [if_neg hneg]
    have hi0 : 0 ≤ i := by omega
    lift i to Nat using hi0
    rw [rowAt_natCast, h, Int.toNat_ofNat, List.getElem?_append_left (by omega)]

/-- Rows after a given beginning of the row list are read from the rest. -/
theorem rowAt_append_right (E : editorConfig) (pre rest : List erow) (j : Nat)
    (h : E.row = pre ++ rest) :
    rowAt E ((pre.length : Int) + (j : Int)) = rest[j]? := by
  have e : ((pre.length : Int) + (j : Int)) = ((pre.length + j : Nat) : Int) := by
    push_cast; rfl
  rw [e, rowAt_natCast, h, List.getElem?_append_right (by omega)]
  congr 1
  omega

/-- Typing bytes with the cursor at the end of a row appends them to that row. -/
theorem typing_appends (charSigned : Bool) (w : List Nat) : ∀ (E : editorConfig)
    (pre post : List erow) (B : erow),
    E.row = pre ++ B :: post → E.file_position_y = (pre.length : Int) →
    E.file_position_x = B.size → (∀ b ∈ w, insertableByte b) →
    ∃ B1 : erow,
      (pressEditKeys E (w.map (charToInt charSigned))).row = pre ++ B1 :: post ∧
      B1.characters = B.characters ++ w := by
  induction w with
  | nil =>
    intro E pre post B hrows _ _ _
    exact ⟨B, by simpa [pressEditKeys] using hrows, by simp⟩
  | cons b rest ih =>
    intro E pre post B hrows hy hx hw
    have hb : insertableByte b := hw b (List.mem_cons_self _ _)
    have hrest : ∀ c ∈ rest, insertableByte c := fun c hc => hw c (List.mem_cons_of_mem _ hc)
    obtain ⟨hkey, hbyte⟩ := processEditKey_insertable charSigned E b hb
    have hrow : rowAt E E.file_position_y = some B := by
      rw [hy]; exact rowAt_append_cons E pre post B hrows
    have hx0 : 0 ≤ E.file_position_x := by
      rw [hx]; unfold erow.size; omega
    have hins := editorInsertChar_on_row E B (charToInt charSigned b) hrow hx0 (by omega)
    have htake : B.characters.take E.file_position_x.toNat = B.characters := by
      rw [hx]; simp [erow.size]
    have hdrop : B.characters.drop E.file_position_x.toNat = [] := by
      rw [hx]; simp [erow.size]
    rw [htake, hdrop, hbyte, hy, Int.toNat_ofNat, hrows, set_append_cons] at hins
    have hstep : pressEditKeys E ((b :: rest).map (charToInt charSigned)) =
        pressEditKeys (editorInsertChar E (charToInt charSigned b))
          (rest.map (charToInt charSigned)) := by
      simp [pressEditKeys, hkey]
    rw [hstep]
    obtain ⟨B1, hB1, hB1c⟩ := ih (editorInsertChar E (charToInt charSigned b)) pre post
      (editorUpdateRow { B with characters := B.characters ++ [b] })
      (by rw [hins]) (by rw [hins])
      (by rw [hins, editorUpdateRow_eq]; simp [erow.size, hx]) hrest
    refine ⟨B1, hB1, ?_⟩
    rw [hB1c, editorUpdateRow_eq]
    simp

/-- C18: with the cursor at the end of an existing row `r`, pressing Enter and then typing
the bytes `w` (each a typed character byte) makes row `r + 1` equal to `w`, leaves the
content of row `r` as it was, leaves every row before `r` unchanged and every row after `r`
unchanged, one index further down, and increases the row count by exactly 1. -/
theorem C18_enter_then_type (charSigned : Bool) (E : editorConfig) (row : erow)
    (w : List Nat) (hrow : rowAt E E.file_position_y = some row)
    (hx : E.file_position_x = row.size) (hw : ∀ b ∈ w, insertableByte b) :
    (pressEditKeys E (ENTER :: w.map (charToInt charSigned))).number_of_rows =
      E.number_of_rows + 1 ∧
    (rowAt (pressEditKeys E (ENTER :: w.map (charToInt charSigned)))
      (E.file_position_y + 1)).map erow.characters = some w ∧
    (rowAt (pressEditKeys E (ENTER :: w.map (charToInt charSigned)))
      E.file_position_y).map erow.characters = some row.characters ∧
    (∀ i : Int, i < E.file_position_y →
      rowAt (pressEditKeys E (ENTER :: w.map (charToInt charSigned))) i = rowAt E i) ∧
    (∀ i : Int, E.file_position_y < i →
      rowAt (pressEditKeys E (ENTER :: w.map (charToInt charSigned))) (i + 1) = rowAt E i) := by
  obtain ⟨pre, post, hrows, hy⟩ := rowAt_some_split E _ row hrow
  obtain ⟨A, B, hr, hA, hB, -, -, hy2, hx2, -⟩ :=
    editorInsertNewline_split E pre post row row.characters.length hrows hy
      (by rw [hx]; rfl) (le_refl _)
  have hAc : A.characters = row.characters := by rw [hA, List.take_length]
  have hBc : B.characters = [] := by rw [hB, List.drop_length]
  have hr2 : (editorInsertNewline E).row = (pre ++ [A]) ++ B :: post := by
    rw [hr]; simp
  obtain ⟨B1, hB1, hB1c⟩ := typing_appends charSigned w (editorInsertNewline E)
    (pre ++ [A]) post B hr2 (by rw [hy2]; simp) (by rw [hx2]; simp [erow.size, hBc]) hw
  have hpress : pressEditKeys E (ENTER :: w.map (charToInt charSigned)) =
      pressEditKeys (editorInsertNewline E) (w.map (charToInt charSigned)) := by
    simp [pressEditKeys, processEditKey]
  rw [hpress]
  have hfinal : (pressEditKeys (editorInsertNewline E) (w.map (charToInt charSigned))).row =
      pre ++ A :: B1 :: post := by
    rw [hB1]; simp
  rw [hBc, List.nil_append] at hB1c
  refine ⟨?_, ?_, ?_, ?_, ?_⟩
  · simp only [editorConfig.number_of_rows, hfinal, hrows, List.length_append,
      List.length_cons]
    push_cast
    omega
  · rw [hy, rowAt_append_cons_succ _ pre post A B1 hfinal]
    simp [hB1c]
  · rw [hy, rowAt_append_cons _ pre _ A hfinal]
    simp [hAc]
  · intro i hi
    rw [rowAt_append_left _ pre _ i hfinal (by omega),
      rowAt_append_left _ pre _ i hrows (by omega)]
  · intro i hi
    obtain ⟨j, hj⟩ := Int.eq_ofNat_of_zero_le (show 0 ≤ i - (pre.length : Int) - 1 by omega)
    have e1 : i = (pre.length : Int) + ((j + 1 : Nat) : Int) := by push_cast; omega
    have e2 : i + 1 = (pre.length : Int) + ((j + 2 : Nat) : Int) := by push_cast; omega
    rw [e2, rowAt_append_right _ pre _ (j + 2) hfinal, e1,
      rowAt_append_right _ pre _ (j + 1) hrows]
    simp

/-! ## The prompt loop ends when the key stream does -/

/-- The escape branch of `editorReadKey` leaves a part of the outcomes it was given. -/
theorem readEscapeSequence_rest_length (input : List ReadResult) :
    (readEscapeSequence input).2.1.length ≤ input.length := by
  unfold readEscapeSequence
  rcases input with _ | ⟨r0, in1⟩
  · simp [readByte]
  · rcases r0 with s0 | _ | _
    · rcases in1 with _ | ⟨r1, in2⟩
      · simp [readByte]
      · rcases r1 with s1 | _ | _
        · rcases in2 with _ | ⟨r2, in3⟩
          · simp only [readByte]
            split_ifs <;> simp
          · rcases r2 with s2 | _ | _ <;>
            · simp only [readByte]
              split_ifs <;> simp <;> omega
        · simp only [readByte, List.length_cons]
          omega
        · simp only [readByte, List.length_cons]
          omega
    · simp [readByte]
    · simp [readByte]

/-- A call of `editorReadKey` that returns a key has read at least one outcome. -/
theorem editorReadKey_rest_length (charSigned : Bool) (input : List ReadResult) :
    ∀ (c : Int) (rest : List ReadResult),
      editorReadKey charSigned input = KeyResult.key c rest → rest.length < input.length := by
  induction input with
  | nil => intro c rest h; simp [editorReadKey] at h
  | cons r tl ih =>
    intro c rest h
    cases r with
    | nothing =>
      have := ih c rest (by simpa [editorReadKey] using h)
      simp only [List.length_cons]
      omega
    | error => simp [editorReadKey] at h
    | byte b =>
      unfold editorReadKey at h
      by_cases hb : b = 27
      · rw [if_pos hb] at h
        injection h with _ h2
        have := readEscapeSequence_rest_length tl
        rw [← h2]
        simp only [List.length_cons]
        omega
      · rw [if_neg hb] at h
        injection h with _ h2
        rw [← h2]
        simp

/-- The prompt loop leaves through a key or through the end of the key stream: any iteration
bound greater than the number of outcomes to come gives the same result. -/
theorem promptLoop_fuel_enough (charSigned : Bool) (now : Int) (before after : List Nat)
    (fuel1 : Nat) : ∀ (fuel2 : Nat) (buf : List Nat) (bufsize : Nat) (E : editorConfig)
    (input : List ReadResult), input.length < fuel1 → input.length < fuel2 →
    promptLoop charSigned now before after fuel1 buf bufsize E input =
      promptLoop charSigned now before after fuel2 buf bufsize E input := by
  induction fuel1 with
  | zero => intro fuel2 buf bufsize E input h1 _; omega
  | succ n ih =>
    intro fuel2 buf bufsize E input h1 h2
    cases fuel2 with
    | zero => omega
    | succ m =>
      unfold promptLoop
      cases hk : editorReadKey charSigned input with
      | blocked => rfl
      | died => rfl
      | key c rest =>
        have hlt := editorReadKey_rest_length charSigned input c rest hk
        dsimp only
        cases promptKey buf bufsize c with
        | more buf1 bufsize1 => exact ih m _ _ _ _ (by omega) (by omega)
        | cancel => rfl
        | confirm buf1 => rfl

/-! ## Quit confirmation -/

/-- The key Ctrl-Q is the byte 17. -/
theorem editorReadKey_ctrl_q (charSigned : Bool) (rest : List ReadResult) :
    editorReadKey charSigned (ReadResult.byte 17 :: rest) = KeyResult.key (CTRL_KEY 113) rest := by
  cases charSigned <;> rfl

/-- What `editorProcessKeypress` does once Ctrl-Q was read. -/
theorem editorProcessKeypress_ctrl_q (env : Env) (W : World) (rest : List ReadResult)
    (hkey : editorReadKey env.charSigned W.input = KeyResult.key (CTRL_KEY 113) rest) :
    editorProcessKeypress env W =
      if W.E.dirty ≠ 0 ∧ W.quit_times > 0 then
        Outcome.running
          { W with
            input := rest
            E := editorSetStatusMessage env.now W.E (quitWarning W.quit_times)
            quit_times := W.quit_times - 1 }
      else Outcome.exited { W with input := rest } exitSequence := by
  unfold editorProcessKeypress
  rw [hkey]
  simp only [if_true]

/-- The last statement of `editorProcessKeypress` leaves the counter at its initial value
whenever the call returns. -/
theorem resetQuitTimes_running (o : Outcome) (W1 : World)
    (h : resetQuitTimes o = Outcome.running W1) : W1.quit_times = TEXOR_QUIT_TIMES := by
  cases o with
  | running W =>
    simp only [resetQuitTimes, Outcome.running.injEq] at h
    rw [← h]
  | exited W out => simp [resetQuitTimes] at h
  | died => simp [resetQuitTimes] at h
  | blocked => simp [resetQuitTimes] at h

/-- Neither save function leaves through `exit`. -/
theorem editorSave_not_exited (env : Env) (W W1 : World) (out : List Nat) :
    editorSaveAs env W ≠ Outcome.exited W1 out ∧ editorSave env W ≠ Outcome.exited W1 out := by
  have h1 : editorSaveAs env W ≠ Outcome.exited W1 out := by
    unfold editorSaveAs
    split <;> simp
  refine ⟨h1, ?_⟩
  unfold editorSave
  split
  · exact h1
  · simp

/-- C19 (amended): starting from the initial quit counter (`TEXOR_QUIT_TIMES = 2`) with
`dirty > 0`, consecutive Ctrl-Q presses in `editorProcessKeypress` behave as follows: the
first press only sets the warning (`2 more times`) and decrements the counter to 1, the
second press only sets the warning again (`1 more times`) and decrements the counter to 0,
and the third press issues the process-exit sequence; that is, exactly 3 presses are
required before the editor exits. -/
theorem C19_three_presses_to_quit (env1 env2 env3 : Env) (W : World)
    (rest : List ReadResult) (hq : W.quit_times = TEXOR_QUIT_TIMES) (hd : W.E.dirty > 0)
    (hin : W.input = ReadResult.byte 17 :: ReadResult.byte 17 :: ReadResult.byte 17 :: rest) :
    TEXOR_QUIT_TIMES = 2 ∧
    editorProcessKeypress env1 W =
      Outcome.running
        { W with
          input := ReadResult.byte 17 :: ReadResult.byte 17 :: rest
          E := editorSetStatusMessage env1.now W.E (quitWarning 2)
          quit_times := 1 } ∧
    editorProcessKeypress env2
        { W with
          input := ReadResult.byte 17 :: ReadResult.byte 17 :: rest
          E := editorSetStatusMessage env1.now W.E (quitWarning 2)
          quit_times := 1 } =
      Outcome.running
        { W with
          input := ReadResult.byte 17 :: rest
          E := editorSetStatusMessage env2.now
            (editorSetStatusMessage env1.now W.E (quitWarning 2)) (quitWarning 1)
          quit_times := 0 } ∧
    editorProcessKeypress env3
        { W with
          input := ReadResult.byte 17 :: rest
          E := editorSetStatusMessage env2.now
            (editorSetStatusMessage env1.now W.E (quitWarning 2)) (quitWarning 1)
          quit_times := 0 } =
      Outcome.exited
        { W with
          input := rest
          E := editorSetStatusMessage env2.now
            (editorSetStatusMessage env1.now W.E (quitWarning 2)) (quitWarning 1)
          quit_times := 0 }
        exitSequence := by
  obtain ⟨E, q, input, written⟩ := W
  simp only at hq hd hin
  subst hq hin
  have hd0 : E.dirty ≠ 0 := by omega
  refine ⟨rfl, ?_, ?_, ?_⟩
  · rw [editorProcessKeypress_ctrl_q env1 _ _ (editorReadKey_ctrl_q _ _)]
    have hc : E.dirty ≠ 0 ∧ TEXOR_QUIT_TIMES > 0 := ⟨hd0, by decide⟩
    rw [if_pos hc]
    rfl
  · rw [editorProcessKeypress_ctrl_q env2 _ _ (editorReadKey_ctrl_q _ _)]
    have hc : (editorSetStatusMessage env1.now E (quitWarning 2)).dirty ≠ 0 ∧ (1 : Int) > 0 :=
      ⟨hd0, by decide⟩
    rw [if_pos hc]
    rfl
  · rw [editorProcessKeypress_ctrl_q env3 _ _ (editorReadKey_ctrl_q _ _)]
    have hc : ¬ ((editorSetStatusMessage env2.now
        (editorSetStatusMessage env1.now E (quitWarning 2)) (quitWarning 1)).dirty ≠ 0 ∧
          (0 : Int) > 0) := by
      intro h
      exact absurd h.2 (by decide)
    rw [if_neg hc]

/-- C20: for every state and every decoded key other than Ctrl-Q, whenever
`editorProcessKeypress` returns the quit counter has its initial value 2, and the call never
leaves through `exit`; for a key that is neither Ctrl-Q nor a save command (Ctrl-A, Ctrl-S)
the call does return, with the editing `switch` applied; and when `dirty == 0` Ctrl-Q exits
at once, writing the exit sequence and leaving the state, status message included, as it
was. -/
theorem C20_quit_counter_reset (env : Env) (W : World) (c : Int) (rest : List ReadResult)
    (hkey : editorReadKey env.charSigned W.input = KeyResult.key c rest) :
    TEXOR_QUIT_TIMES = 2 ∧
    (c ≠ CTRL_KEY 113 →
      ∀ W1 : World, editorProcessKeypress env W = Outcome.running W1 →
        W1.quit_times = TEXOR_QUIT_TIMES) ∧
    (c ≠ CTRL_KEY 113 →
      ∀ (W1 : World) (out : List Nat), editorProcessKeypress env W ≠ Outcome.exited W1 out) ∧
    (c ≠ CTRL_KEY 113 → c ≠ CTRL_KEY 97 → c ≠ CTRL_KEY 115 →
      editorProcessKeypress env W =
        Outcome.running
          { W with
            input := rest, E := processEditKey W.E c, quit_times := TEXOR_QUIT_TIMES }) ∧
    (c = CTRL_KEY 113 → W.E.dirty = 0 →
      editorProcessKeypress env W = Outcome.exited { W with input := rest } exitSequence) := by
  refine ⟨rfl, ?_, ?_, ?_, ?_⟩
  · intro hq W1 hrun
    unfold editorProcessKeypress at hrun
    rw [hkey] at hrun
    simp only [if_neg hq] at hrun
    split_ifs at hrun <;> exact resetQuitTimes_running _ W1 hrun
  · intro hq W1 out hex
    unfold editorProcessKeypress at hex
    rw [hkey] at hex
    simp only [if_neg hq] at hex
    split_ifs at hex
    · cases hs : editorSaveAs env { W with input := rest } with
      | exited W2 out2 => exact (editorSave_not_exited env _ W2 out2).1 hs
      | running W2 => rw [hs] at hex; simp [resetQuitTimes] at hex
      | died => rw [hs] at hex; simp [resetQuitTimes] at hex
      | blocked => rw [hs] at hex; simp [resetQuitTimes] at hex
    · cases hs : editorSave env { W with input := rest } with
      | exited W2 out2 => exact (editorSave_not_exited env _ W2 out2).2 hs
      | running W2 => rw [hs] at hex; simp [resetQuitTimes] at hex
      | died => rw [hs] at hex; simp [resetQuitTimes] at hex
      | blocked => rw [hs] at hex; simp [resetQuitTimes] at hex
    · simp [resetQuitTimes] at hex
  · intro hq ha hs
    unfold editorProcessKeypress
    rw [hkey]
    simp only [if_neg hq, if_neg ha, if_neg hs, resetQuitTimes]
  · intro hq hd
    subst hq
    rw [editorProcessKeypress_ctrl_q env W rest hkey]
    have hc : ¬ (W.E.dirty ≠ 0 ∧ W.quit_times > 0) := by
      intro h
      exact h.1 hd
    rw [if_neg hc]

/-! ## The contracts of loading, decoding, scrolling and quitting at concrete inputs -/

/-- C11 as the claim words it fails for a row that holds a newline byte: typing Ctrl-J
(byte 10) into the empty document gives the single row `LF`, whose text `LF LF` loads as two
empty rows. -/
theorem C11_counterexample_newline_in_row :
    (editorInsertChar sampleEmpty 10).row.map erow.characters = [[10]] ∧
    (editorRowsToString (editorInsertChar sampleEmpty 10)).1 = [10, 10] ∧
    (editorOpen sampleEmpty [102]
      (editorRowsToString (editorInsertChar sampleEmpty 10)).1).row.map erow.characters =
        [[], []] ∧
    (editorOpen sampleEmpty [102]
      (editorRowsToString (editorInsertChar sampleEmpty 10)).1).row.map erow.characters ≠
        (editorInsertChar sampleEmpty 10).row.map erow.characters := by
  decide

/-- C11 (amended) at the two-row sample document, whose rows hold no newline byte and do not
end with a carriage return. -/
theorem C11_witness :
    sampleEmpty.row = [] ∧
    (editorOpen sampleEmpty [102] (editorRowsToString sampleDoc).1).row.map erow.characters =
      sampleDoc.row.map erow.characters :=
  ⟨rfl, (C11_round_trip_iff sampleEmpty sampleDoc [102] rfl).2 (by decide)⟩

/-- C12 as the claim words it fails for a file without final newline: the content `a` has no
carriage return, nothing in it is a line ending to normalise, and it is saved as `a LF`. -/
theorem C12_counterexample_no_final_newline :
    CR ∉ [97] ∧ normalizeLineEndings [97] = [97] ∧
    (editorRowsToString (editorOpen sampleEmpty [102] [97])).1 = [97, 10] ∧
    (editorRowsToString (editorOpen sampleEmpty [102] [97])).1 ≠ [97] := by
  decide

/-- C12 (amended) at the content `a CR LF b`: saved as `a LF b LF`. -/
theorem C12_witness :
    sampleEmpty.row = [] ∧
    (editorRowsToString (editorOpen sampleEmpty [102] [97, 13, 10, 98])).1 =
      normalizeLineEndings [97, 13, 10, 98] ++
        (if endsOpen [97, 13, 10, 98] then [NEWLINE] else []) ∧
    normalizeLineEndings [97, 13, 10, 98] ++
        (if endsOpen [97, 13, 10, 98] then [NEWLINE] else []) = [97, 10, 98, 10] :=
  ⟨rfl, (C12_load_then_save_normalizes sampleEmpty [102] [97, 13, 10, 98] rfl).1, by decide⟩

/-- C16 at the two-row sample document and the key `ARROW_DOWN`. -/
theorem C16_witness :
    (1 : Int) ≤ sampleDoc.screen_rows ∧ (1 : Int) ≤ sampleDoc.screen_columns ∧
    (editorScroll (editorMoveCursor sampleDoc ARROW_DOWN)).row_offset ≤
      (editorScroll (editorMoveCursor sampleDoc ARROW_DOWN)).file_position_y :=
  ⟨by decide, by decide,
    (C16_cursor_inside_window sampleDoc ARROW_DOWN (by decide) (by decide)).1⟩

/-- C18 at the two-row sample document with the cursor at the end of row 0, typing `xyz`. -/
theorem C18_witness :
    rowAt { sampleDoc with file_position_x := 3 }
      ({ sampleDoc with file_position_x := 3 } : editorConfig).file_position_y =
        some sampleRow ∧
    ({ sampleDoc with file_position_x := 3 } : editorConfig).file_position_x =
      sampleRow.size ∧
    (∀ b ∈ [120, 121, 122], insertableByte b) ∧
    (rowAt (pressEditKeys { sampleDoc with file_position_x := 3 }
        (ENTER :: [120, 121, 122].map (charToInt true)))
      (({ sampleDoc with file_position_x := 3 } : editorConfig).file_position_y + 1)).map
        erow.characters = some [120, 121, 122] :=
  ⟨rfl, rfl, by decide,
    (C18_enter_then_type true { sampleDoc with file_position_x := 3 } sampleRow
      [120, 121, 122] rfl rfl (by decide)).2.1⟩

/-- C19 as the claim words it fails at the second press: with `dirty = 1` and the counter at
2, the second Ctrl-Q press returns with the counter at 0 and does not exit. -/
theorem C19_counterexample_second_press :
    sampleDirtyWorld.quit_times = 2 ∧ sampleDirtyWorld.E.dirty = 1 ∧
    ∃ W1 W2 : World,
      editorProcessKeypress sampleEnv sampleDirtyWorld = Outcome.running W1 ∧
      W1.quit_times = 1 ∧
      editorProcessKeypress sampleEnv W1 = Outcome.running W2 ∧
      W2.quit_times = 0 ∧ W2.input = [ReadResult.byte 17] :=
  ⟨rfl, rfl, _, _, rfl, rfl, rfl, rfl, rfl⟩

/-- C19 (amended) at the sample document with one unsaved change. -/
theorem C19_witness :
    sampleDirtyWorld.quit_times = TEXOR_QUIT_TIMES ∧ sampleDirtyWorld.E.dirty > 0 ∧
    editorProcessKeypress sampleEnv
        { sampleDirtyWorld with
          input := ReadResult.byte 17 :: []
          E := editorSetStatusMessage sampleEnv.now
            (editorSetStatusMessage sampleEnv.now sampleDirtyWorld.E (quitWarning 2))
            (quitWarning 1)
          quit_times := 0 } =
      Outcome.exited
        { sampleDirtyWorld with
          input := []
          E := editorSetStatusMessage sampleEnv.now
            (editorSetStatusMessage sampleEnv.now sampleDirtyWorld.E (quitWarning 2))
            (quitWarning 1)
          quit_times := 0 }
        exitSequence :=
  ⟨rfl, by decide,
    (C19_three_presses_to_quit sampleEnv sampleEnv sampleEnv sampleDirtyWorld [] rfl
      (by decide) rfl).2.2.2⟩

/-- C20 at the sample world after one warning, with the key `x` read: the counter is back
at 2. -/
theorem C20_witness :
    editorReadKey sampleEnv.charSigned
        ({ sampleDirtyWorld with quit_times := 1, input := [ReadResult.byte 120] } :
          World).input = KeyResult.key 120 [] ∧
    editorProcessKeypress sampleEnv
        { sampleDirtyWorld with quit_times := 1, input := [ReadResult.byte 120] } =
      Outcome.running
        { ({ sampleDirtyWorld with quit_times := 1, input := [ReadResult.byte 120] } : World)
          with
          input := []
          E := processEditKey sampleDirtyWorld.E 120
          quit_times := TEXOR_QUIT_TIMES } :=
  ⟨rfl,
    (C20_quit_counter_reset sampleEnv
      { sampleDirtyWorld with quit_times := 1, input := [ReadResult.byte 120] } 120 [] rfl).2.2.2.1
      (by decide) (by decide) (by decide)⟩

/-- Two rows next to each other, read off the row store. -/
theorem rowAt_pair_split (E : editorConfig) (y : Int) (prev row : erow)
    (hprev : rowAt E (y - 1) = some prev) (hrow : rowAt E y = some row) :
    ∃ pre post : List erow, E.row = pre ++ prev :: row :: post ∧ y = (pre.length : Int) + 1 := by
  obtain ⟨pre, post1, hsplit, hlen⟩ := rowAt_some_split E (y - 1) prev hprev
  have hy : y = (pre.length : Int) + 1 := by omega
  have h2 := rowAt_append_right E pre (prev :: post1) 1 hsplit
  rw [show ((pre.length : Int) + ((1 : Nat) : Int)) = y by omega, hrow] at h2
  cases post1 with
  | nil => simp at h2
  | cons b post =>
    simp at h2
    subst h2
    exact ⟨pre, post, hsplit, hy⟩

/-- C24: with the cursor at column 0 of an existing row `y > 0`, `editorDelChar` makes row
`y - 1` the old row `y - 1` followed by the old row `y`, removes row `y` (rows before `y - 1` are
unchanged, the rows after `y` move up by one, the row count drops by 1) and puts the cursor at
`(y - 1, former size of row y - 1)`; at `(0, 0)` and at the append position it changes
nothing. -/
theorem C24_editorDelChar_merges_rows (E : editorConfig) :
    (∀ prev row : erow, E.file_position_x = 0 → 0 < E.file_position_y →
      rowAt E (E.file_position_y - 1) = some prev → rowAt E E.file_position_y = some row →
      (∃ merged : erow, rowAt (editorDelChar E) (E.file_position_y - 1) = some merged ∧
        merged.characters = prev.characters ++ row.characters) ∧
      (∀ i : Int, i < E.file_position_y - 1 → rowAt (editorDelChar E) i = rowAt E i) ∧
      (∀ i : Int, E.file_position_y ≤ i → rowAt (editorDelChar E) i = rowAt E (i + 1)) ∧
      (editorDelChar E).number_of_rows = E.number_of_rows - 1 ∧
      (editorDelChar E).file_position_y = E.file_position_y - 1 ∧
      (editorDelChar E).file_position_x = prev.size) ∧
    (E.file_position_x = 0 → E.file_position_y = 0 → editorDelChar E = E) ∧
    (E.file_position_y = E.number_of_rows → editorDelChar E = E) := by
  refine ⟨?_, ?_, ?_⟩
  · intro prev row hx hy0 hprev hrow
    obtain ⟨pre, post, hsplit, hy⟩ := rowAt_pair_split E _ prev row hprev hrow
    have hm := editorDelChar_merge E pre post prev row hsplit hy hx
    have hrows : (editorDelChar E).row = pre ++
        editorUpdateRow { prev with characters := prev.characters ++ row.characters } :: post := by
      rw [hm]
    have hy1 : E.file_position_y - 1 = (pre.length : Int) := by omega
    refine ⟨⟨editorUpdateRow { prev with characters := prev.characters ++ row.characters },
      ?_, ?_⟩, ?_, ?_, ?_, ?_, ?_⟩
    · rw [hy1]
      exact rowAt_append_cons _ pre post _ hrows
    · rw [editorUpdateRow_eq]
    · intro i hi
      rw [rowAt_append_left _ pre _ i hrows (by omega),
        rowAt_append_left _ pre _ i hsplit (by omega)]
    · intro i hi
      obtain ⟨j, hj⟩ : ∃ j : Nat, i = (pre.length : Int) + ((j + 1 : Nat) : Int) :=
        ⟨(i - (pre.length : Int) - 1).toNat, by omega⟩
      have h1 := rowAt_append_right _ pre _ (j + 1) hrows
      have h2 := rowAt_append_right _ pre _ (j + 2) hsplit
      rw [hj, h1, show (pre.length : Int) + ((j + 1 : Nat) : Int) + 1 =
        (pre.length : Int) + ((j + 2 : Nat) : Int) by push_cast; omega, h2]
      simp
    · unfold editorConfig.number_of_rows
      rw [hrows, hsplit]
      simp only [List.length_append, List.length_cons]
      push_cast
      omega
    · rw [hm]
      simp only
      omega
    · rw [hm]
  · intro hx hy
    unfold editorDelChar
    simp [hx, hy]
  · intro hy
    unfold editorDelChar
    simp [hy]

/-- The claim C24 on the two-row sample document with the cursor at the start of row 1: row 0
becomes `a TAB b c`. -/
theorem C24_witness :
    ∃ merged : erow, rowAt (editorDelChar sampleDocRow1) (sampleDocRow1.file_position_y - 1) =
        some merged ∧
      merged.characters = sampleRow.characters ++ [99] :=
  ((C24_editorDelChar_merges_rows sampleDocRow1).1 sampleRow
    { characters := [99], rendered_size := 1, rendered_characters := [99] }
    (by decide) (by decide) (by decide) (by decide)).1
/-- C25: with the cursor `(y, x)` on an existing row of raw content `r` and `0 <= x <= size`,
`editorInsertNewline` makes row `y` the bytes `r[0..x)` and row `y + 1` the bytes `r[x..)`,
leaves the rows before `y` as they are and moves each row after `y` down by one, unchanged;
the row count grows by 1, the cursor goes to `(y + 1, 0)`, and the text of
`editorRowsToString` afterwards is the text before with one newline byte inserted at the byte
offset of the cursor. -/
theorem C25_editorInsertNewline_splits_row (E : editorConfig) (row : erow)
    (hrow : rowAt E E.file_position_y = some row)
    (h0 : 0 ≤ E.file_position_x) (h1 : E.file_position_x ≤ row.size) :
    (∃ A B : erow,
      rowAt (editorInsertNewline E) E.file_position_y = some A ∧
      A.characters = row.characters.take E.file_position_x.toNat ∧
      rowAt (editorInsertNewline E) (E.file_position_y + 1) = some B ∧
      B.characters = row.characters.drop E.file_position_x.toNat) ∧
    (∀ i : Int, i < E.file_position_y → rowAt (editorInsertNewline E) i = rowAt E i) ∧
    (∀ i : Int, E.file_position_y < i → rowAt (editorInsertNewline E) (i + 1) = rowAt E i) ∧
    (editorInsertNewline E).number_of_rows = E.number_of_rows + 1 ∧
    (editorInsertNewline E).file_position_y = E.file_position_y + 1 ∧
    (editorInsertNewline E).file_position_x = 0 ∧
    (editorRowsToString (editorInsertNewline E)).1 =
      (editorRowsToString E).1.take (cursorByteOffset E) ++
        NEWLINE :: (editorRowsToString E).1.drop (cursorByteOffset E) := by
  obtain ⟨pre, post, hsplit, hy⟩ := rowAt_some_split E _ row hrow
  obtain ⟨m, hm⟩ : ∃ m : Nat, E.file_position_x = (m : Int) := ⟨E.file_position_x.toNat, by omega⟩
  have hml : m ≤ row.characters.length := by
    unfold erow.size at h1
    omega
  obtain ⟨A, B, hrows, hA, hB, -, -, hy1, hx1, -⟩ :=
    editorInsertNewline_split E pre post row m hsplit hy hm hml
  have hmt : E.file_position_x.toNat = m := by omega
  rw [hmt]
  refine ⟨⟨A, B, ?_, hA, ?_, hB⟩, ?_, ?_, ?_, ?_, hx1, ?_⟩
  · rw [hy]
    exact rowAt_append_cons _ pre _ A hrows
  · rw [hy]
    exact rowAt_append_cons_succ _ pre post A B hrows
  · intro i hi
    rw [rowAt_append_left _ pre _ i hrows (by omega),
      rowAt_append_left _ pre _ i hsplit (by omega)]
  · intro i hi
    obtain ⟨j, hj⟩ : ∃ j : Nat, i = (pre.length : Int) + ((j + 1 : Nat) : Int) :=
      ⟨(i - (pre.length : Int) - 1).toNat, by omega⟩
    have h2 := rowAt_append_right _ pre _ (j + 2) hrows
    have h3 := rowAt_append_right _ pre _ (j + 1) hsplit
    rw [hj, h3, show (pre.length : Int) + ((j + 1 : Nat) : Int) + 1 =
      (pre.length : Int) + ((j + 2 : Nat) : Int) by push_cast; omega, h2]
    simp
  · unfold editorConfig.number_of_rows
    rw [hrows, hsplit]
    simp only [List.length_append, List.length_cons]
    push_cast
    omega
  · rw [hy1, hy]
  · have hoff : cursorByteOffset E =
        (pre.map (fun r => r.characters ++ [NEWLINE])).flatten.length + m := by
      unfold cursorByteOffset
      rw [hmt, copyLoop_eq, hsplit, hy]
      simp
    rw [hoff]
    unfold editorRowsToString
    simp only [copyLoop_eq, hrows, hsplit, List.nil_append, List.map_append, List.map_cons,
      List.flatten_append, List.flatten_cons, hA, hB]
    rw [List.take_append, List.drop_append]
    simp only [List.append_assoc]
    rw [List.take_append_of_le_length (by simpa using hml),
      List.drop_append_of_le_length (by simpa using hml)]
    simp

/-- The claim C25 on the two-row sample document with the cursor at `(0, 2)`: the text
`a TAB b LF c LF` gets a newline byte at offset 2. -/
theorem C25_witness :
    rowAt sampleDoc sampleDoc.file_position_y = some sampleRow ∧
      (editorRowsToString (editorInsertNewline sampleDoc)).1 =
        (editorRowsToString sampleDoc).1.take (cursorByteOffset sampleDoc) ++
          NEWLINE :: (editorRowsToString sampleDoc).1.drop (cursorByteOffset sampleDoc) :=
  ⟨by decide,
    (C25_editorInsertNewline_splits_row sampleDoc sampleRow (by decide) (by decide)
      (by decide)).2.2.2.2.2.2⟩
/-- The row the cursor of `editorMoveCursor` is on, for a row that exists. -/
theorem cursorRow_of_rowAt (E : editorConfig) (row : erow)
    (hrow : rowAt E E.file_position_y = some row) : cursorRow E = some row := by
  have hb := rowAt_some_bounds E _ row hrow
  unfold cursorRow
  rw [if_neg (by omega), hrow]

/-- The keys no `case` of the `switch` of `editorProcessKeypress` sends to the quit or save
commands are dispatched by `processEditKey`, and the quit counter is reset. -/
theorem editorProcessKeypress_edit (env : Env) (W : World) (c : Int) (rest : List ReadResult)
    (hkey : editorReadKey env.charSigned W.input = KeyResult.key c rest)
    (hq : c ≠ CTRL_KEY 113) (ha : c ≠ CTRL_KEY 97) (hs : c ≠ CTRL_KEY 115) :
    editorProcessKeypress env W =
      Outcome.running
        { W with E := processEditKey W.E c, input := rest, quit_times := TEXOR_QUIT_TIMES } := by
  unfold editorProcessKeypress
  rw [hkey]
  simp only [if_neg hq, if_neg ha, if_neg hs, resetQuitTimes]

/-- What `editorDelChar` does with the cursor after a byte of its row: the byte goes and the
cursor steps back. -/
theorem editorDelChar_in_row (E : editorConfig) (row : erow)
    (hrow : rowAt E E.file_position_y = some row)
    (h0 : 0 < E.file_position_x) (h1 : E.file_position_x ≤ row.size) :
    editorDelChar E =
      { E with
        row := E.row.set E.file_position_y.toNat
          (editorUpdateRow
            { row with characters := row.characters.eraseIdx (E.file_position_x - 1).toNat })
        dirty := E.dirty + 1
        file_position_x := E.file_position_x - 1 } := by
  have hb := rowAt_some_bounds E _ row hrow
  have hdel := editorRowDelChar_of_row E E.file_position_y row hrow (E.file_position_x - 1)
    (by omega) (by omega)
  unfold editorDelChar
  rw [if_neg (by omega), if_neg (by omega), hrow]
  simp only
  rw [if_pos (by omega), hdel]

/-- The key `ARROW_RIGHT` with the cursor before a byte of its row. -/
theorem editorMoveCursor_right_in_row (E : editorConfig) (row : erow)
    (hrow : rowAt E E.file_position_y = some row) (h1 : E.file_position_x < row.size) :
    editorMoveCursor E ARROW_RIGHT = { E with file_position_x := E.file_position_x + 1 } := by
  have hk1 : ¬ (ARROW_RIGHT = ARROW_LEFT) := by decide
  have hc : cursorRow { E with file_position_x := E.file_position_x + 1 } = some row :=
    cursorRow_of_rowAt _ row hrow
  unfold editorMoveCursor moveCursorSwitch
  simp only [if_neg hk1, if_true, cursorRow_of_rowAt E row hrow, if_pos h1]
  rw [hc]
  simp only
  rw [if_neg (by omega)]

/-- The Delete key with the cursor before a byte of its row. -/
theorem processEditKey_del (E : editorConfig) (row : erow)
    (hrow : rowAt E E.file_position_y = some row)
    (h0 : 0 ≤ E.file_position_x) (h1 : E.file_position_x < row.size) :
    processEditKey E DEL_KEY =
      { E with
        row := E.row.set E.file_position_y.toNat
          (editorUpdateRow
            { row with characters := row.characters.eraseIdx E.file_position_x.toNat })
        dirty := E.dirty + 1 } := by
  have hmove := editorMoveCursor_right_in_row E row hrow h1
  have hdel := editorDelChar_in_row { E with file_position_x := E.file_position_x + 1 } row
    hrow (by simp only; omega) (by simp only; omega)
  have hkey : processEditKey E DEL_KEY = editorDelChar (editorMoveCursor E ARROW_RIGHT) := rfl
  rw [hkey, hmove, hdel]
  simp only [add_sub_cancel_right]

/-- The Backspace and Ctrl-H keys are dispatched to `editorDelChar`. -/
theorem processEditKey_backspace (E : editorConfig) (c : Int)
    (hc : c = BACKSPACE ∨ c = CTRL_KEY 104) : processEditKey E c = editorDelChar E := by
  unfold processEditKey
  rcases hc with h | h <;> subst h <;> rfl
/-- Storing a row at the index of an existing row: that row is replaced, the others and the
row count stay. -/
theorem rowAt_after_set (E E1 : editorConfig) (ri : Int) (row r : erow)
    (hrow : rowAt E ri = some row) (hE1 : E1.row = E.row.set ri.toNat r) :
    rowAt E1 ri = some r ∧ E1.number_of_rows = E.number_of_rows ∧
      ∀ i : Int, i ≠ ri → rowAt E1 i = rowAt E i := by
  refine ⟨rowAt_set_same E E1 ri row r hrow hE1, ?_, ?_⟩
  · unfold editorConfig.number_of_rows
    rw [hE1, List.length_set]
  · intro i hi
    exact rowAt_set_other E E1 ri i r (rowAt_some_bounds E ri row hrow).1 hi hE1

/-- C27: with the cursor `(y, x)` on an existing row, the Delete key with `x < size` removes
the byte at index `x` of row `y` and leaves the cursor at `(y, x)`; Backspace (127) or Ctrl-H
with `x > 0` removes the byte at index `x - 1` of row `y` and moves the cursor to `(y, x - 1)`;
in both cases the row shrinks by one byte, and no other row and not the row count changes. -/
theorem C27_delete_and_backspace (env : Env) (W : World) (c : Int) (rest : List ReadResult)
    (row : erow) (hkey : editorReadKey env.charSigned W.input = KeyResult.key c rest)
    (hrow : rowAt W.E W.E.file_position_y = some row)
    (h0 : 0 ≤ W.E.file_position_x) (h1 : W.E.file_position_x ≤ row.size) :
    (c = DEL_KEY → W.E.file_position_x < row.size →
      ∃ (W1 : World) (r1 : erow), editorProcessKeypress env W = Outcome.running W1 ∧
        rowAt W1.E W.E.file_position_y = some r1 ∧
        r1.characters = row.characters.eraseIdx W.E.file_position_x.toNat ∧
        r1.size = row.size - 1 ∧
        W1.E.file_position_y = W.E.file_position_y ∧
        W1.E.file_position_x = W.E.file_position_x ∧
        W1.E.number_of_rows = W.E.number_of_rows ∧
        ∀ i : Int, i ≠ W.E.file_position_y → rowAt W1.E i = rowAt W.E i) ∧
    (c = BACKSPACE ∨ c = CTRL_KEY 104 → 0 < W.E.file_position_x →
      ∃ (W1 : World) (r1 : erow), editorProcessKeypress env W = Outcome.running W1 ∧
        rowAt W1.E W.E.file_position_y = some r1 ∧
        r1.characters = row.characters.eraseIdx (W.E.file_position_x - 1).toNat ∧
        r1.size = row.size - 1 ∧
        W1.E.file_position_y = W.E.file_position_y ∧
        W1.E.file_position_x = W.E.file_position_x - 1 ∧
        W1.E.number_of_rows = W.E.number_of_rows ∧
        ∀ i : Int, i ≠ W.E.file_position_y → rowAt W1.E i = rowAt W.E i) := by
  have hsize : ∀ k : Int, 0 ≤ k → k < row.size →
      ((row.characters.eraseIdx k.toNat).length : Int) = row.size - 1 := by
    intro k hk0 hk1
    unfold erow.size at hk1 ⊢
    rw [List.length_eraseIdx]
    have : k.toNat < row.characters.length := by omega
    simp only [this, if_true]
    omega
  constructor
  · intro hc hlt
    subst hc
    have hstep := editorProcessKeypress_edit env W DEL_KEY rest hkey (by decide) (by decide)
      (by decide)
    have hE := processEditKey_del W.E row hrow h0 hlt
    have hset := rowAt_after_set W.E (processEditKey W.E DEL_KEY) W.E.file_position_y row _ hrow
      (by rw [hE])
    refine ⟨_, _, hstep, hset.1, ?_, ?_, ?_, ?_, hset.2.1, hset.2.2⟩
    · rw [editorUpdateRow_eq]
    · rw [editorUpdateRow_eq]
      exact hsize _ h0 hlt
    · simp only [hE]
    · simp only [hE]
  · intro hc hpos
    have hstep := editorProcessKeypress_edit env W c rest hkey
      (by rcases hc with h | h <;> subst h <;> decide)
      (by rcases hc with h | h <;> subst h <;> decide)
      (by rcases hc with h | h <;> subst h <;> decide)
    have hE : processEditKey W.E c = _ :=
      (processEditKey_backspace W.E c hc).trans (editorDelChar_in_row W.E row hrow hpos h1)
    have hset := rowAt_after_set W.E (processEditKey W.E c) W.E.file_position_y row _ hrow
      (by rw [hE])
    refine ⟨_, _, hstep, hset.1, ?_, ?_, ?_, ?_, hset.2.1, hset.2.2⟩
    · rw [editorUpdateRow_eq]
    · rw [editorUpdateRow_eq]
      exact hsize _ (by omega) (by omega)
    · simp only [hE]
    · simp only [hE]

/-- The claim C27 on the two-row sample document with the cursor at `(0, 2)` and the key
Backspace: the tab byte at index 1 of row 0 goes. -/
theorem C27_witness :
    editorReadKey sampleEnv.charSigned sampleTypingWorld.input =
        KeyResult.key BACKSPACE [ReadResult.byte 120] ∧
      ∃ (W1 : World) (r1 : erow),
        editorProcessKeypress sampleEnv sampleTypingWorld = Outcome.running W1 ∧
        rowAt W1.E sampleTypingWorld.E.file_position_y = some r1 ∧
        r1.characters = sampleRow.characters.eraseIdx (sampleTypingWorld.E.file_position_x - 1).toNat ∧
        r1.size = sampleRow.size - 1 ∧
        W1.E.file_position_y = sampleTypingWorld.E.file_position_y ∧
        W1.E.file_position_x = sampleTypingWorld.E.file_position_x - 1 ∧
        W1.E.number_of_rows = sampleTypingWorld.E.number_of_rows ∧
        ∀ i : Int, i ≠ sampleTypingWorld.E.file_position_y →
          rowAt W1.E i = rowAt sampleTypingWorld.E i :=
  ⟨by decide,
    (C27_delete_and_backspace sampleEnv sampleTypingWorld BACKSPACE [ReadResult.byte 120]
      sampleRow (by decide) (by decide) (by decide) (by decide)).2 (Or.inl rfl) (by decide)⟩
/-- The pointer `row` of `editorMoveCursor` is the row at `file_position_y`, if any. -/
theorem cursorRow_eq_rowAt (E : editorConfig) : cursorRow E = rowAt E E.file_position_y := by
  unfold cursorRow
  split_ifs with h
  · unfold rowAt
    split_ifs with h2
    · rfl
    · unfold editorConfig.number_of_rows at h
      symm
      rw [List.get?_eq_getElem?, List.getElem?_eq_none_iff]
      omega
  · rfl

/-- The row lengths are read off the rows. -/
theorem rowLen_congr (E E1 : editorConfig) (h : E1.row = E.row) (i : Int) :
    rowLen E1 i = rowLen E i := by
  unfold rowLen rowAt
  rw [h]

/-- The function `editorMoveCursor` is its `switch` followed by cutting the column back to the
length of the row the cursor is on. -/
theorem editorMoveCursor_eq (E : editorConfig) (key : Int) :
    editorMoveCursor E key =
      { moveCursorSwitch E key with
        file_position_x :=
          min (moveCursorSwitch E key).file_position_x
            (rowLen E (moveCursorSwitch E key).file_position_y) } := by
  have hrows : (moveCursorSwitch E key).row = E.row := by rw [moveCursorSwitch_frame]
  unfold editorMoveCursor
  simp only [cursorRow_eq_rowAt]
  generalize moveCursorSwitch E key = M at hrows ⊢
  rw [← rowLen_congr E M hrows M.file_position_y]
  unfold rowLen
  cases rowAt M M.file_position_y with
  | none =>
    simp only
    split_ifs with h
    · rw [min_eq_right (by omega)]
    · rw [min_eq_left (by omega)]
  | some row =>
    simp only
    split_ifs with h
    · rw [min_eq_right (by omega)]
    · rw [min_eq_left (by omega)]
/-- The length of an existing row, and of no row. -/
theorem rowLen_of_rowAt (E : editorConfig) (i : Int) :
    (∀ row : erow, rowAt E i = some row → rowLen E i = row.size) ∧
      (rowAt E i = none → rowLen E i = 0) := by
  unfold rowLen
  constructor
  · intro row h
    rw [h]
  · intro h
    rw [h]

/-- There is a row at every index from 0 to below the row count, and only there. -/
theorem rowAt_isSome_iff (E : editorConfig) (i : Int) :
    (rowAt E i).isSome = true ↔ 0 ≤ i ∧ i < E.number_of_rows := by
  unfold rowAt editorConfig.number_of_rows
  split_ifs with h
  · simp only [Option.isSome_none]
    constructor
    · intro h1
      cases h1
    · intro h1
      omega
  · rw [List.get?_eq_getElem?]
    constructor
    · intro h1
      obtain ⟨r, hr⟩ := Option.isSome_iff_exists.mp h1
      have := (List.getElem?_eq_some_iff.mp hr).1
      omega
    · intro h1
      have hlt : i.toNat < E.row.length := by omega
      rw [List.getElem?_eq_getElem hlt]
      rfl

/-- No row at the row count or beyond: the length read there is 0. -/
theorem rowLen_outside (E : editorConfig) (i : Int) (h : E.number_of_rows ≤ i) :
    rowLen E i = 0 := by
  apply (rowLen_of_rowAt E i).2
  cases hr : rowAt E i with
  | none => rfl
  | some r =>
    have := (rowAt_isSome_iff E i).mp (by rw [hr]; rfl)
    omega

/-- Every row length is at least 0. -/
theorem rowLen_nonneg (E : editorConfig) (i : Int) : 0 ≤ rowLen E i := by
  unfold rowLen
  cases rowAt E i with
  | none => exact le_refl 0
  | some r =>
    simp only
    unfold erow.size
    omega

/-- C23: on a state within the cursor bounds `editorMoveCursor` does this.  `ARROW_LEFT`
steps the column back, from column 0 of a row `y > 0` it goes to `(y - 1, size of row y - 1)`,
and at `(0, 0)` nothing changes.  `ARROW_RIGHT` steps the column forward, from the end of an
existing row `y` it goes to `(y + 1, 0)`, and at the append position nothing changes.
`ARROW_UP` and `ARROW_DOWN` go one row up (not above row 0) or down (not below the append row)
and take the smaller of the old column and the size of the new row, 0 for the append row.  The
rows and the dirty counter stay as they are for every key. -/
theorem C23_editorMoveCursor_cases (E : editorConfig) (hb : cursorInBounds E) :
    (E.file_position_x ≠ 0 →
      (editorMoveCursor E ARROW_LEFT).file_position_y = E.file_position_y ∧
      (editorMoveCursor E ARROW_LEFT).file_position_x = E.file_position_x - 1) ∧
    (E.file_position_x = 0 → 0 < E.file_position_y →
      (editorMoveCursor E ARROW_LEFT).file_position_y = E.file_position_y - 1 ∧
      (editorMoveCursor E ARROW_LEFT).file_position_x = rowLen E (E.file_position_y - 1)) ∧
    (E.file_position_x = 0 → E.file_position_y = 0 → editorMoveCursor E ARROW_LEFT = E) ∧
    (E.file_position_y < E.number_of_rows → E.file_position_x < rowLen E E.file_position_y →
      (editorMoveCursor E ARROW_RIGHT).file_position_y = E.file_position_y ∧
      (editorMoveCursor E ARROW_RIGHT).file_position_x = E.file_position_x + 1) ∧
    (E.file_position_y < E.number_of_rows → E.file_position_x = rowLen E E.file_position_y →
      (editorMoveCursor E ARROW_RIGHT).file_position_y = E.file_position_y + 1 ∧
      (editorMoveCursor E ARROW_RIGHT).file_position_x = 0) ∧
    (E.file_position_y = E.number_of_rows → editorMoveCursor E ARROW_RIGHT = E) ∧
    (E.file_position_y ≠ 0 →
      (editorMoveCursor E ARROW_UP).file_position_y = E.file_position_y - 1 ∧
      (editorMoveCursor E ARROW_UP).file_position_x =
        min E.file_position_x (rowLen E (E.file_position_y - 1))) ∧
    (E.file_position_y = 0 → editorMoveCursor E ARROW_UP = E) ∧
    (E.file_position_y < E.number_of_rows →
      (editorMoveCursor E ARROW_DOWN).file_position_y = E.file_position_y + 1 ∧
      (editorMoveCursor E ARROW_DOWN).file_position_x =
        min E.file_position_x (rowLen E (E.file_position_y + 1))) ∧
    (E.file_position_y = E.number_of_rows → editorMoveCursor E ARROW_DOWN = E) ∧
    (∀ key : Int, (editorMoveCursor E key).row = E.row ∧
      (editorMoveCursor E key).dirty = E.dirty) := by
  obtain ⟨hy0, hyn, hx0, hxl⟩ := hb
  have kRL : ¬ (ARROW_RIGHT = ARROW_LEFT) := by decide
  have kUL : ¬ (ARROW_UP = ARROW_LEFT) := by decide
  have kUR : ¬ (ARROW_UP = ARROW_RIGHT) := by decide
  have kDL : ¬ (ARROW_DOWN = ARROW_LEFT) := by decide
  have kDR : ¬ (ARROW_DOWN = ARROW_RIGHT) := by decide
  have kDU : ¬ (ARROW_DOWN = ARROW_UP) := by decide
  have hmin : min E.file_position_x (rowLen E E.file_position_y) = E.file_position_x :=
    min_eq_left hxl
  have hsame : ∀ key : Int, moveCursorSwitch E key = E → editorMoveCursor E key = E := by
    intro key h
    rw [editorMoveCursor_eq, h, hmin]
  refine ⟨?_, ?_, ?_, ?_, ?_, ?_, ?_, ?_, ?_, ?_, ?_⟩
  · intro hx
    have hs : moveCursorSwitch E ARROW_LEFT =
        { E with file_position_x := E.file_position_x - 1 } := by
      unfold moveCursorSwitch
      simp only [if_true, if_pos hx]
    rw [editorMoveCursor_eq, hs]
    simp only
    exact ⟨trivial, min_eq_left (by omega)⟩
  · intro hx hy
    have hs : moveCursorSwitch E ARROW_LEFT =
        { E with
          file_position_y := E.file_position_y - 1
          file_position_x := rowLen E (E.file_position_y - 1) } := by
      have hnx : ¬ (E.file_position_x ≠ 0) := by omega
      have hgt : E.file_position_y > 0 := hy
      unfold moveCursorSwitch rowLen
      simp only [if_true, if_neg hnx, if_pos hgt]
      have hr : rowAt { E with file_position_y := E.file_position_y - 1 }
          (E.file_position_y - 1) = rowAt E (E.file_position_y - 1) := rfl
      rw [hr]
      cases rowAt E (E.file_position_y - 1) with
      | none =>
        simp only
        rw [hx]
      | some r => rfl
    rw [editorMoveCursor_eq, hs]
    simp only
    exact ⟨trivial, min_eq_left (le_refl _)⟩
  · intro hx hy
    apply hsame
    have hnx : ¬ (E.file_position_x ≠ 0) := by omega
    have hngt : ¬ (E.file_position_y > 0) := by omega
    unfold moveCursorSwitch
    simp only [if_true, if_neg hnx, if_neg hngt]
  · intro hy hx
    cases hr : rowAt E E.file_position_y with
    | none =>
      rw [(rowLen_of_rowAt E _).2 hr] at hx
      omega
    | some row =>
      rw [(rowLen_of_rowAt E _).1 row hr] at hx
      rw [editorMoveCursor_right_in_row E row hr hx]
      exact ⟨rfl, rfl⟩
  · intro hy hx
    cases hr : rowAt E E.file_position_y with
    | none =>
      have := (rowAt_isSome_iff E E.file_position_y).mpr ⟨hy0, hy⟩
      rw [hr] at this
      cases this
    | some row =>
      rw [(rowLen_of_rowAt E _).1 row hr] at hx
      have hs : moveCursorSwitch E ARROW_RIGHT =
          { E with file_position_y := E.file_position_y + 1, file_position_x := 0 } := by
        have hnlt : ¬ (E.file_position_x < row.size) := by omega
        unfold moveCursorSwitch
        simp only [if_neg kRL, if_true, cursorRow_eq_rowAt, hr, if_neg hnlt, if_pos hx]
      rw [editorMoveCursor_eq, hs]
      simp only
      exact ⟨trivial, min_eq_left (rowLen_nonneg E _)⟩
  · intro hy
    apply hsame
    have hr : rowAt E E.file_position_y = none := by
      cases hr : rowAt E E.file_position_y with
      | none => rfl
      | some r =>
        have := (rowAt_isSome_iff E E.file_position_y).mp (by rw [hr]; rfl)
        omega
    unfold moveCursorSwitch
    simp only [if_neg kRL, if_true, cursorRow_eq_rowAt, hr]
  · intro hy
    have hs : moveCursorSwitch E ARROW_UP =
        { E with file_position_y := E.file_position_y - 1 } := by
      unfold moveCursorSwitch
      simp only [if_neg kUL, if_neg kUR, if_true, if_pos hy]
    rw [editorMoveCursor_eq, hs]
    exact ⟨rfl, rfl⟩
  · intro hy
    apply hsame
    have hny : ¬ (E.file_position_y ≠ 0) := by omega
    unfold moveCursorSwitch
    simp only [if_neg kUL, if_neg kUR, if_true, if_neg hny]
  · intro hy
    have hs : moveCursorSwitch E ARROW_DOWN =
        { E with file_position_y := E.file_position_y + 1 } := by
      unfold moveCursorSwitch
      simp only [if_neg kDL, if_neg kDR, if_neg kDU, if_true, if_pos hy]
    rw [editorMoveCursor_eq, hs]
    exact ⟨rfl, rfl⟩
  · intro hy
    apply hsame
    have hny : ¬ (E.file_position_y < E.number_of_rows) := by omega
    unfold moveCursorSwitch
    simp only [if_neg kDL, if_neg kDR, if_neg kDU, if_true, if_neg hny]
  · intro key
    rw [editorMoveCursor_frame]
    exact ⟨rfl, rfl⟩

/-- The claim C23 on the two-row sample document with the cursor at `(0, 2)`: `ARROW_DOWN`
goes to row 1 and cuts the column back to its size 1. -/
theorem C23_witness :
    cursorInBounds sampleDoc ∧
      (editorMoveCursor sampleDoc ARROW_DOWN).file_position_y = sampleDoc.file_position_y + 1 ∧
      (editorMoveCursor sampleDoc ARROW_DOWN).file_position_x =
        min sampleDoc.file_position_x (rowLen sampleDoc (sampleDoc.file_position_y + 1)) :=
  ⟨by decide, (C23_editorMoveCursor_cases sampleDoc (by decide)).2.2.2.2.2.2.2.2.1 (by decide)⟩
/-- What `editorInsertChar` does at the append position with the column at 0: a new last row
holding the one byte. -/
theorem editorInsertChar_at_end (E : editorConfig) (c : Int)
    (hy : E.file_position_y = E.number_of_rows) (hx : E.file_position_x = 0) :
    ∃ r1 : erow,
      editorInsertChar E c =
        { E with row := E.row ++ [r1], dirty := E.dirty + 1 + 1, file_position_x := 1 } ∧
      r1.characters = [(c % 256).toNat] ∧ cacheFresh r1 := by
  have hins := editorInsertRow_in_range E E.row.length [] (le_refl _)
  rw [List.take_length, List.drop_length] at hins
  have hn : E.number_of_rows = (E.row.length : Int) := rfl
  generalize hnew : editorUpdateRow
    { characters := [], rendered_size := 0, rendered_characters := [] } = new at hins
  have hnewc : new.characters = [] := by
    rw [← hnew, editorUpdateRow_eq]
  have hrow1 : rowAt (editorInsertRow E E.number_of_rows []) E.file_position_y = some new := by
    rw [hy, hn]
    apply rowAt_append_cons _ E.row [] new
    rw [hins]
  have hchar := editorRowInsertChar_of_row (editorInsertRow E E.number_of_rows []) E.file_position_y
    new hrow1 E.file_position_x c
  refine ⟨editorUpdateRow { new with characters := [(c % 256).toNat] }, ?_, ?_,
    cacheFresh_editorUpdateRow _⟩
  · unfold editorInsertChar
    simp only [if_pos hy]
    have hfy : (editorInsertRow E E.number_of_rows []).file_position_y = E.file_position_y := by
      rw [hn, hins]
    have hfx : (editorInsertRow E E.number_of_rows []).file_position_x = E.file_position_x := by
      rw [hn, hins]
    rw [hfy, hfx, hchar, hn, hins]
    simp only [hx, hnewc, hy, hn, Int.toNat_ofNat, set_append_cons]
    simp [erow.size, hnewc]
  · rw [editorUpdateRow_eq]
/-- C26: on a state within the cursor bounds, a key that is a single byte other than 13, 17,
1, 19, 8, 127, 12 and 27 makes `editorProcessKeypress` insert that byte at the cursor column
of the cursor row and step the column forward, all other rows staying as they are; at the
append position it makes a new last row of just that byte, so that the row count grows by 1 and
the cursor is at `(n, 1)`.  Each of the nine special keys 1000 .. 1008 gets the handler of its
own `case`, not the insertion. -/
theorem C26_typed_byte_is_inserted (env : Env) (W : World) (b : Nat) (rest : List ReadResult)
    (hb : cursorInBounds W.E) (hins : insertableByte b)
    (hkey : editorReadKey env.charSigned W.input =
      KeyResult.key (charToInt env.charSigned b) rest) :
    (∃ W1 : World, editorProcessKeypress env W = Outcome.running W1 ∧
      (∀ row : erow, rowAt W.E W.E.file_position_y = some row →
        ∃ r1 : erow, rowAt W1.E W.E.file_position_y = some r1 ∧
          r1.characters = row.characters.take W.E.file_position_x.toNat ++
            b :: row.characters.drop W.E.file_position_x.toNat ∧
          W1.E.file_position_y = W.E.file_position_y ∧
          W1.E.file_position_x = W.E.file_position_x + 1 ∧
          W1.E.number_of_rows = W.E.number_of_rows ∧
          ∀ i : Int, i ≠ W.E.file_position_y → rowAt W1.E i = rowAt W.E i) ∧
      (W.E.file_position_y = W.E.number_of_rows →
        ∃ r1 : erow, rowAt W1.E W.E.number_of_rows = some r1 ∧ r1.characters = [b] ∧
          W1.E.number_of_rows = W.E.number_of_rows + 1 ∧
          W1.E.file_position_y = W.E.number_of_rows ∧ W1.E.file_position_x = 1 ∧
          ∀ i : Int, i ≠ W.E.number_of_rows → rowAt W1.E i = rowAt W.E i)) ∧
    (∀ E : editorConfig,
      processEditKey E ARROW_LEFT = editorMoveCursor E ARROW_LEFT ∧
      processEditKey E ARROW_RIGHT = editorMoveCursor E ARROW_RIGHT ∧
      processEditKey E ARROW_UP = editorMoveCursor E ARROW_UP ∧
      processEditKey E ARROW_DOWN = editorMoveCursor E ARROW_DOWN ∧
      processEditKey E DEL_KEY = editorDelChar (editorMoveCursor E ARROW_RIGHT) ∧
      processEditKey E HOME_KEY = { E with file_position_x := 0 } ∧
      processEditKey E END_KEY =
        (if E.file_position_y < E.number_of_rows then
          match rowAt E E.file_position_y with
          | some row => { E with file_position_x := row.size }
          | none => E
        else E) ∧
      processEditKey E PAGE_UP =
        moveCursorTimes ARROW_UP E.screen_rows.toNat { E with file_position_y := E.row_offset } ∧
      processEditKey E PAGE_DOWN =
        moveCursorTimes ARROW_DOWN E.screen_rows.toNat
          (if E.row_offset + E.screen_rows - 1 > E.number_of_rows then
            { E with file_position_y := E.number_of_rows }
          else { E with file_position_y := E.row_offset + E.screen_rows - 1 })) := by
  obtain ⟨hE, hbyte⟩ := processEditKey_insertable env.charSigned W.E b hins
  obtain ⟨h256, h13, h17, h1, h19, h8, h127, h12, h27⟩ := hins
  have hc : charToInt env.charSigned b = (b : Int) ∨
      charToInt env.charSigned b = (b : Int) - 256 := by
    unfold charToInt
    split
    · exact Or.inr rfl
    · exact Or.inl rfl
  have hneg : charToInt env.charSigned b = (b : Int) - 256 → 128 ≤ b := by
    unfold charToInt
    split <;> omega
  have hstep := editorProcessKeypress_edit env W _ rest hkey
    (by
      show charToInt env.charSigned b ≠ 17
      rcases hc with h | h
      · rw [h]; omega
      · have := hneg h
        rw [h]; omega)
    (by
      show charToInt env.charSigned b ≠ 1
      rcases hc with h | h
      · rw [h]; omega
      · have := hneg h
        rw [h]; omega)
    (by
      show charToInt env.charSigned b ≠ 19
      rcases hc with h | h
      · rw [h]; omega
      · have := hneg h
        rw [h]; omega)
  obtain ⟨hy0, hyn, hx0, hxl⟩ := hb
  refine ⟨⟨_, hstep, ?_, ?_⟩, ?_⟩
  · intro row hrow
    simp only
    rw [(rowLen_of_rowAt W.E _).1 row hrow] at hxl
    have hch := editorInsertChar_on_row W.E row (charToInt env.charSigned b) hrow hx0 hxl
    rw [hbyte] at hch
    have hset := rowAt_after_set W.E (processEditKey W.E (charToInt env.charSigned b))
      W.E.file_position_y row _ hrow (by rw [hE, hch])
    refine ⟨_, hset.1, ?_, ?_, ?_, hset.2.1, hset.2.2⟩
    · rw [editorUpdateRow_eq]
    · rw [hE, hch]
    · rw [hE, hch]
  · intro hy
    simp only
    have hx : W.E.file_position_x = 0 := by
      rw [hy, rowLen_outside W.E _ (le_refl _)] at hxl
      omega
    obtain ⟨r1, hch, hr1, -⟩ := editorInsertChar_at_end W.E (charToInt env.charSigned b) hy hx
    rw [hbyte] at hr1
    have hrows : (processEditKey W.E (charToInt env.charSigned b)).row = W.E.row ++ [r1] := by
      rw [hE, hch]
    refine ⟨r1, ?_, hr1, ?_, ?_, ?_, ?_⟩
    · exact rowAt_append_cons _ W.E.row [] r1 hrows
    · unfold editorConfig.number_of_rows
      rw [hrows, List.length_append]
      simp
    · rw [hE, hch]
      exact hy
    · rw [hE, hch]
    · intro i hi
      rcases lt_or_gt_of_ne hi with h | h
      · rw [rowAt_append_left _ W.E.row [r1] i hrows h]
        unfold rowAt
        rw [List.get?_eq_getElem?]
      · have e1 : rowAt W.E i = none := by
          cases hr : rowAt W.E i with
          | none => rfl
          | some r =>
            have := (rowAt_isSome_iff W.E i).mp (by rw [hr]; rfl)
            omega
        have e2 : rowAt (processEditKey W.E (charToInt env.charSigned b)) i = none := by
          cases hr : rowAt (processEditKey W.E (charToInt env.charSigned b)) i with
          | none => rfl
          | some r =>
            have := (rowAt_isSome_iff _ i).mp (by rw [hr]; rfl)
            unfold editorConfig.number_of_rows at this h
            rw [hrows, List.length_append] at this
            simp only [List.length_singleton] at this
            omega
        rw [e1, e2]
  · intro E
    refine ⟨rfl, rfl, rfl, rfl, rfl, rfl, rfl, rfl, ?_⟩
    have h : processEditKey E PAGE_DOWN =
        moveCursorTimes ARROW_DOWN
          (if E.row_offset + E.screen_rows - 1 > E.number_of_rows then
            ({ E with file_position_y := E.number_of_rows } : editorConfig)
          else { E with file_position_y := E.row_offset + E.screen_rows - 1 }).screen_rows.toNat
          (if E.row_offset + E.screen_rows - 1 > E.number_of_rows then
            { E with file_position_y := E.number_of_rows }
          else { E with file_position_y := E.row_offset + E.screen_rows - 1 }) := rfl
    rw [h]
    split_ifs <;> rfl

/-- The claim C26 on the two-row sample document with the cursor at `(0, 2)` and the key `x`
(byte 120): row 0 becomes `a TAB x b`. -/
theorem C26_witness :
    cursorInBounds sampleDoc ∧ insertableByte 120 ∧
      ∃ W1 : World,
        editorProcessKeypress sampleEnv
          { sampleTypingWorld with input := [ReadResult.byte 120] } = Outcome.running W1 ∧
        W1.E.row.map erow.characters = [[97, 9, 120, 98], [99]] :=
  ⟨by decide, by decide,
    (C26_typed_byte_is_inserted sampleEnv { sampleTypingWorld with input := [ReadResult.byte 120] }
      120 [] (by decide) (by decide) (by decide)).1.elim
      (fun W1 h => ⟨W1, h.1, by
        have h2 := h.1
        have h3 : editorProcessKeypress sampleEnv
            { sampleTypingWorld with input := [ReadResult.byte 120] } =
            Outcome.running
              { E := editorInsertChar sampleDoc 120, quit_times := TEXOR_QUIT_TIMES, input := [],
                written := [] } := by decide
        rw [h3] at h2
        injection h2 with h4
        rw [← h4]
        decide⟩)⟩
/-! ## The dirty counter -/

/-- Nothing changed: the counter is honest. -/
theorem dirtyTracks_refl (E : editorConfig) : dirtyTracks E E :=
  ⟨le_refl _, fun _ => rfl⟩

/-- Two honest steps make an honest step. -/
theorem dirtyTracks_trans (E E1 E2 : editorConfig) (h1 : dirtyTracks E E1)
    (h2 : dirtyTracks E1 E2) : dirtyTracks E E2 := by
  obtain ⟨a1, b1⟩ := h1
  obtain ⟨a2, b2⟩ := h2
  refine ⟨le_trans a1 a2, fun h => ?_⟩
  have e1 : E1.dirty = E.dirty := by omega
  have e2 : E2.dirty = E1.dirty := by omega
  rw [b2 e2, b1 e1]

/-- A step that keeps the rows and the counter is honest. -/
theorem dirtyTracks_of_same (E E1 : editorConfig) (hr : E1.row = E.row)
    (hd : E1.dirty = E.dirty) : dirtyTracks E E1 :=
  ⟨le_of_eq hd.symm, fun _ => hr⟩

/-- A step that raises the counter is honest. -/
theorem dirtyTracks_of_lt (E E1 : editorConfig) (hd : E.dirty < E1.dirty) : dirtyTracks E E1 :=
  ⟨le_of_lt hd, fun h => absurd h (ne_of_gt hd)⟩

/-- The five row store operations keep the counter honest. -/
theorem dirtyTracks_row_store (E : editorConfig) :
    (∀ (idx : Int) (s : List Nat), dirtyTracks E (editorInsertRow E idx s)) ∧
    (∀ idx : Int, dirtyTracks E (editorDelRow E idx)) ∧
    (∀ ri idx c : Int, dirtyTracks E (editorRowInsertChar E ri idx c)) ∧
    (∀ (ri : Int) (s : List Nat), dirtyTracks E (editorRowAppendString E ri s)) ∧
    (∀ ri idx : Int, dirtyTracks E (editorRowDelChar E ri idx)) := by
  have hlt : ∀ E1 : editorConfig, E1.dirty = E.dirty + 1 → dirtyTracks E E1 :=
    fun E1 h => dirtyTracks_of_lt E E1 (by omega)
  refine ⟨?_, ?_, ?_, ?_, ?_⟩
  · intro idx s
    unfold editorInsertRow
    split_ifs
    · exact dirtyTracks_refl E
    · exact hlt _ rfl
  · intro idx
    unfold editorDelRow
    split_ifs
    · exact dirtyTracks_refl E
    · exact hlt _ rfl
  · intro ri idx c
    unfold editorRowInsertChar
    split
    · exact dirtyTracks_refl E
    · exact hlt _ rfl
  · intro ri s
    unfold editorRowAppendString
    split
    · exact dirtyTracks_refl E
    · exact hlt _ rfl
  · intro ri idx
    unfold editorRowDelChar
    split
    · exact dirtyTracks_refl E
    · split_ifs
      · exact dirtyTracks_refl E
      · exact hlt _ rfl

/-- The function `editorInsertChar` keeps the counter honest. -/
theorem dirtyTracks_editorInsertChar (E : editorConfig) (c : Int) :
    dirtyTracks E (editorInsertChar E c) := by
  unfold editorInsertChar
  have h1 : dirtyTracks E
      (if E.file_position_y = E.number_of_rows then editorInsertRow E E.number_of_rows []
        else E) := by
    split_ifs
    · exact (dirtyTracks_row_store E).1 _ _
    · exact dirtyTracks_refl E
  exact dirtyTracks_trans _ _ _ h1 ((dirtyTracks_row_store _).2.2.1 _ _ _)

/-- The function `editorInsertNewline` keeps the counter honest. -/
theorem dirtyTracks_editorInsertNewline (E : editorConfig) :
    dirtyTracks E (editorInsertNewline E) := by
  unfold editorInsertNewline
  split_ifs with hx
  · exact (dirtyTracks_row_store E).1 _ _
  · cases hrow : rowAt E E.file_position_y with
    | none => exact dirtyTracks_refl E
    | some row =>
      obtain ⟨h0, h1⟩ := rowAt_some_bounds E _ row hrow
      have hin : ¬ (E.file_position_y + 1 < 0 ∨ E.file_position_y + 1 > E.number_of_rows) := by
        omega
      have hd : (editorInsertRow E (E.file_position_y + 1)
          (row.characters.drop E.file_position_x.toNat)).dirty = E.dirty + 1 := by
        unfold editorInsertRow
        rw [if_neg hin]
      simp only
      generalize editorInsertRow E (E.file_position_y + 1)
        (row.characters.drop E.file_position_x.toNat) = E1 at hd
      apply dirtyTracks_of_lt
      split
      · simp only
        omega
      · simp only
        omega

/-- The function `editorDelChar` keeps the counter honest. -/
theorem dirtyTracks_editorDelChar (E : editorConfig) : dirtyTracks E (editorDelChar E) := by
  unfold editorDelChar
  by_cases h1 : E.file_position_y = E.number_of_rows
  · rw [if_pos h1]
    exact dirtyTracks_refl E
  rw [if_neg h1]
  by_cases h2 : E.file_position_x = 0 ∧ E.file_position_y = 0
  · rw [if_pos h2]
    exact dirtyTracks_refl E
  rw [if_neg h2]
  cases rowAt E E.file_position_y with
  | none => exact dirtyTracks_refl E
  | some row =>
    simp only
    by_cases h3 : E.file_position_x > 0
    · rw [if_pos h3]
      exact (dirtyTracks_row_store E).2.2.2.2 _ _
    rw [if_neg h3]
    cases rowAt E (E.file_position_y - 1) with
    | none => exact dirtyTracks_refl E
    | some prev =>
      simp only
      have a : dirtyTracks E ({ E with file_position_x := prev.size } : editorConfig) :=
        dirtyTracks_refl E
      have b := (dirtyTracks_row_store
        ({ E with file_position_x := prev.size } : editorConfig)).2.2.2.1
      have c := fun E2 : editorConfig => (dirtyTracks_row_store E2).2.1
      exact dirtyTracks_trans _ _ _ (dirtyTracks_trans _ _ _ a (b _ _)) (c _ _)

/-- The cursor keys keep the rows and the counter. -/
theorem dirtyTracks_moveCursorTimes (key : Int) (times : Nat) : ∀ E : editorConfig,
    dirtyTracks E (moveCursorTimes key times E) := by
  induction times with
  | zero => exact fun E => dirtyTracks_refl E
  | succ n ih =>
    intro E
    have h1 : dirtyTracks E (editorMoveCursor E key) := by
      apply dirtyTracks_of_same <;> rw [editorMoveCursor_frame]
    exact dirtyTracks_trans _ _ _ h1 (ih _)

/-- Every key handled by the `switch` outside the quit and save commands keeps the counter
honest. -/
theorem dirtyTracks_processEditKey (E : editorConfig) (c : Int) :
    dirtyTracks E (processEditKey E c) := by
  have hmove : ∀ key : Int, dirtyTracks E (editorMoveCursor E key) := by
    intro key
    apply dirtyTracks_of_same <;> rw [editorMoveCursor_frame]
  unfold processEditKey
  by_cases k1 : c = ENTER
  · rw [if_pos k1]
    exact dirtyTracks_editorInsertNewline E
  rw [if_neg k1]
  by_cases k2 : c = HOME_KEY
  · rw [if_pos k2]
    exact dirtyTracks_refl E
  rw [if_neg k2]
  by_cases k3 : c = END_KEY
  · rw [if_pos k3]
    split_ifs
    · cases rowAt E E.file_position_y <;> exact dirtyTracks_refl E
    · exact dirtyTracks_refl E
  rw [if_neg k3]
  by_cases k4 : c = BACKSPACE ∨ c = CTRL_KEY 104 ∨ c = DEL_KEY
  · rw [if_pos k4]
    split_ifs
    · exact dirtyTracks_trans _ _ _ (hmove _) (dirtyTracks_editorDelChar _)
    · exact dirtyTracks_editorDelChar E
  rw [if_neg k4]
  by_cases k5 : c = PAGE_UP ∨ c = PAGE_DOWN
  · rw [if_pos k5]
    simp only
    refine dirtyTracks_trans _ _ _ ?_ (dirtyTracks_moveCursorTimes _ _ _)
    split_ifs <;> exact dirtyTracks_refl E
  rw [if_neg k5]
  by_cases k6 : c = ARROW_UP ∨ c = ARROW_DOWN ∨ c = ARROW_LEFT ∨ c = ARROW_RIGHT
  · rw [if_pos k6]
    exact hmove c
  rw [if_neg k6]
  by_cases k7 : c = CTRL_KEY 108 ∨ c = ESC
  · rw [if_pos k7]
    exact dirtyTracks_refl E
  rw [if_neg k7]
  exact dirtyTracks_editorInsertChar E c
/-- C21: for every key other than Ctrl-S and Ctrl-A, `editorProcessKeypress` does not lower
`dirty`, leaves every row as it is when it leaves `dirty` as it is, and so raises `dirty` when
it changes the raw bytes of a row or the number of rows; when the process exits instead, the
editor state is the one before. -/
theorem C21_dirty_tracks_content (env : Env) (W : World) (c : Int) (rest : List ReadResult)
    (hkey : editorReadKey env.charSigned W.input = KeyResult.key c rest)
    (hs : c ≠ CTRL_KEY 115) (ha : c ≠ CTRL_KEY 97) :
    (∀ W1 : World, editorProcessKeypress env W = Outcome.running W1 →
      W.E.dirty ≤ W1.E.dirty ∧
      (W1.E.dirty = W.E.dirty → W1.E.row = W.E.row) ∧
      (W1.E.row.map erow.characters ≠ W.E.row.map erow.characters → W.E.dirty < W1.E.dirty) ∧
      (W1.E.number_of_rows ≠ W.E.number_of_rows → W.E.dirty < W1.E.dirty)) ∧
    (∀ (W1 : World) (out : List Nat), editorProcessKeypress env W = Outcome.exited W1 out →
      W1.E = W.E) := by
  have hall : ∀ E1 : editorConfig, dirtyTracks W.E E1 →
      W.E.dirty ≤ E1.dirty ∧
      (E1.dirty = W.E.dirty → E1.row = W.E.row) ∧
      (E1.row.map erow.characters ≠ W.E.row.map erow.characters → W.E.dirty < E1.dirty) ∧
      (E1.number_of_rows ≠ W.E.number_of_rows → W.E.dirty < E1.dirty) := by
    intro E1 h
    obtain ⟨h1, h2⟩ := h
    refine ⟨h1, h2, ?_, ?_⟩
    · intro hne
      rcases lt_or_eq_of_le h1 with hlt | heq
      · exact hlt
      · exact absurd (congrArg (List.map erow.characters) (h2 heq.symm)) hne
    · intro hne
      rcases lt_or_eq_of_le h1 with hlt | heq
      · exact hlt
      · exact absurd (congrArg (fun r : List erow => (r.length : Int)) (h2 heq.symm)) hne
  by_cases hq : c = CTRL_KEY 113
  · unfold editorProcessKeypress
    rw [hkey]
    simp only [if_pos hq]
    split_ifs
    · constructor
      · intro W1 h
        injection h with h
        subst h
        exact hall _ (dirtyTracks_of_same _ _ rfl rfl)
      · intro W1 out h
        cases h
    · constructor
      · intro W1 h
        cases h
      · intro W1 out h
        injection h with h _
        subst h
        rfl
  · rw [editorProcessKeypress_edit env W c rest hkey hq ha hs]
    constructor
    · intro W1 h
      injection h with h
      subst h
      exact hall _ (dirtyTracks_processEditKey W.E c)
    · intro W1 out h
      cases h

/-- The claim C21 on the two-row sample document with the key Backspace. -/
theorem C21_witness :
    editorReadKey sampleEnv.charSigned sampleTypingWorld.input =
        KeyResult.key BACKSPACE [ReadResult.byte 120] ∧
      ∀ W1 : World, editorProcessKeypress sampleEnv sampleTypingWorld = Outcome.running W1 →
        sampleTypingWorld.E.dirty ≤ W1.E.dirty ∧
        (W1.E.dirty = sampleTypingWorld.E.dirty → W1.E.row = sampleTypingWorld.E.row) ∧
        (W1.E.row.map erow.characters ≠ sampleTypingWorld.E.row.map erow.characters →
          sampleTypingWorld.E.dirty < W1.E.dirty) ∧
        (W1.E.number_of_rows ≠ sampleTypingWorld.E.number_of_rows →
          sampleTypingWorld.E.dirty < W1.E.dirty) :=
  ⟨by decide,
    (C21_dirty_tracks_content sampleEnv sampleTypingWorld BACKSPACE [ReadResult.byte 120]
      (by decide) (by decide) (by decide)).1⟩
/-! ## Saving -/

/-- A property of the editor state that `editorScroll` and `editorSetStatusMessage` keep is
kept by `editorPrompt`, however it returns. -/
theorem promptLoop_keeps (P : editorConfig → Prop)
    (hscroll : ∀ E : editorConfig, P E → P (editorScroll E))
    (hmsg : ∀ (now : Int) (E : editorConfig) (t : List Nat),
      P E → P (editorSetStatusMessage now E t))
    (charSigned : Bool) (now : Int) (before after : List Nat) (fuel : Nat) :
    ∀ (buf : List Nat) (bufsize : Nat) (E : editorConfig) (input : List ReadResult), P E →
      ∀ (E1 : editorConfig) (rest : List ReadResult) (buf1 : List Nat),
        (promptLoop charSigned now before after fuel buf bufsize E input =
            PromptResult.entered buf1 E1 rest ∨
          promptLoop charSigned now before after fuel buf bufsize E input =
            PromptResult.cancelled E1 rest) → P E1 := by
  induction fuel with
  | zero =>
    intro buf bufsize E input _ E1 rest buf1 h
    unfold promptLoop at h
    rcases h with h | h <;> cases h
  | succ n ih =>
    intro buf bufsize E input hP E1 rest buf1 h
    have hP1 : P (editorRefreshScreen (editorSetStatusMessage now E (before ++ buf ++ after))) :=
      hscroll _ (hmsg _ _ _ hP)
    unfold promptLoop at h
    cases hk : editorReadKey charSigned input with
    | blocked =>
      rw [hk] at h
      rcases h with h | h <;> cases h
    | died =>
      rw [hk] at h
      rcases h with h | h <;> cases h
    | key c rest1 =>
      rw [hk] at h
      simp only at h
      cases ha : promptKey buf bufsize c with
      | more buf2 bufsize2 =>
        rw [ha] at h
        exact ih buf2 bufsize2 _ rest1 hP1 E1 rest buf1 h
      | cancel =>
        rw [ha] at h
        rcases h with h | h
        · cases h
        · injection h with h1 h2
          rw [← h1]
          exact hmsg _ _ _ hP1
      | confirm buf2 =>
        rw [ha] at h
        rcases h with h | h
        · injection h with h0 h1 h2
          rw [← h1]
          exact hmsg _ _ _ hP1
        · cases h

/-- The function `editorScroll` keeps the rows, the dirty counter, the cursor, the file name
and the screen size. -/
theorem editorScroll_keeps (E : editorConfig) :
    (editorScroll E).row = E.row ∧ (editorScroll E).dirty = E.dirty ∧
      (editorScroll E).file_position_x = E.file_position_x ∧
      (editorScroll E).file_position_y = E.file_position_y ∧
      (editorScroll E).screen_rows = E.screen_rows ∧
      (editorScroll E).screen_columns = E.screen_columns ∧
      (editorScroll E).filename = E.filename := by
  rw [editorScroll_eq]
  exact ⟨rfl, rfl, rfl, rfl, rfl, rfl, rfl⟩

/-- The function `editorPrompt` keeps the rows and the dirty counter. -/
theorem editorPrompt_keeps_document (charSigned : Bool) (now : Int) (before after : List Nat)
    (E : editorConfig) (input : List ReadResult) (E1 : editorConfig) (rest : List ReadResult)
    (buf1 : List Nat)
    (h : editorPrompt charSigned now before after E input = PromptResult.entered buf1 E1 rest ∨
      editorPrompt charSigned now before after E input = PromptResult.cancelled E1 rest) :
    E1.row = E.row ∧ E1.dirty = E.dirty := by
  refine promptLoop_keeps (fun E2 => E2.row = E.row ∧ E2.dirty = E.dirty) ?_ ?_ charSigned now
    before after (input.length + 1) [] INPUT_BUFSIZE E input ⟨rfl, rfl⟩ E1 rest buf1 h
  · intro E2 h2
    obtain ⟨a, b, -⟩ := editorScroll_keeps E2
    exact ⟨a.trans h2.1, b.trans h2.2⟩
  · intro now2 E2 t h2
    exact h2
/-- The shared tail of a save when a step fails: the document stays, and the status message
begins with the text of the failure. -/
theorem writeFile_failed (env : Env) (W : World) (hfail : env.save ≠ SaveOutcome.written) :
    (writeFile env W).E.row = W.E.row ∧ (writeFile env W).E.dirty = W.E.dirty ∧
      cantSaveText <+: (writeFile env W).E.status_message := by
  have hpre : cantSaveText <+: (cantSaveText ++ env.errstr).take 79 := by
    rw [List.take_append_eq_append_take, List.take_of_length_le (by decide)]
    exact List.prefix_append _ _
  unfold writeFile
  cases hs : env.save with
  | written => exact absurd hs hfail
  | openFails => exact ⟨rfl, rfl, hpre⟩
  | truncateFails => exact ⟨rfl, rfl, hpre⟩
  | writeShort => exact ⟨rfl, rfl, hpre⟩

/-- The shared tail of a save when all three steps succeed: the rows stay and `dirty` is 0. -/
theorem writeFile_written (env : Env) (W : World) (hok : env.save = SaveOutcome.written) :
    (writeFile env W).E.row = W.E.row ∧ (writeFile env W).E.dirty = 0 := by
  unfold writeFile
  rw [hok]
  exact ⟨rfl, rfl⟩

/-- C30: when a step of the save fails (`open`, `ftruncate`, or a `write` of all the bytes),
a call of `editorSave` that returns leaves every row, the row count and `dirty` as they were,
and the status message begins with the text `Can't save! I/O error: ` (unless no step was
tried because the prompt for a file name was cancelled); `dirty` changes only when all three
steps succeed, and is 0 then. -/
theorem C30_failed_save_keeps_document (env : Env) (W W1 : World)
    (hrun : editorSave env W = Outcome.running W1) :
    (env.save ≠ SaveOutcome.written →
      W1.E.row = W.E.row ∧ W1.E.number_of_rows = W.E.number_of_rows ∧
      W1.E.dirty = W.E.dirty ∧
      (cantSaveText <+: W1.E.status_message ∨
        (W.E.filename = none ∧
          ∃ (E1 : editorConfig) (rest : List ReadResult),
            editorPrompt env.charSigned env.now (bytesOf "Save as: ")
              (bytesOf " (ESC to cancel)") W.E W.input = PromptResult.cancelled E1 rest))) ∧
    (W1.E.dirty ≠ W.E.dirty → env.save = SaveOutcome.written ∧ W1.E.dirty = 0) := by
  have hcases : (W1.E.row = W.E.row ∧ W1.E.dirty = W.E.dirty ∧
        (env.save ≠ SaveOutcome.written → cantSaveText <+: W1.E.status_message)) ∨
      (W1.E.row = W.E.row ∧ env.save = SaveOutcome.written ∧ W1.E.dirty = 0) ∨
      (W1.E.row = W.E.row ∧ W1.E.dirty = W.E.dirty ∧ W.E.filename = none ∧
        ∃ (E1 : editorConfig) (rest : List ReadResult),
          editorPrompt env.charSigned env.now (bytesOf "Save as: ")
            (bytesOf " (ESC to cancel)") W.E W.input = PromptResult.cancelled E1 rest) := by
    have hwrite : ∀ W0 : World, W0.E.row = W.E.row → W0.E.dirty = W.E.dirty →
        W1 = writeFile env W0 →
        (W1.E.row = W.E.row ∧ W1.E.dirty = W.E.dirty ∧
          (env.save ≠ SaveOutcome.written → cantSaveText <+: W1.E.status_message)) ∨
        (W1.E.row = W.E.row ∧ env.save = SaveOutcome.written ∧ W1.E.dirty = 0) := by
      intro W0 hr hd hW1
      subst hW1
      by_cases hok : env.save = SaveOutcome.written
      · obtain ⟨a, b⟩ := writeFile_written env W0 hok
        exact Or.inr ⟨a.trans hr, hok, b⟩
      · obtain ⟨a, b, c⟩ := writeFile_failed env W0 hok
        exact Or.inl ⟨a.trans hr, b.trans hd, fun _ => c⟩
    unfold editorSave at hrun
    cases hfn : W.E.filename with
    | some fname =>
      rw [hfn] at hrun
      simp only at hrun
      injection hrun with hrun
      rcases hwrite W rfl rfl hrun.symm with h | h
      · exact Or.inl h
      · exact Or.inr (Or.inl h)
    | none =>
      rw [hfn] at hrun
      simp only at hrun
      unfold editorSaveAs at hrun
      cases hp : editorPrompt env.charSigned env.now (bytesOf "Save as: ")
          (bytesOf " (ESC to cancel)") W.E W.input with
      | blocked =>
        rw [hp] at hrun
        cases hrun
      | died =>
        rw [hp] at hrun
        cases hrun
      | cancelled E1 rest =>
        rw [hp] at hrun
        simp only at hrun
        injection hrun with hrun
        obtain ⟨a, b⟩ := editorPrompt_keeps_document _ _ _ _ _ _ E1 rest [] (Or.inr hp)
        subst hrun
        exact Or.inr (Or.inr ⟨a, b, rfl, E1, rest, rfl⟩)
      | entered buf E1 rest =>
        rw [hp] at hrun
        simp only at hrun
        injection hrun with hrun
        obtain ⟨a, b⟩ := editorPrompt_keeps_document _ _ _ _ _ _ E1 rest buf (Or.inl hp)
        rcases hwrite { W with E := { E1 with filename := some buf }, input := rest } a b
          hrun.symm with h | h
        · exact Or.inl h
        · exact Or.inr (Or.inl h)
  have hn : W1.E.row = W.E.row → W1.E.number_of_rows = W.E.number_of_rows := by
    intro h
    unfold editorConfig.number_of_rows
    rw [h]
  constructor
  · intro hfail
    rcases hcases with ⟨a, b, c⟩ | ⟨a, b, c⟩ | ⟨a, b, c, d⟩
    · exact ⟨a, hn a, b, Or.inl (c hfail)⟩
    · exact absurd b hfail
    · exact ⟨a, hn a, b, Or.inr ⟨c, d⟩⟩
  · intro hne
    rcases hcases with ⟨a, b, c⟩ | ⟨a, b, c⟩ | ⟨a, b, c, d⟩
    · exact absurd b hne
    · exact ⟨b, c⟩
    · exact absurd b hne

/-- The claim C30 on the named sample document when `open` fails: rows and `dirty` stay and
the message begins with the failure text. -/
theorem C30_witness :
    editorSave sampleFailEnv sampleNamedWorld =
        Outcome.running (writeFile sampleFailEnv sampleNamedWorld) ∧
      (writeFile sampleFailEnv sampleNamedWorld).E.row = sampleNamedWorld.E.row ∧
      (writeFile sampleFailEnv sampleNamedWorld).E.number_of_rows =
        sampleNamedWorld.E.number_of_rows ∧
      (writeFile sampleFailEnv sampleNamedWorld).E.dirty = sampleNamedWorld.E.dirty ∧
      (cantSaveText <+: (writeFile sampleFailEnv sampleNamedWorld).E.status_message ∨
        (sampleNamedWorld.E.filename = none ∧
          ∃ (E1 : editorConfig) (rest : List ReadResult),
            editorPrompt sampleFailEnv.charSigned sampleFailEnv.now (bytesOf "Save as: ")
              (bytesOf " (ESC to cancel)") sampleNamedWorld.E sampleNamedWorld.input =
                PromptResult.cancelled E1 rest)) :=
  ⟨rfl,
    (C30_failed_save_keeps_document sampleFailEnv sampleNamedWorld
      (writeFile sampleFailEnv sampleNamedWorld) rfl).1 (by decide)⟩
/-! ## The prompt -/

/-- C29: what one key does to the buffer of `editorPrompt`.  Backspace, Ctrl-H and Delete
remove the last byte, if any; ESC cancels whatever the buffer holds; Enter returns a non-empty
buffer and goes on with an empty one; a byte 32 .. 126 is appended; every other key that is not
negative is ignored.  A negative key is appended as well: where plain `char` is signed, the
byte 255 is read as the key -1, so that on the bytes 255 and 13 the prompt returns the buffer
holding the byte 255, which is no printable byte. -/
theorem C29_prompt_key_by_key :
    (∀ (buf : List Nat) (bufsize : Nat) (c : Int),
      (c = DEL_KEY ∨ c = CTRL_KEY 104 ∨ c = BACKSPACE →
        promptKey buf bufsize c = PromptAction.more buf.dropLast bufsize) ∧
      (c = ESC → promptKey buf bufsize c = PromptAction.cancel) ∧
      (c = ENTER → buf ≠ [] → promptKey buf bufsize c = PromptAction.confirm buf) ∧
      (c = ENTER → buf = [] → promptKey buf bufsize c = PromptAction.more [] bufsize) ∧
      (32 ≤ c → c ≤ 126 →
        ∃ bufsize1 : Nat, promptKey buf bufsize c = PromptAction.more (buf ++ [c.toNat]) bufsize1) ∧
      (0 ≤ c → c < 32 ∨ 126 < c → c ≠ CTRL_KEY 104 → c ≠ BACKSPACE → c ≠ DEL_KEY → c ≠ ESC →
        c ≠ ENTER → promptKey buf bufsize c = PromptAction.more buf bufsize) ∧
      (c < 0 →
        ∃ bufsize1 : Nat,
          promptKey buf bufsize c = PromptAction.more (buf ++ [(c % 256).toNat]) bufsize1)) ∧
    editorReadKey true [ReadResult.byte 255] = KeyResult.key (-1) [] ∧
    promptKey [] INPUT_BUFSIZE (-1) = PromptAction.more [255] INPUT_BUFSIZE ∧
    editorPrompt true 0 (bytesOf "Save as: ") (bytesOf " (ESC to cancel)") sampleEmpty
        [ReadResult.byte 255, ReadResult.byte 13] =
      PromptResult.entered [255]
        { sampleEmpty with status_message := [], status_message_time := 0 } [] := by
  refine ⟨?_, by decide, by decide, by decide⟩
  intro buf bufsize c
  have h104 : CTRL_KEY 104 = 8 := by decide
  have hdrop : (if buf.length ≠ 0 then buf.dropLast else buf) = buf.dropLast := by
    split_ifs with h
    · rfl
    · have : buf = [] := List.length_eq_zero.mp (by omega)
      rw [this]
      rfl
  refine ⟨?_, ?_, ?_, ?_, ?_, ?_, ?_⟩
  · intro h
    unfold promptKey
    rw [if_pos h, hdrop]
  · intro h
    subst h
    rfl
  · intro h hne
    subst h
    have hl : buf.length ≠ 0 := fun h0 => hne (List.length_eq_zero.mp h0)
    have e1 : ¬ (ENTER = DEL_KEY ∨ ENTER = CTRL_KEY 104 ∨ ENTER = BACKSPACE) := by decide
    have e2 : ¬ (ENTER = ESC) := by decide
    unfold promptKey
    rw [if_neg e1, if_neg e2, if_pos rfl, if_pos hl]
  · intro h hnil
    subst h hnil
    rfl
  · intro h0 h1
    have e1 : ¬ (c = DEL_KEY ∨ c = CTRL_KEY 104 ∨ c = BACKSPACE) := by
      rw [h104]
      unfold DEL_KEY BACKSPACE
      omega
    have e2 : ¬ (c = ESC) := by
      unfold ESC
      omega
    have e3 : ¬ (c = ENTER) := by
      unfold ENTER
      omega
    have e4 : ¬ iscntrl c ∧ c < 128 := by
      unfold iscntrl
      omega
    have e5 : (c % 256).toNat = c.toNat := by omega
    unfold promptKey
    rw [if_neg e1, if_neg e2, if_neg e3, if_pos e4, e5]
    exact ⟨_, rfl⟩
  · intro h0 hr k1 k2 k3 k4 k5
    have e1 : ¬ (c = DEL_KEY ∨ c = CTRL_KEY 104 ∨ c = BACKSPACE) := by
      rintro (h | h | h)
      · exact k3 h
      · exact k1 h
      · exact k2 h
    have e4 : ¬ (¬ iscntrl c ∧ c < 128) := by
      unfold iscntrl
      unfold BACKSPACE at k2
      omega
    unfold promptKey
    rw [if_neg e1, if_neg k4, if_neg k5, if_neg e4]
  · intro hneg
    have e1 : ¬ (c = DEL_KEY ∨ c = CTRL_KEY 104 ∨ c = BACKSPACE) := by
      rw [h104]
      unfold DEL_KEY BACKSPACE
      omega
    have e2 : ¬ (c = ESC) := by
      unfold ESC
      omega
    have e3 : ¬ (c = ENTER) := by
      unfold ENTER
      omega
    have e4 : ¬ iscntrl c ∧ c < 128 := by
      unfold iscntrl
      omega
    unfold promptKey
    rw [if_neg e1, if_neg e2, if_neg e3, if_pos e4]
    exact ⟨_, rfl⟩
/-! ## The status bar -/

/-- The cursor bounds speak of the cursor and the rows only. -/
theorem cursorInBounds_congr (E E1 : editorConfig) (hr : E1.row = E.row)
    (hx : E1.file_position_x = E.file_position_x)
    (hy : E1.file_position_y = E.file_position_y) :
    cursorInBounds E1 ↔ cursorInBounds E := by
  unfold cursorInBounds editorConfig.number_of_rows
  rw [rowLen_congr E E1 hr, hr, hx, hy]

/-- The `switch` of `editorMoveCursor` keeps the row inside `[0, number_of_rows]` and the
column at 0 or more. -/
theorem moveCursorSwitch_weak (E : editorConfig) (key : Int)
    (h0 : 0 ≤ E.file_position_y) (hn : E.file_position_y ≤ E.number_of_rows)
    (hx : 0 ≤ E.file_position_x) :
    0 ≤ (moveCursorSwitch E key).file_position_y ∧
      (moveCursorSwitch E key).file_position_y ≤ E.number_of_rows ∧
      0 ≤ (moveCursorSwitch E key).file_position_x := by
  unfold moveCursorSwitch
  by_cases k1 : key = ARROW_LEFT
  · rw [if_pos k1]
    by_cases a : E.file_position_x ≠ 0
    · rw [if_pos a]
      simp only
      omega
    rw [if_neg a]
    by_cases b : E.file_position_y > 0
    · rw [if_pos b]
      simp only
      cases rowAt { E with file_position_y := E.file_position_y - 1 }
          (E.file_position_y - 1) with
      | none =>
        simp only
        omega
      | some row =>
        simp only
        unfold erow.size
        omega
    rw [if_neg b]
    exact ⟨h0, hn, hx⟩
  rw [if_neg k1]
  by_cases k2 : key = ARROW_RIGHT
  · rw [if_pos k2, cursorRow_eq_rowAt]
    cases hr : rowAt E E.file_position_y with
    | none => exact ⟨h0, hn, hx⟩
    | some row =>
      have hb := rowAt_some_bounds E _ row hr
      simp only
      split_ifs
      · simp only
        omega
      · simp only
        omega
      · exact ⟨h0, hn, hx⟩
  rw [if_neg k2]
  by_cases k3 : key = ARROW_UP
  · rw [if_pos k3]
    split_ifs
    · simp only
      omega
    · exact ⟨h0, hn, hx⟩
  rw [if_neg k3]
  by_cases k4 : key = ARROW_DOWN
  · rw [if_pos k4]
    split_ifs
    · simp only
      omega
    · exact ⟨h0, hn, hx⟩
  rw [if_neg k4]
  exact ⟨h0, hn, hx⟩

/-- After `editorMoveCursor` the cursor is within its bounds, if only the row was inside
`[0, number_of_rows]` and the column at 0 or more. -/
theorem editorMoveCursor_in_bounds (E : editorConfig) (key : Int)
    (h0 : 0 ≤ E.file_position_y) (hn : E.file_position_y ≤ E.number_of_rows)
    (hx : 0 ≤ E.file_position_x) : cursorInBounds (editorMoveCursor E key) := by
  obtain ⟨a, b, c⟩ := moveCursorSwitch_weak E key h0 hn hx
  have hrows : (moveCursorSwitch E key).row = E.row := by rw [moveCursorSwitch_frame]
  rw [editorMoveCursor_eq]
  generalize moveCursorSwitch E key = M at a b c hrows
  have hlen : rowLen { M with file_position_x := min M.file_position_x (rowLen E M.file_position_y) }
      M.file_position_y = rowLen E M.file_position_y :=
    rowLen_congr E _ hrows _
  have := rowLen_nonneg E M.file_position_y
  unfold cursorInBounds editorConfig.number_of_rows
  unfold editorConfig.number_of_rows at b
  simp only
  rw [hlen, hrows]
  exact ⟨a, b, le_min c this, min_le_right _ _⟩

/-- The function `editorMoveCursor` keeps the offsets and the screen size. -/
theorem editorMoveCursor_view (E : editorConfig) (key : Int) :
    (editorMoveCursor E key).row_offset = E.row_offset ∧
      (editorMoveCursor E key).screen_rows = E.screen_rows := by
  rw [editorMoveCursor_frame]
  exact ⟨rfl, rfl⟩

/-- The loop of a page key: one turn or more leaves the cursor within its bounds; the rows,
the offsets and the screen size stay. -/
theorem moveCursorTimes_in_bounds (key : Int) (times : Nat) : ∀ E : editorConfig,
    0 ≤ E.file_position_y → E.file_position_y ≤ E.number_of_rows → 0 ≤ E.file_position_x →
    (1 ≤ times → cursorInBounds (moveCursorTimes key times E)) ∧
      (moveCursorTimes key times E).row_offset = E.row_offset ∧
      (moveCursorTimes key times E).screen_rows = E.screen_rows := by
  induction times with
  | zero =>
    intro E _ _ _
    exact ⟨fun h => absurd h (by omega), rfl, rfl⟩
  | succ n ih =>
    intro E h0 hn hx
    have hb := editorMoveCursor_in_bounds E key h0 hn hx
    obtain ⟨v1, v2⟩ := editorMoveCursor_view E key
    have hb2 := hb
    obtain ⟨b0, b1, b2, -⟩ := hb2
    obtain ⟨i1, i2, i3⟩ := ih (editorMoveCursor E key) b0 b1 b2
    simp only [moveCursorTimes]
    refine ⟨fun _ => ?_, i2.trans v1, i3.trans v2⟩
    cases n with
    | zero => exact hb
    | succ m => exact i1 (by omega)
/-- A cursor on an existing row, at a column from 0 to the size of the row, is within its
bounds. -/
theorem cursorInBounds_of_row (E : editorConfig) (r : erow)
    (hrow : rowAt E E.file_position_y = some r) (h0 : 0 ≤ E.file_position_x)
    (h1 : E.file_position_x ≤ r.size) : cursorInBounds E := by
  obtain ⟨a, b⟩ := rowAt_some_bounds E _ r hrow
  unfold cursorInBounds
  rw [(rowLen_of_rowAt E _).1 r hrow]
  exact ⟨a, le_of_lt b, h0, h1⟩

/-- A cursor at column 0 of a row index from 0 to the row count is within its bounds. -/
theorem cursorInBounds_col0 (E : editorConfig) (hy0 : 0 ≤ E.file_position_y)
    (hyn : E.file_position_y ≤ E.number_of_rows) (hx : E.file_position_x = 0) :
    cursorInBounds E := by
  unfold cursorInBounds
  rw [hx]
  exact ⟨hy0, hyn, le_refl 0, rowLen_nonneg E _⟩

/-- A cursor within its bounds is on an existing row, or at the append position in column 0. -/
theorem cursorInBounds_cases (E : editorConfig) (hb : cursorInBounds E) :
    (∃ row : erow, rowAt E E.file_position_y = some row ∧ 0 ≤ E.file_position_x ∧
      E.file_position_x ≤ row.size) ∨
    (rowAt E E.file_position_y = none ∧ E.file_position_y = E.number_of_rows ∧
      E.file_position_x = 0) := by
  obtain ⟨hy0, hyn, hx0, hxl⟩ := hb
  cases hr : rowAt E E.file_position_y with
  | some row =>
    rw [(rowLen_of_rowAt E _).1 row hr] at hxl
    exact Or.inl ⟨row, rfl, hx0, hxl⟩
  | none =>
    rw [(rowLen_of_rowAt E _).2 hr] at hxl
    have hn : ¬ (E.file_position_y < E.number_of_rows) := by
      intro hlt
      have := (rowAt_isSome_iff E E.file_position_y).mpr ⟨hy0, hlt⟩
      rw [hr] at this
      cases this
    exact Or.inr ⟨rfl, by omega, by omega⟩

/-- Nothing changed: the view is the same. -/
theorem sameView_refl (E : editorConfig) : sameView E E := ⟨rfl, rfl⟩

/-- The view stays over two steps that keep it. -/
theorem sameView_trans (E E1 E2 : editorConfig) (h1 : sameView E E1) (h2 : sameView E1 E2) :
    sameView E E2 :=
  ⟨h2.1.trans h1.1, h2.2.trans h1.2⟩

/-- The five row store operations keep the view. -/
theorem sameView_row_store (E : editorConfig) :
    (∀ (idx : Int) (s : List Nat), sameView E (editorInsertRow E idx s)) ∧
    (∀ idx : Int, sameView E (editorDelRow E idx)) ∧
    (∀ ri idx c : Int, sameView E (editorRowInsertChar E ri idx c)) ∧
    (∀ (ri : Int) (s : List Nat), sameView E (editorRowAppendString E ri s)) ∧
    (∀ ri idx : Int, sameView E (editorRowDelChar E ri idx)) := by
  refine ⟨?_, ?_, ?_, ?_, ?_⟩
  · intro idx s
    unfold editorInsertRow
    split_ifs <;> exact ⟨rfl, rfl⟩
  · intro idx
    unfold editorDelRow
    split_ifs <;> exact ⟨rfl, rfl⟩
  · intro ri idx c
    unfold editorRowInsertChar
    split <;> exact ⟨rfl, rfl⟩
  · intro ri s
    unfold editorRowAppendString
    split <;> exact ⟨rfl, rfl⟩
  · intro ri idx
    unfold editorRowDelChar
    split
    · exact ⟨rfl, rfl⟩
    · split_ifs <;> exact ⟨rfl, rfl⟩

/-- The function `editorInsertChar` keeps the view. -/
theorem sameView_editorInsertChar (E : editorConfig) (c : Int) :
    sameView E (editorInsertChar E c) := by
  unfold editorInsertChar
  have h1 : sameView E
      (if E.file_position_y = E.number_of_rows then editorInsertRow E E.number_of_rows []
        else E) := by
    split_ifs
    · exact (sameView_row_store E).1 _ _
    · exact sameView_refl E
  exact sameView_trans _ _ _ h1 ((sameView_row_store _).2.2.1 _ _ _)

/-- The function `editorInsertNewline` keeps the view. -/
theorem sameView_editorInsertNewline (E : editorConfig) :
    sameView E (editorInsertNewline E) := by
  unfold editorInsertNewline
  split_ifs with hx
  · exact (sameView_row_store E).1 _ _
  · cases rowAt E E.file_position_y with
    | none => exact sameView_refl E
    | some row =>
      simp only
      have h1 := (sameView_row_store E).1 (E.file_position_y + 1)
        (row.characters.drop E.file_position_x.toNat)
      generalize editorInsertRow E (E.file_position_y + 1)
        (row.characters.drop E.file_position_x.toNat) = E1 at h1
      split
      · exact h1
      · exact h1

/-- The function `editorDelChar` keeps the view. -/
theorem sameView_editorDelChar (E : editorConfig) : sameView E (editorDelChar E) := by
  unfold editorDelChar
  by_cases h1 : E.file_position_y = E.number_of_rows
  · rw [if_pos h1]
    exact sameView_refl E
  rw [if_neg h1]
  by_cases h2 : E.file_position_x = 0 ∧ E.file_position_y = 0
  · rw [if_pos h2]
    exact sameView_refl E
  rw [if_neg h2]
  cases rowAt E E.file_position_y with
  | none => exact sameView_refl E
  | some row =>
    simp only
    by_cases h3 : E.file_position_x > 0
    · rw [if_pos h3]
      exact (sameView_row_store E).2.2.2.2 _ _
    rw [if_neg h3]
    cases rowAt E (E.file_position_y - 1) with
    | none => exact sameView_refl E
    | some prev =>
      simp only
      have a : sameView E ({ E with file_position_x := prev.size } : editorConfig) :=
        sameView_refl E
      have b := (sameView_row_store
        ({ E with file_position_x := prev.size } : editorConfig)).2.2.2.1
      have c := fun E2 : editorConfig => (sameView_row_store E2).2.1
      exact sameView_trans _ _ _ (sameView_trans _ _ _ a (b _ _)) (c _ _)
/-- The function `editorInsertChar` keeps the cursor within its bounds. -/
theorem cursorInBounds_editorInsertChar (E : editorConfig) (c : Int) (hb : cursorInBounds E) :
    cursorInBounds (editorInsertChar E c) := by
  rcases cursorInBounds_cases E hb with ⟨row, hrow, h0, h1⟩ | ⟨-, hy, hx⟩
  · have hE := editorInsertChar_on_row E row c hrow h0 h1
    have hset := rowAt_after_set E (editorInsertChar E c) E.file_position_y row _ hrow
      (by rw [hE])
    have hy : (editorInsertChar E c).file_position_y = E.file_position_y := by rw [hE]
    have hx : (editorInsertChar E c).file_position_x = E.file_position_x + 1 := by rw [hE]
    apply cursorInBounds_of_row _ _ (by rw [hy]; exact hset.1)
    · omega
    · rw [hx, editorUpdateRow_eq]
      unfold erow.size at h1 ⊢
      simp only [List.length_append, List.length_cons, List.length_take, List.length_drop]
      omega
  · obtain ⟨r1, hE, hr1, -⟩ := editorInsertChar_at_end E c hy hx
    have hrows : (editorInsertChar E c).row = E.row ++ [r1] := by rw [hE]
    have hy1 : (editorInsertChar E c).file_position_y = E.number_of_rows := by
      rw [hE]
      exact hy
    have hx1 : (editorInsertChar E c).file_position_x = 1 := by rw [hE]
    apply cursorInBounds_of_row _ r1
    · rw [hy1]
      exact rowAt_append_cons _ E.row [] r1 hrows
    · omega
    · rw [hx1]
      unfold erow.size
      rw [hr1]
      simp

/-- The function `editorInsertNewline` keeps the cursor within its bounds. -/
theorem cursorInBounds_editorInsertNewline (E : editorConfig) (hb : cursorInBounds E) :
    cursorInBounds (editorInsertNewline E) := by
  rcases cursorInBounds_cases E hb with ⟨row, hrow, h0, h1⟩ | ⟨-, hy, hx⟩
  · obtain ⟨pre, post, hsplit, hy⟩ := rowAt_some_split E _ row hrow
    obtain ⟨m, hm⟩ : ∃ m : Nat, E.file_position_x = (m : Int) :=
      ⟨E.file_position_x.toNat, by omega⟩
    have hml : m ≤ row.characters.length := by
      unfold erow.size at h1
      omega
    obtain ⟨A, B, hrows, -, -, -, -, hy1, hx1, -⟩ :=
      editorInsertNewline_split E pre post row m hsplit hy hm hml
    apply cursorInBounds_col0 _ _ _ hx1
    · omega
    · unfold editorConfig.number_of_rows
      rw [hrows, hy1]
      simp only [List.length_append, List.length_cons]
      push_cast
      omega
  · have hn : E.number_of_rows = (E.row.length : Int) := rfl
    have hins := editorInsertRow_in_range E E.row.length [] (le_refl _)
    rw [← hn, ← hy] at hins
    have hE : editorInsertNewline E =
        { editorInsertRow E E.file_position_y [] with
          file_position_y := (editorInsertRow E E.file_position_y []).file_position_y + 1
          file_position_x := 0 } := by
      unfold editorInsertNewline
      rw [if_pos hx]
    have hrows : (editorInsertNewline E).row.length = E.row.length + 1 := by
      rw [hE, hins]
      simp
    have hy1 : (editorInsertNewline E).file_position_y = E.file_position_y + 1 := by
      rw [hE, hins]
    apply cursorInBounds_col0 _ _ _ rfl
    · rw [hy1]
      have := hb.1
      omega
    · unfold editorConfig.number_of_rows
      rw [hy1, hrows, hy, hn]
      push_cast
      omega

/-- The function `editorDelChar` keeps the cursor within its bounds. -/
theorem cursorInBounds_editorDelChar (E : editorConfig) (hb : cursorInBounds E) :
    cursorInBounds (editorDelChar E) := by
  rcases cursorInBounds_cases E hb with ⟨row, hrow, h0, h1⟩ | ⟨-, hy, hx⟩
  · obtain ⟨hy0, hyn⟩ := rowAt_some_bounds E _ row hrow
    by_cases hpos : 0 < E.file_position_x
    · have hE := editorDelChar_in_row E row hrow hpos h1
      have hset := rowAt_after_set E (editorDelChar E) E.file_position_y row _ hrow
        (by rw [hE])
      have hy : (editorDelChar E).file_position_y = E.file_position_y := by rw [hE]
      have hx : (editorDelChar E).file_position_x = E.file_position_x - 1 := by rw [hE]
      apply cursorInBounds_of_row _ _ (by rw [hy]; exact hset.1)
      · omega
      · rw [hx, editorUpdateRow_eq]
        unfold erow.size at h1 ⊢
        simp only
        rw [List.length_eraseIdx]
        split_ifs <;> omega
    · have hx : E.file_position_x = 0 := by omega
      by_cases hy : E.file_position_y = 0
      · have hE : editorDelChar E = E := by
          unfold editorDelChar
          simp [hx, hy]
        rw [hE]
        exact hb
      · cases hprev : rowAt E (E.file_position_y - 1) with
        | none =>
          have := (rowAt_isSome_iff E (E.file_position_y - 1)).mpr ⟨by omega, by omega⟩
          rw [hprev] at this
          cases this
        | some prev =>
          obtain ⟨pre, post, hsplit, hy1⟩ := rowAt_pair_split E _ prev row hprev hrow
          have hm := editorDelChar_merge E pre post prev row hsplit hy1 hx
          have hrows : (editorDelChar E).row = pre ++
              editorUpdateRow { prev with characters := prev.characters ++ row.characters } ::
                post := by
            rw [hm]
          have hyy : (editorDelChar E).file_position_y = (pre.length : Int) := by rw [hm]
          have hxx : (editorDelChar E).file_position_x = prev.size := by rw [hm]
          apply cursorInBounds_of_row _ _
            (by rw [hyy]; exact rowAt_append_cons _ pre post _ hrows)
          · rw [hxx]
            unfold erow.size
            omega
          · rw [hxx, editorUpdateRow_eq]
            unfold erow.size
            simp only [List.length_append]
            push_cast
            omega
  · have hE : editorDelChar E = E := by
      unfold editorDelChar
      simp [hy]
    rw [hE]
    exact hb
/-- The loop of a page key keeps the view. -/
theorem sameView_moveCursorTimes (key : Int) (times : Nat) : ∀ E : editorConfig,
    sameView E (moveCursorTimes key times E) := by
  induction times with
  | zero => exact fun E => sameView_refl E
  | succ n ih =>
    intro E
    exact sameView_trans _ _ _ (editorMoveCursor_view E key) (ih _)

/-- Every key handled by the `switch` outside the quit and save commands keeps the view. -/
theorem sameView_processEditKey (E : editorConfig) (c : Int) :
    sameView E (processEditKey E c) := by
  unfold processEditKey
  by_cases k1 : c = ENTER
  · rw [if_pos k1]
    exact sameView_editorInsertNewline E
  rw [if_neg k1]
  by_cases k2 : c = HOME_KEY
  · rw [if_pos k2]
    exact sameView_refl E
  rw [if_neg k2]
  by_cases k3 : c = END_KEY
  · rw [if_pos k3]
    split_ifs
    · cases rowAt E E.file_position_y <;> exact sameView_refl E
    · exact sameView_refl E
  rw [if_neg k3]
  by_cases k4 : c = BACKSPACE ∨ c = CTRL_KEY 104 ∨ c = DEL_KEY
  · rw [if_pos k4]
    split_ifs
    · exact sameView_trans _ _ _ (editorMoveCursor_view E _) (sameView_editorDelChar _)
    · exact sameView_editorDelChar E
  rw [if_neg k4]
  by_cases k5 : c = PAGE_UP ∨ c = PAGE_DOWN
  · rw [if_pos k5]
    simp only
    refine sameView_trans _ _ _ ?_ (sameView_moveCursorTimes _ _ _)
    split_ifs <;> exact sameView_refl E
  rw [if_neg k5]
  by_cases k6 : c = ARROW_UP ∨ c = ARROW_DOWN ∨ c = ARROW_LEFT ∨ c = ARROW_RIGHT
  · rw [if_pos k6]
    exact editorMoveCursor_view E c
  rw [if_neg k6]
  by_cases k7 : c = CTRL_KEY 108 ∨ c = ESC
  · rw [if_pos k7]
    exact sameView_refl E
  rw [if_neg k7]
  exact sameView_editorInsertChar E c

/-- Every key handled by the `switch` outside the quit and save commands keeps the invariant
of the loop, when the row offset is at most the cursor row (as `editorScroll` leaves it). -/
theorem loopInvariant_processEditKey (E : editorConfig) (c : Int) (hinv : loopInvariant E)
    (hro : E.row_offset ≤ E.file_position_y) : loopInvariant (processEditKey E c) := by
  obtain ⟨hb, hro0, hsr⟩ := hinv
  obtain ⟨v1, v2⟩ := sameView_processEditKey E c
  refine ⟨?_, by rw [v1]; exact hro0, by rw [v2]; exact hsr⟩
  have hb2 := hb
  obtain ⟨hy0, hyn, hx0, hxl⟩ := hb2
  unfold processEditKey
  by_cases k1 : c = ENTER
  · rw [if_pos k1]
    exact cursorInBounds_editorInsertNewline E hb
  rw [if_neg k1]
  by_cases k2 : c = HOME_KEY
  · rw [if_pos k2]
    exact cursorInBounds_col0 _ hy0 hyn rfl
  rw [if_neg k2]
  by_cases k3 : c = END_KEY
  · rw [if_pos k3]
    split_ifs
    · cases hr : rowAt E E.file_position_y with
      | none => exact hb
      | some row =>
        have hs : 0 ≤ row.size := by
          unfold erow.size
          omega
        exact cursorInBounds_of_row ({ E with file_position_x := row.size } : editorConfig) row
          hr hs (le_refl _)
    · exact hb
  rw [if_neg k3]
  by_cases k4 : c = BACKSPACE ∨ c = CTRL_KEY 104 ∨ c = DEL_KEY
  · rw [if_pos k4]
    split_ifs
    · exact cursorInBounds_editorDelChar _ (editorMoveCursor_in_bounds E _ hy0 hyn hx0)
    · exact cursorInBounds_editorDelChar E hb
  rw [if_neg k4]
  by_cases k5 : c = PAGE_UP ∨ c = PAGE_DOWN
  · rw [if_pos k5]
    simp only
    have ht : 1 ≤ E.screen_rows.toNat := by omega
    by_cases k8 : c = PAGE_UP
    · simp only [if_pos k8]
      exact (moveCursorTimes_in_bounds ARROW_UP E.screen_rows.toNat
        ({ E with file_position_y := E.row_offset } : editorConfig) hro0
        (show E.row_offset ≤ E.number_of_rows by omega) hx0).1 ht
    · simp only [if_neg k8]
      by_cases h9 : E.row_offset + E.screen_rows - 1 > E.number_of_rows
      · have h10 : ({ E with file_position_y := E.row_offset + E.screen_rows - 1 } :
            editorConfig).file_position_y >
            ({ E with file_position_y := E.row_offset + E.screen_rows - 1 } :
              editorConfig).number_of_rows := h9
        simp only [if_pos h10]
        exact (moveCursorTimes_in_bounds ARROW_DOWN E.screen_rows.toNat
          ({ E with file_position_y := E.number_of_rows } : editorConfig)
          (show 0 ≤ E.number_of_rows by omega) (le_refl _) hx0).1 ht
      · have h10 : ¬ (({ E with file_position_y := E.row_offset + E.screen_rows - 1 } :
            editorConfig).file_position_y >
            ({ E with file_position_y := E.row_offset + E.screen_rows - 1 } :
              editorConfig).number_of_rows) := h9
        simp only [if_neg h10]
        exact (moveCursorTimes_in_bounds ARROW_DOWN E.screen_rows.toNat
          ({ E with file_position_y := E.row_offset + E.screen_rows - 1 } : editorConfig)
          (show 0 ≤ E.row_offset + E.screen_rows - 1 by omega)
          (show E.row_offset + E.screen_rows - 1 ≤ E.number_of_rows by omega) hx0).1 ht
  rw [if_neg k5]
  by_cases k6 : c = ARROW_UP ∨ c = ARROW_DOWN ∨ c = ARROW_LEFT ∨ c = ARROW_RIGHT
  · rw [if_pos k6]
    exact editorMoveCursor_in_bounds E c hy0 hyn hx0
  rw [if_neg k6]
  by_cases k7 : c = CTRL_KEY 108 ∨ c = ESC
  · rw [if_pos k7]
    exact hb
  rw [if_neg k7]
  exact cursorInBounds_editorInsertChar E c hb
/-- The function `editorScroll` keeps the invariant of the loop and leaves the row offset at
most the cursor row. -/
theorem loopInvariant_editorScroll (E : editorConfig) (hinv : loopInvariant E) :
    loopInvariant (editorScroll E) ∧
      (editorScroll E).row_offset ≤ (editorScroll E).file_position_y := by
  obtain ⟨hb, hro0, hsr⟩ := hinv
  obtain ⟨hy0, -, -, -⟩ := id hb
  obtain ⟨k1, -, k3, k4, k5, -, -⟩ := editorScroll_keeps E
  have hro : (editorScroll E).row_offset =
      scrollOffset E.file_position_y E.row_offset E.screen_rows := by
    rw [editorScroll_eq]
  have hbound := scrollOffset_bounds E.file_position_y E.row_offset E.screen_rows hsr
  have hnonneg : 0 ≤ scrollOffset E.file_position_y E.row_offset E.screen_rows := by
    unfold scrollOffset
    split_ifs <;> omega
  refine ⟨⟨(cursorInBounds_congr E _ k1 k3 k4).mpr hb, ?_, ?_⟩, ?_⟩
  · rw [hro]
    exact hnonneg
  · rw [k5]
    exact hsr
  · rw [hro, k4]
    exact hbound.1

/-- The function `editorSetStatusMessage` keeps the invariant of the loop. -/
theorem loopInvariant_editorSetStatusMessage (now : Int) (E : editorConfig) (t : List Nat)
    (hinv : loopInvariant E) : loopInvariant (editorSetStatusMessage now E t) :=
  hinv

/-- A call of `editorSave` or `editorSaveAs` that returns keeps the invariant of the loop. -/
theorem loopInvariant_save (env : Env) (W W1 : World) (hinv : loopInvariant W.E)
    (hrun : editorSave env W = Outcome.running W1 ∨ editorSaveAs env W = Outcome.running W1) :
    loopInvariant W1.E := by
  have hwrite : ∀ W0 : World, loopInvariant W0.E → loopInvariant (writeFile env W0).E := by
    intro W0 h0
    unfold writeFile
    cases env.save <;> exact h0
  have hprompt : ∀ (E1 : editorConfig) (rest : List ReadResult) (buf1 : List Nat),
      (editorPrompt env.charSigned env.now (bytesOf "Save as: ") (bytesOf " (ESC to cancel)")
          W.E W.input = PromptResult.entered buf1 E1 rest ∨
        editorPrompt env.charSigned env.now (bytesOf "Save as: ") (bytesOf " (ESC to cancel)")
          W.E W.input = PromptResult.cancelled E1 rest) → loopInvariant E1 :=
    promptLoop_keeps loopInvariant (fun E h => (loopInvariant_editorScroll E h).1)
      (fun now E t h => h) env.charSigned env.now _ _ (W.input.length + 1) [] INPUT_BUFSIZE W.E
      W.input hinv
  have hsaveas : editorSaveAs env W = Outcome.running W1 → loopInvariant W1.E := by
    intro h
    unfold editorSaveAs at h
    cases hp : editorPrompt env.charSigned env.now (bytesOf "Save as: ")
        (bytesOf " (ESC to cancel)") W.E W.input with
    | blocked =>
      rw [hp] at h
      cases h
    | died =>
      rw [hp] at h
      cases h
    | cancelled E1 rest =>
      rw [hp] at h
      simp only at h
      injection h with h
      subst h
      exact hprompt E1 rest [] (Or.inr hp)
    | entered buf E1 rest =>
      rw [hp] at h
      simp only at h
      injection h with h
      subst h
      exact hwrite _ (hprompt E1 rest buf (Or.inl hp))
  rcases hrun with h | h
  · unfold editorSave at h
    cases hfn : W.E.filename with
    | none =>
      rw [hfn] at h
      exact hsaveas h
    | some fname =>
      rw [hfn] at h
      simp only at h
      injection h with h
      subst h
      exact hwrite W hinv
  · exact hsaveas h

/-- A turn of the loop of `main` that returns keeps the invariant of the loop. -/
theorem loopInvariant_mainLoopStep (env : Env) (W W1 : World) (hinv : loopInvariant W.E)
    (hrun : mainLoopStep env W = Outcome.running W1) : loopInvariant W1.E := by
  obtain ⟨hs, hro⟩ := loopInvariant_editorScroll W.E hinv
  unfold mainLoopStep editorRefreshScreen at hrun
  generalize hW2 : ({ W with E := editorScroll W.E } : World) = W2 at hrun
  have hE2 : W2.E = editorScroll W.E := by rw [← hW2]
  rw [← hE2] at hs hro
  have hreset : ∀ o : Outcome, resetQuitTimes o = Outcome.running W1 →
      ∃ W3 : World, o = Outcome.running W3 ∧ W1.E = W3.E := by
    intro o h
    cases o with
    | running W3 =>
      simp only [resetQuitTimes] at h
      injection h with h
      subst h
      exact ⟨W3, rfl, rfl⟩
    | exited W3 out => cases h
    | died => cases h
    | blocked => cases h
  unfold editorProcessKeypress at hrun
  cases hk : editorReadKey env.charSigned W2.input with
  | blocked =>
    rw [hk] at hrun
    cases hrun
  | died =>
    rw [hk] at hrun
    cases hrun
  | key c rest =>
    rw [hk] at hrun
    simp only at hrun
    by_cases hq : c = CTRL_KEY 113
    · rw [if_pos hq] at hrun
      split_ifs at hrun
      injection hrun with hrun
      subst hrun
      exact hs
    rw [if_neg hq] at hrun
    by_cases ha : c = CTRL_KEY 97
    · rw [if_pos ha] at hrun
      obtain ⟨W3, h3, hE3⟩ := hreset _ hrun
      rw [hE3]
      exact loopInvariant_save env { W2 with input := rest } W3 hs (Or.inr h3)
    rw [if_neg ha] at hrun
    by_cases hsv : c = CTRL_KEY 115
    · rw [if_pos hsv] at hrun
      obtain ⟨W3, h3, hE3⟩ := hreset _ hrun
      rw [hE3]
      exact loopInvariant_save env { W2 with input := rest } W3 hs (Or.inl h3)
    rw [if_neg hsv] at hrun
    obtain ⟨W3, h3, hE3⟩ := hreset _ hrun
    injection h3 with h3
    rw [hE3, ← h3]
    exact loopInvariant_processEditKey W2.E c hs hro

/-- The loop of `main` keeps its invariant over any number of turns. -/
theorem loopInvariant_mainLoop (envs : List Env) : ∀ W W1 : World, loopInvariant W.E →
    mainLoop envs W = Outcome.running W1 → loopInvariant W1.E := by
  induction envs with
  | nil =>
    intro W W1 hinv h
    simp only [mainLoop] at h
    injection h with h
    subst h
    exact hinv
  | cons env envs ih =>
    intro W W1 hinv h
    simp only [mainLoop] at h
    cases hstep : mainLoopStep env W with
    | running W2 =>
      rw [hstep] at h
      exact ih W2 W1 (loopInvariant_mainLoopStep env W W2 hinv hstep) h
    | exited W2 out =>
      rw [hstep] at h
      cases h
    | died =>
      rw [hstep] at h
      cases h
    | blocked =>
      rw [hstep] at h
      cases h

/-- The state in which `main` enters its loop satisfies the invariant of the loop, for a
window of 3 rows or more. -/
theorem loopInvariant_startWorld (now rows cols : Int) (file : Option (List Nat × List Nat))
    (input : List ReadResult) (hrows : 1 ≤ (initEditor rows cols).screen_rows) :
    loopInvariant (startWorld now rows cols file input).E := by
  have hdoc : loopInvariant (startDocument (initEditor rows cols) file) := by
    cases file with
    | none =>
      exact ⟨cursorInBounds_col0 _ (le_refl 0) (le_refl 0) rfl, le_refl 0, hrows⟩
    | some f =>
      obtain ⟨filename, content⟩ := f
      simp only [startDocument]
      rw [editorOpen_eq]
      refine ⟨cursorInBounds_col0 _ (le_refl 0) ?_ rfl, le_refl 0, hrows⟩
      show (0 : Int) ≤ (((initEditor rows cols).row ++ (fileLines content).map lineRow).length : Int)
      omega
  exact hdoc
/-- A turn of the loop of `main` that ends in `exit` leaves the editor state that
`editorRefreshScreen` produced, which satisfies the invariant of the loop. -/
theorem loopInvariant_mainLoopStep_exited (env : Env) (W W1 : World) (out : List Nat)
    (hinv : loopInvariant W.E) (hrun : mainLoopStep env W = Outcome.exited W1 out) :
    loopInvariant W1.E := by
  obtain ⟨hs, -⟩ := loopInvariant_editorScroll W.E hinv
  unfold mainLoopStep editorRefreshScreen at hrun
  generalize hW2 : ({ W with E := editorScroll W.E } : World) = W2 at hrun
  have hE2 : W2.E = editorScroll W.E := by rw [← hW2]
  rw [← hE2] at hs
  have hreset : ∀ o : Outcome, resetQuitTimes o = Outcome.exited W1 out →
      o = Outcome.exited W1 out := by
    intro o h
    cases o with
    | running W3 => cases h
    | exited W3 out3 => exact h
    | died => cases h
    | blocked => cases h
  unfold editorProcessKeypress at hrun
  cases hk : editorReadKey env.charSigned W2.input with
  | blocked =>
    rw [hk] at hrun
    cases hrun
  | died =>
    rw [hk] at hrun
    cases hrun
  | key c rest =>
    rw [hk] at hrun
    simp only at hrun
    by_cases hq : c = CTRL_KEY 113
    · rw [if_pos hq] at hrun
      split_ifs at hrun
      injection hrun with hrun _
      subst hrun
      exact hs
    rw [if_neg hq] at hrun
    by_cases ha : c = CTRL_KEY 97
    · rw [if_pos ha] at hrun
      exact absurd (hreset _ hrun) (editorSave_not_exited env _ W1 out).1
    rw [if_neg ha] at hrun
    by_cases hsv : c = CTRL_KEY 115
    · rw [if_pos hsv] at hrun
      exact absurd (hreset _ hrun) (editorSave_not_exited env _ W1 out).2
    rw [if_neg hsv] at hrun
    cases hreset _ hrun

/-- The loop of `main` that ends in `exit` after some turns leaves a state that satisfies the
invariant of the loop. -/
theorem loopInvariant_mainLoop_exited (envs : List Env) : ∀ (W W1 : World) (out : List Nat),
    loopInvariant W.E → mainLoop envs W = Outcome.exited W1 out → loopInvariant W1.E := by
  induction envs with
  | nil =>
    intro W W1 out hinv h
    simp only [mainLoop] at h
    cases h
  | cons env envs ih =>
    intro W W1 out hinv h
    simp only [mainLoop] at h
    cases hstep : mainLoopStep env W with
    | running W2 =>
      rw [hstep] at h
      exact ih W2 W1 out (loopInvariant_mainLoopStep env W W2 hinv hstep) h
    | exited W2 out2 =>
      rw [hstep] at h
      injection h with h1 h2
      subst h1
      exact loopInvariant_mainLoopStep_exited env W W2 out2 hinv hstep
    | died =>
      rw [hstep] at h
      cases h
    | blocked =>
      rw [hstep] at h
      cases h

/-- C22: start from `initEditor` with `screen_rows >= 1`, with or without a file loaded, and
run the loop of `main` (each keypress after the `editorScroll` of the frame) for any keys and
any surroundings.  In the state after every keypress, and in the state the editor exits from,
the cursor is within its bounds: `0 <= file_position_y <= number_of_rows`,
`0 <= file_position_x <= size` of the cursor row when there is one, and `file_position_x = 0`
when `file_position_y = number_of_rows`. -/
theorem C22_cursor_stays_in_bounds (now rows cols : Int)
    (file : Option (List Nat × List Nat)) (input : List ReadResult) (envs : List Env)
    (W : World) (hrows : 1 ≤ (initEditor rows cols).screen_rows)
    (hrun : mainLoop envs (startWorld now rows cols file input) = Outcome.running W ∨
      ∃ out : List Nat,
        mainLoop envs (startWorld now rows cols file input) = Outcome.exited W out) :
    0 ≤ W.E.file_position_y ∧ W.E.file_position_y ≤ W.E.number_of_rows ∧
      0 ≤ W.E.file_position_x ∧
      (∀ row : erow, rowAt W.E W.E.file_position_y = some row →
        W.E.file_position_x ≤ row.size) ∧
      (W.E.file_position_y = W.E.number_of_rows → W.E.file_position_x = 0) := by
  have hstart := loopInvariant_startWorld now rows cols file input hrows
  have hinv : loopInvariant W.E := by
    rcases hrun with h | ⟨out, h⟩
    · exact loopInvariant_mainLoop envs _ W hstart h
    · exact loopInvariant_mainLoop_exited envs _ W out hstart h
  obtain ⟨hb, -, -⟩ := hinv
  obtain ⟨hy0, hyn, hx0, hxl⟩ := id hb
  refine ⟨hy0, hyn, hx0, ?_, ?_⟩
  · intro row hrow
    rw [(rowLen_of_rowAt W.E _).1 row hrow] at hxl
    exact hxl
  · intro hy
    rw [hy, rowLen_outside W.E _ (le_refl _)] at hxl
    omega

/-- The claim C22 on a session on a 24 x 80 window that starts with no file and types `x` and
Enter: the cursor ends at `(1, 0)` on the empty second row. -/
theorem C22_witness :
    1 ≤ (initEditor 24 80).screen_rows ∧
      mainLoop [sampleEnv, sampleEnv]
          (startWorld 0 24 80 none [ReadResult.byte 120, ReadResult.byte 13]) =
        Outcome.running sampleSessionEnd ∧
      0 ≤ sampleSessionEnd.E.file_position_y ∧
      sampleSessionEnd.E.file_position_y ≤ sampleSessionEnd.E.number_of_rows ∧
      0 ≤ sampleSessionEnd.E.file_position_x ∧
      (∀ row : erow, rowAt sampleSessionEnd.E sampleSessionEnd.E.file_position_y = some row →
        sampleSessionEnd.E.file_position_x ≤ row.size) ∧
      (sampleSessionEnd.E.file_position_y = sampleSessionEnd.E.number_of_rows →
        sampleSessionEnd.E.file_position_x = 0) :=
  ⟨by decide, by decide,
    C22_cursor_stays_in_bounds 0 24 80 none [ReadResult.byte 120, ReadResult.byte 13]
      [sampleEnv, sampleEnv] sampleSessionEnd (by decide) (Or.inl (by decide))⟩

/-! ## Cursor moves, one after the other -/

/-- The key `ARROW_RIGHT` with the cursor at the end of an existing row. -/
theorem editorMoveCursor_right_at_end (E : editorConfig) (row : erow)
    (hrow : rowAt E E.file_position_y = some row) (hx : E.file_position_x = row.size) :
    editorMoveCursor E ARROW_RIGHT =
      { E with file_position_y := E.file_position_y + 1, file_position_x := 0 } := by
  have hk : ¬ (ARROW_RIGHT = ARROW_LEFT) := by decide
  have hnlt : ¬ (E.file_position_x < row.size) := by omega
  have hs : moveCursorSwitch E ARROW_RIGHT =
      { E with file_position_y := E.file_position_y + 1, file_position_x := 0 } := by
    unfold moveCursorSwitch
    simp only [if_neg hk, if_true, cursorRow_eq_rowAt, hrow, if_neg hnlt, if_pos hx]
  rw [editorMoveCursor_eq, hs]
  simp only
  rw [min_eq_left (rowLen_nonneg E _)]

/-- The key `ARROW_LEFT` with the cursor after a byte of its row. -/
theorem editorMoveCursor_left_in_row (E : editorConfig) (hx : 0 < E.file_position_x)
    (hxl : E.file_position_x ≤ rowLen E E.file_position_y) :
    editorMoveCursor E ARROW_LEFT = { E with file_position_x := E.file_position_x - 1 } := by
  have hne : E.file_position_x ≠ 0 := by omega
  have hs : moveCursorSwitch E ARROW_LEFT =
      { E with file_position_x := E.file_position_x - 1 } := by
    unfold moveCursorSwitch
    simp only [if_true, if_pos hne]
  rw [editorMoveCursor_eq, hs]
  simp only
  rw [min_eq_left (by omega)]

/-- The key `ARROW_LEFT` with the cursor at column 0 of a row index above 0. -/
theorem editorMoveCursor_left_at_start (E : editorConfig) (hx : E.file_position_x = 0)
    (hy : 0 < E.file_position_y) :
    editorMoveCursor E ARROW_LEFT =
      { E with
        file_position_y := E.file_position_y - 1
        file_position_x := rowLen E (E.file_position_y - 1) } := by
  have hnx : ¬ (E.file_position_x ≠ 0) := by omega
  have hgt : E.file_position_y > 0 := hy
  have hs : moveCursorSwitch E ARROW_LEFT =
      { E with
        file_position_y := E.file_position_y - 1
        file_position_x := rowLen E (E.file_position_y - 1) } := by
    unfold moveCursorSwitch rowLen
    simp only [if_true, if_neg hnx, if_pos hgt]
    have hr : rowAt { E with file_position_y := E.file_position_y - 1 }
        (E.file_position_y - 1) = rowAt E (E.file_position_y - 1) := rfl
    rw [hr]
    cases rowAt E (E.file_position_y - 1) with
    | none =>
      simp only
      rw [hx]
    | some r => rfl
  rw [editorMoveCursor_eq, hs]
  simp only
  rw [min_eq_left (le_refl _)]

/-- C40: on a state within the cursor bounds, with the cursor on an existing row,
`ARROW_RIGHT` followed by `ARROW_LEFT` gives the state back, and so the cursor `(row, col)`;
with the cursor anywhere but at `(0, 0)`, `ARROW_LEFT` followed by `ARROW_RIGHT` gives the
state back. -/
theorem C40_left_and_right_are_inverse (E : editorConfig) (hb : cursorInBounds E) :
    (E.file_position_y < E.number_of_rows →
      editorMoveCursor (editorMoveCursor E ARROW_RIGHT) ARROW_LEFT = E) ∧
    (¬ (E.file_position_x = 0 ∧ E.file_position_y = 0) →
      editorMoveCursor (editorMoveCursor E ARROW_LEFT) ARROW_RIGHT = E) := by
  obtain ⟨hy0, hyn, hx0, hxl⟩ := id hb
  constructor
  · intro hlt
    rcases cursorInBounds_cases E hb with ⟨row, hrow, h0, h1⟩ | ⟨-, hy, -⟩
    · have hlen := (rowLen_of_rowAt E _).1 row hrow
      by_cases hx : E.file_position_x < row.size
      · have h2 := editorMoveCursor_left_in_row
          ({ E with file_position_x := E.file_position_x + 1 } : editorConfig)
          (show 0 < E.file_position_x + 1 by omega)
          (show E.file_position_x + 1 ≤ rowLen E E.file_position_y by omega)
        rw [editorMoveCursor_right_in_row E row hrow hx, h2]
        simp only [add_sub_cancel_right]
      · have hxe : E.file_position_x = row.size := by omega
        have h2 := editorMoveCursor_left_at_start
          ({ E with file_position_y := E.file_position_y + 1, file_position_x := 0 } :
            editorConfig) rfl (show 0 < E.file_position_y + 1 by omega)
        have h3 : rowLen
            ({ E with file_position_y := E.file_position_y + 1, file_position_x := 0 } :
              editorConfig) (E.file_position_y + 1 - 1) = E.file_position_x := by
          rw [add_sub_cancel_right, hxe]
          exact hlen
        rw [editorMoveCursor_right_at_end E row hrow hxe, h2]
        simp only
        rw [h3]
        simp only [add_sub_cancel_right]
    · omega
  · intro hne
    by_cases hx : 0 < E.file_position_x
    · rcases cursorInBounds_cases E hb with ⟨row, hrow, h0, h1⟩ | ⟨-, -, hx0⟩
      · have h2 := editorMoveCursor_right_in_row
          ({ E with file_position_x := E.file_position_x - 1 } : editorConfig) row hrow
          (show E.file_position_x - 1 < row.size by omega)
        rw [editorMoveCursor_left_in_row E hx hxl, h2]
        simp only [sub_add_cancel]
      · omega
    · have hx0 : E.file_position_x = 0 := by omega
      have hy : 0 < E.file_position_y := by omega
      cases hprev : rowAt E (E.file_position_y - 1) with
      | none =>
        have := (rowAt_isSome_iff E (E.file_position_y - 1)).mpr ⟨by omega, by omega⟩
        rw [hprev] at this
        cases this
      | some prev =>
        have h2 := editorMoveCursor_right_at_end
          ({ E with
            file_position_y := E.file_position_y - 1
            file_position_x := rowLen E (E.file_position_y - 1) } : editorConfig) prev hprev
          ((rowLen_of_rowAt E _).1 prev hprev)
        rw [editorMoveCursor_left_at_start E hx0 hy, h2]
        simp only [sub_add_cancel, ← hx0]

/-- The claim C40 on the two-row sample document with the cursor at `(0, 2)`. -/
theorem C40_witness :
    cursorInBounds sampleDoc ∧
      (sampleDoc.file_position_y < sampleDoc.number_of_rows →
        editorMoveCursor (editorMoveCursor sampleDoc ARROW_RIGHT) ARROW_LEFT = sampleDoc) ∧
      (¬ (sampleDoc.file_position_x = 0 ∧ sampleDoc.file_position_y = 0) →
        editorMoveCursor (editorMoveCursor sampleDoc ARROW_LEFT) ARROW_RIGHT = sampleDoc) :=
  ⟨by decide, C40_left_and_right_are_inverse sampleDoc (by decide)⟩
/-- C38: the Delete key with the cursor at the end of an existing row.  On the last row
(`file_position_y = n - 1`) no row, not the row count and not `dirty` changes, and the cursor
goes to the append position `(n, 0)`.  On an earlier row `y` the row `y + 1` is joined onto row
`y`, the rows after it move up by one, the row count drops by 1, and the cursor stays at
`(y, size of the old row y)`. -/
theorem C38_delete_at_end_of_row (env : Env) (W : World) (rest : List ReadResult) (row : erow)
    (hkey : editorReadKey env.charSigned W.input = KeyResult.key DEL_KEY rest)
    (hrow : rowAt W.E W.E.file_position_y = some row)
    (hx : W.E.file_position_x = row.size) :
    (W.E.file_position_y = W.E.number_of_rows - 1 →
      ∃ W1 : World, editorProcessKeypress env W = Outcome.running W1 ∧
        W1.E.row = W.E.row ∧ W1.E.number_of_rows = W.E.number_of_rows ∧
        W1.E.dirty = W.E.dirty ∧
        W1.E.file_position_y = W.E.number_of_rows ∧ W1.E.file_position_x = 0) ∧
    (∀ next : erow, rowAt W.E (W.E.file_position_y + 1) = some next →
      ∃ (W1 : World) (joined : erow), editorProcessKeypress env W = Outcome.running W1 ∧
        rowAt W1.E W.E.file_position_y = some joined ∧
        joined.characters = row.characters ++ next.characters ∧
        (∀ i : Int, i < W.E.file_position_y → rowAt W1.E i = rowAt W.E i) ∧
        (∀ i : Int, W.E.file_position_y < i → rowAt W1.E i = rowAt W.E (i + 1)) ∧
        W1.E.number_of_rows = W.E.number_of_rows - 1 ∧
        W1.E.file_position_y = W.E.file_position_y ∧
        W1.E.file_position_x = row.size) := by
  have hstep := editorProcessKeypress_edit env W DEL_KEY rest hkey (by decide) (by decide)
    (by decide)
  have hmove := editorMoveCursor_right_at_end W.E row hrow hx
  have hkeyE : processEditKey W.E DEL_KEY = editorDelChar (editorMoveCursor W.E ARROW_RIGHT) :=
    rfl
  generalize editorMoveCursor W.E ARROW_RIGHT = E1 at hmove hkeyE
  have f1 : E1.file_position_y = W.E.file_position_y + 1 := by rw [hmove]
  have f2 : E1.file_position_x = 0 := by rw [hmove]
  have f3 : E1.row = W.E.row := by rw [hmove]
  have f4 : E1.dirty = W.E.dirty := by rw [hmove]
  have f5 : ∀ i : Int, rowAt E1 i = rowAt W.E i := by
    intro i
    unfold rowAt
    rw [f3]
  have f6 : E1.number_of_rows = W.E.number_of_rows := by
    unfold editorConfig.number_of_rows
    rw [f3]
  constructor
  · intro hy
    have hdel : editorDelChar E1 = E1 := by
      unfold editorDelChar
      rw [if_pos (by omega)]
    rw [hdel] at hkeyE
    refine ⟨_, hstep, ?_, ?_, ?_, ?_, ?_⟩
    · simp only [hkeyE, f3]
    · simp only [hkeyE, f6]
    · simp only [hkeyE, f4]
    · simp only [hkeyE, f1]
      omega
    · simp only [hkeyE, f2]
  · intro next hnext
    obtain ⟨pre, post, hsplit, hy⟩ := rowAt_pair_split E1 (W.E.file_position_y + 1) row next
      (by rw [add_sub_cancel_right, f5]; exact hrow) (by rw [f5]; exact hnext)
    have hm := editorDelChar_merge E1 pre post row next hsplit (by omega) f2
    rw [hm] at hkeyE
    have hsplit0 : W.E.row = pre ++ row :: next :: post := by rw [← f3, hsplit]
    have hy1 : W.E.file_position_y = (pre.length : Int) := by omega
    have hrows : (processEditKey W.E DEL_KEY).row = pre ++
        editorUpdateRow { row with characters := row.characters ++ next.characters } ::
          post := by
      rw [hkeyE]
    refine ⟨_, editorUpdateRow { row with characters := row.characters ++ next.characters },
      hstep, ?_, ?_, ?_, ?_, ?_, ?_, ?_⟩
    · rw [hy1]
      exact rowAt_append_cons _ pre post _ hrows
    · rw [editorUpdateRow_eq]
    · intro i hi
      show rowAt (processEditKey W.E DEL_KEY) i = rowAt W.E i
      rw [rowAt_append_left _ pre _ i hrows (by omega),
        rowAt_append_left _ pre _ i hsplit0 (by omega)]
    · intro i hi
      show rowAt (processEditKey W.E DEL_KEY) i = rowAt W.E (i + 1)
      obtain ⟨j, hj⟩ : ∃ j : Nat, i = (pre.length : Int) + ((j + 1 : Nat) : Int) :=
        ⟨(i - (pre.length : Int) - 1).toNat, by omega⟩
      have h1 := rowAt_append_right _ pre _ (j + 1) hrows
      have h2 := rowAt_append_right _ pre _ (j + 2) hsplit0
      rw [hj, h1, show (pre.length : Int) + ((j + 1 : Nat) : Int) + 1 =
        (pre.length : Int) + ((j + 2 : Nat) : Int) by push_cast; omega, h2]
      simp
    · show (processEditKey W.E DEL_KEY).number_of_rows = W.E.number_of_rows - 1
      unfold editorConfig.number_of_rows
      rw [hrows, hsplit0]
      simp only [List.length_append, List.length_cons]
      push_cast
      omega
    · show (processEditKey W.E DEL_KEY).file_position_y = W.E.file_position_y
      rw [hkeyE]
      simp only
      omega
    · show (processEditKey W.E DEL_KEY).file_position_x = row.size
      rw [hkeyE]

/-- The claim C38 on the two-row sample document with the cursor at the end of row 0: row 1
is joined onto row 0, which becomes `a TAB b c`. -/
theorem C38_witness :
    editorReadKey sampleEnv.charSigned sampleDeleteWorld.input = KeyResult.key DEL_KEY [] ∧
      ∃ (W1 : World) (joined : erow),
        editorProcessKeypress sampleEnv sampleDeleteWorld = Outcome.running W1 ∧
        rowAt W1.E sampleDeleteWorld.E.file_position_y = some joined ∧
        joined.characters = sampleRow.characters ++ [99] ∧
        (∀ i : Int, i < sampleDeleteWorld.E.file_position_y →
          rowAt W1.E i = rowAt sampleDeleteWorld.E i) ∧
        (∀ i : Int, sampleDeleteWorld.E.file_position_y < i →
          rowAt W1.E i = rowAt sampleDeleteWorld.E (i + 1)) ∧
        W1.E.number_of_rows = sampleDeleteWorld.E.number_of_rows - 1 ∧
        W1.E.file_position_y = sampleDeleteWorld.E.file_position_y ∧
        W1.E.file_position_x = sampleRow.size :=
  ⟨by decide,
    (C38_delete_at_end_of_row sampleEnv sampleDeleteWorld [] sampleRow (by decide) (by decide)
      (by decide)).2 { characters := [99], rendered_size := 1, rendered_characters := [99] }
      (by decide)⟩
/-! ## The page keys -/

/-- The loop of a page key is `editorMoveCursor` done `times` times. -/
theorem moveCursorTimes_eq_iterate (key : Int) (times : Nat) : ∀ E : editorConfig,
    moveCursorTimes key times E = (fun E1 => editorMoveCursor E1 key)^[times] E := by
  induction times with
  | zero => exact fun E => rfl
  | succ n ih =>
    intro E
    rw [Function.iterate_succ_apply]
    exact ih _

/-- The loop of a page key changes nothing but the cursor. -/
theorem moveCursorTimes_frame (key : Int) (times : Nat) : ∀ E : editorConfig,
    (moveCursorTimes key times E).row = E.row ∧ (moveCursorTimes key times E).dirty = E.dirty := by
  induction times with
  | zero => exact fun E => ⟨rfl, rfl⟩
  | succ n ih =>
    intro E
    obtain ⟨a, b⟩ := ih (editorMoveCursor E key)
    simp only [moveCursorTimes]
    rw [a, b, editorMoveCursor_frame]
    exact ⟨rfl, rfl⟩

/-- The row after one `ARROW_UP` or `ARROW_DOWN`. -/
theorem editorMoveCursor_vertical (E : editorConfig) :
    (editorMoveCursor E ARROW_UP).file_position_y =
        (if E.file_position_y ≠ 0 then E.file_position_y - 1 else E.file_position_y) ∧
      (editorMoveCursor E ARROW_DOWN).file_position_y =
        (if E.file_position_y < E.number_of_rows then E.file_position_y + 1
          else E.file_position_y) := by
  have kUL : ¬ (ARROW_UP = ARROW_LEFT) := by decide
  have kUR : ¬ (ARROW_UP = ARROW_RIGHT) := by decide
  have kDL : ¬ (ARROW_DOWN = ARROW_LEFT) := by decide
  have kDR : ¬ (ARROW_DOWN = ARROW_RIGHT) := by decide
  have kDU : ¬ (ARROW_DOWN = ARROW_UP) := by decide
  constructor
  · rw [editorMoveCursor_eq]
    simp only
    unfold moveCursorSwitch
    simp only [if_neg kUL, if_neg kUR, if_true]
    split_ifs <;> rfl
  · rw [editorMoveCursor_eq]
    simp only
    unfold moveCursorSwitch
    simp only [if_neg kDL, if_neg kDR, if_neg kDU, if_true]
    split_ifs <;> rfl

/-- The row after `times` turns of the loop of Page-Up, and of Page-Down. -/
theorem moveCursorTimes_vertical (times : Nat) : ∀ E : editorConfig,
    (0 ≤ E.file_position_y →
      (moveCursorTimes ARROW_UP times E).file_position_y =
        max 0 (E.file_position_y - (times : Int))) ∧
    (E.file_position_y ≤ E.number_of_rows →
      (moveCursorTimes ARROW_DOWN times E).file_position_y =
        min E.number_of_rows (E.file_position_y + (times : Int))) := by
  induction times with
  | zero =>
    intro E
    constructor
    · intro h
      simp only [moveCursorTimes, Nat.cast_zero, sub_zero]
      rw [max_eq_right h]
    · intro h
      simp only [moveCursorTimes, Nat.cast_zero, add_zero]
      rw [min_eq_right h]
  | succ n ih =>
    intro E
    obtain ⟨hu, hd⟩ := editorMoveCursor_vertical E
    constructor
    · intro h
      have h1 := (ih (editorMoveCursor E ARROW_UP)).1 (by rw [hu]; split_ifs <;> omega)
      simp only [moveCursorTimes]
      rw [h1, hu]
      push_cast
      split_ifs <;> omega
    · intro h
      have hn : (editorMoveCursor E ARROW_DOWN).number_of_rows = E.number_of_rows := by
        unfold editorConfig.number_of_rows
        rw [editorMoveCursor_frame]
      have h1 := (ih (editorMoveCursor E ARROW_DOWN)).2
        (by rw [hd, hn]; split_ifs <;> omega)
      simp only [moveCursorTimes]
      rw [h1, hd, hn]
      push_cast
      split_ifs <;> omega
/-- C34: for `screen_rows >= 1`, `0 <= row_offset <= n` and the cursor within its bounds,
Page-Up puts the cursor on row `row_offset` and calls `editorMoveCursor(ARROW_UP)` exactly
`screen_rows` times, which leaves the cursor on row `max(0, row_offset - screen_rows)`; Page-Down
puts it on row `min(n, row_offset + screen_rows - 1)` and calls
`editorMoveCursor(ARROW_DOWN)` exactly `screen_rows` times, which leaves it on row
`min(n, row_offset + 2 * screen_rows - 1)`.  In both cases the rows and `dirty` stay as they
are, and the cursor ends within its bounds, so at a column that is at most the size of its
row. -/
theorem C34_page_up_and_page_down (env : Env) (W : World) (c : Int) (rest : List ReadResult)
    (hkey : editorReadKey env.charSigned W.input = KeyResult.key c rest)
    (hsr : 1 ≤ W.E.screen_rows) (hro0 : 0 ≤ W.E.row_offset)
    (hron : W.E.row_offset ≤ W.E.number_of_rows) (hb : cursorInBounds W.E) :
    (c = PAGE_UP →
      ∃ W1 : World, editorProcessKeypress env W = Outcome.running W1 ∧
        W1.E = (fun E1 => editorMoveCursor E1 ARROW_UP)^[W.E.screen_rows.toNat]
          { W.E with file_position_y := W.E.row_offset } ∧
        W1.E.file_position_y = max 0 (W.E.row_offset - W.E.screen_rows) ∧
        W1.E.row = W.E.row ∧ W1.E.dirty = W.E.dirty ∧ cursorInBounds W1.E ∧
        W1.E.file_position_x ≤ rowLen W1.E W1.E.file_position_y) ∧
    (c = PAGE_DOWN →
      ∃ W1 : World, editorProcessKeypress env W = Outcome.running W1 ∧
        W1.E = (fun E1 => editorMoveCursor E1 ARROW_DOWN)^[W.E.screen_rows.toNat]
          { W.E with
            file_position_y := min W.E.number_of_rows (W.E.row_offset + W.E.screen_rows - 1) } ∧
        W1.E.file_position_y =
          min W.E.number_of_rows (W.E.row_offset + 2 * W.E.screen_rows - 1) ∧
        W1.E.row = W.E.row ∧ W1.E.dirty = W.E.dirty ∧ cursorInBounds W1.E ∧
        W1.E.file_position_x ≤ rowLen W1.E W1.E.file_position_y) := by
  obtain ⟨-, -, hx0, -⟩ := id hb
  have ht : 1 ≤ W.E.screen_rows.toNat := by omega
  have hcast : ((W.E.screen_rows.toNat : Nat) : Int) = W.E.screen_rows := by omega
  constructor
  · intro hc
    subst hc
    have hstep := editorProcessKeypress_edit env W PAGE_UP rest hkey (by decide) (by decide)
      (by decide)
    have hE : processEditKey W.E PAGE_UP =
        moveCursorTimes ARROW_UP W.E.screen_rows.toNat
          { W.E with file_position_y := W.E.row_offset } := rfl
    have hy := (moveCursorTimes_vertical W.E.screen_rows.toNat
      ({ W.E with file_position_y := W.E.row_offset } : editorConfig)).1 hro0
    have hf := moveCursorTimes_frame ARROW_UP W.E.screen_rows.toNat
      ({ W.E with file_position_y := W.E.row_offset } : editorConfig)
    have hin := (moveCursorTimes_in_bounds ARROW_UP W.E.screen_rows.toNat
      ({ W.E with file_position_y := W.E.row_offset } : editorConfig) hro0 hron hx0).1 ht
    rw [← hE] at hy hf hin
    refine ⟨_, hstep, ?_, ?_, hf.1, hf.2, hin, hin.2.2.2⟩
    · show processEditKey W.E PAGE_UP = _
      rw [hE, moveCursorTimes_eq_iterate]
    · show (processEditKey W.E PAGE_UP).file_position_y = _
      rw [hy, hcast]
  · intro hc
    subst hc
    have hstep := editorProcessKeypress_edit env W PAGE_DOWN rest hkey (by decide) (by decide)
      (by decide)
    have hE : processEditKey W.E PAGE_DOWN =
        moveCursorTimes ARROW_DOWN W.E.screen_rows.toNat
          { W.E with
            file_position_y :=
              min W.E.number_of_rows (W.E.row_offset + W.E.screen_rows - 1) } := by
      have h : processEditKey W.E PAGE_DOWN =
          moveCursorTimes ARROW_DOWN
            (if W.E.row_offset + W.E.screen_rows - 1 > W.E.number_of_rows then
              ({ W.E with file_position_y := W.E.number_of_rows } : editorConfig)
            else { W.E with file_position_y := W.E.row_offset + W.E.screen_rows - 1 }
              ).screen_rows.toNat
            (if W.E.row_offset + W.E.screen_rows - 1 > W.E.number_of_rows then
              { W.E with file_position_y := W.E.number_of_rows }
            else { W.E with file_position_y := W.E.row_offset + W.E.screen_rows - 1 }) := rfl
      rw [h]
      split_ifs with h9
      · rw [min_eq_left (by omega)]
      · rw [min_eq_right (by omega)]
    have hy := (moveCursorTimes_vertical W.E.screen_rows.toNat
      ({ W.E with
        file_position_y :=
          min W.E.number_of_rows (W.E.row_offset + W.E.screen_rows - 1) } : editorConfig)).2
      (min_le_left _ _)
    have hf := moveCursorTimes_frame ARROW_DOWN W.E.screen_rows.toNat
      ({ W.E with
        file_position_y :=
          min W.E.number_of_rows (W.E.row_offset + W.E.screen_rows - 1) } : editorConfig)
    have hin := (moveCursorTimes_in_bounds ARROW_DOWN W.E.screen_rows.toNat
      ({ W.E with
        file_position_y :=
          min W.E.number_of_rows (W.E.row_offset + W.E.screen_rows - 1) } : editorConfig)
      (show 0 ≤ min W.E.number_of_rows (W.E.row_offset + W.E.screen_rows - 1) by omega)
      (min_le_left _ _) hx0).1 ht
    rw [← hE] at hy hf hin
    refine ⟨_, hstep, ?_, ?_, hf.1, hf.2, hin, hin.2.2.2⟩
    · show processEditKey W.E PAGE_DOWN = _
      rw [hE, moveCursorTimes_eq_iterate]
    · show (processEditKey W.E PAGE_DOWN).file_position_y = _
      rw [hy, hcast]
      show min W.E.number_of_rows
        (min W.E.number_of_rows (W.E.row_offset + W.E.screen_rows - 1) + W.E.screen_rows) = _
      omega

/-- The claim C34 on the two-row sample document, 22 screen rows, with the key Page-Down: the
cursor ends on the append row 2. -/
theorem C34_witness :
    (editorReadKey sampleEnv.charSigned samplePageWorld.input = KeyResult.key PAGE_DOWN [] ∧
        1 ≤ samplePageWorld.E.screen_rows ∧ cursorInBounds samplePageWorld.E) ∧
      ∃ W1 : World, editorProcessKeypress sampleEnv samplePageWorld = Outcome.running W1 ∧
        W1.E = (fun E1 => editorMoveCursor E1 ARROW_DOWN)^[samplePageWorld.E.screen_rows.toNat]
          { samplePageWorld.E with
            file_position_y := min samplePageWorld.E.number_of_rows
              (samplePageWorld.E.row_offset + samplePageWorld.E.screen_rows - 1) } ∧
        W1.E.file_position_y = min samplePageWorld.E.number_of_rows
          (samplePageWorld.E.row_offset + 2 * samplePageWorld.E.screen_rows - 1) ∧
        W1.E.row = samplePageWorld.E.row ∧ W1.E.dirty = samplePageWorld.E.dirty ∧
        cursorInBounds W1.E ∧ W1.E.file_position_x ≤ rowLen W1.E W1.E.file_position_y :=
  ⟨by decide,
    (C34_page_up_and_page_down sampleEnv samplePageWorld PAGE_DOWN [] (by decide) (by decide)
      (by decide) (by decide) (by decide)).2 rfl⟩
/-! ## Start-up -/

/-- C35 (amended): for a window reported as `rows` by `cols`, `initEditor` sets `screen_rows`
to `rows - 2` (two rows are kept for the status bar and the message bar) and `screen_columns`
to `cols`, unchanged; the cursor, the two offsets, the row store, `dirty`, the file name and the
status message start at 0 or empty. -/
theorem C35_initEditor_reserves_two_rows (rows cols : Int) :
    (initEditor rows cols).screen_rows = rows - 2 ∧
      (initEditor rows cols).screen_columns = cols ∧
      (initEditor rows cols).file_position_x = 0 ∧
      (initEditor rows cols).file_position_y = 0 ∧
      (initEditor rows cols).screen_position_x = 0 ∧
      (initEditor rows cols).row_offset = 0 ∧
      (initEditor rows cols).column_offset = 0 ∧
      (initEditor rows cols).number_of_rows = 0 ∧
      (initEditor rows cols).row = [] ∧
      (initEditor rows cols).dirty = 0 ∧
      (initEditor rows cols).filename = none ∧
      (initEditor rows cols).status_message = [] ∧
      (initEditor rows cols).status_message_time = 0 :=
  ⟨rfl, rfl, rfl, rfl, rfl, rfl, rfl, rfl, rfl, rfl, rfl, rfl, rfl⟩

/-- The claim C35 as it was made fails on a 24 x 80 window: `screen_columns` is 80, not 78. -/
theorem C35_counterexample_columns_not_reduced :
    (initEditor 24 80).screen_rows = 24 - 2 ∧ (initEditor 24 80).screen_columns = 80 ∧
      (initEditor 24 80).screen_columns ≠ 80 - 2 := by
  decide

/-! ## Saving, then loading -/

/-- C36: for a document in which no row contains a newline byte and no row ends with a
carriage return, loading the bytes that `editorRowsToString` returns, with the line splitting
of `editorOpen`, into an editor without rows gives the row contents of the document: the same
number of rows, the same bytes, in the same order. -/
theorem C36_save_then_load_restores (E0 E : editorConfig) (filename : List Nat)
    (hempty : E0.row = [])
    (hrows : ∀ r ∈ E.row, NEWLINE ∉ r.characters ∧ r.characters.getLast? ≠ some CR) :
    (editorOpen E0 filename (editorRowsToString E).1).row.map erow.characters =
        E.row.map erow.characters ∧
      (editorOpen E0 filename (editorRowsToString E).1).number_of_rows = E.number_of_rows := by
  have hmap : (editorOpen E0 filename (editorRowsToString E).1).row.map erow.characters =
      E.row.map erow.characters := by
    rw [editorOpen_eq, editorRowsToString_text, fileLines_rows_text _ (by
      intro r hr
      obtain ⟨x, hx, hxr⟩ := List.mem_map.1 hr
      rw [← hxr]
      exact (hrows x hx).1)]
    simp only [hempty, List.nil_append, List.map_map]
    apply List.map_congr_left
    intro r hr
    simp only [Function.comp_apply, lineRow, editorUpdateRow_eq]
    exact stripLineEnd_saved_row r.characters (hrows r hr)
  refine ⟨hmap, ?_⟩
  have hlen := congrArg List.length hmap
  simp only [List.length_map] at hlen
  unfold editorConfig.number_of_rows
  rw [hlen]

/-- The claim C36 on the two-row sample document. -/
theorem C36_witness :
    (∀ r ∈ sampleDoc.row, NEWLINE ∉ r.characters ∧ r.characters.getLast? ≠ some CR) ∧
      (editorOpen sampleEmpty [102] (editorRowsToString sampleDoc).1).row.map erow.characters =
        sampleDoc.row.map erow.characters ∧
      (editorOpen sampleEmpty [102] (editorRowsToString sampleDoc).1).number_of_rows =
        sampleDoc.number_of_rows :=
  ⟨by decide, C36_save_then_load_restores sampleEmpty sampleDoc [102] rfl (by decide)⟩

/-! ## The buffer of the prompt -/

/-- One key keeps the prompt buffer inside its capacity: the capacity is 128 times a power of
2, it doubles exactly when the buffer holds `bufsize - 1` bytes before an append, and the buffer
stays at most `bufsize - 1` bytes long. -/
theorem promptKey_capacity (buf : List Nat) (bufsize : Nat) (c : Int) (buf1 : List Nat)
    (bufsize1 : Nat) (hlen : buf.length ≤ bufsize - 1)
    (hcap : ∃ k : Nat, bufsize = INPUT_BUFSIZE * 2 ^ k)
    (h : promptKey buf bufsize c = PromptAction.more buf1 bufsize1) :
    buf1.length ≤ bufsize1 - 1 ∧ (∃ k : Nat, bufsize1 = INPUT_BUFSIZE * 2 ^ k) ∧
      (bufsize1 = bufsize ∨ (bufsize1 = bufsize * 2 ∧ buf.length = bufsize - 1 ∧
        buf1.length = buf.length + 1)) ∧
      (buf1.length = buf.length + 1 → buf.length = bufsize - 1 → bufsize1 = bufsize * 2) := by
  obtain ⟨k, hk⟩ := hcap
  have hpos : 128 ≤ bufsize := by
    rw [hk]
    unfold INPUT_BUFSIZE
    have : 1 ≤ 2 ^ k := Nat.one_le_two_pow
    omega
  unfold promptKey at h
  split_ifs at h with h1 h2 h3 h4 h5 h6 h7
  all_goals injection h with ha hb
  all_goals subst ha hb
  · refine ⟨?_, ⟨k, hk⟩, Or.inl rfl, ?_⟩
    · rw [List.length_dropLast]
      omega
    · intro hgrow
      rw [List.length_dropLast] at hgrow
      omega
  · exact ⟨hlen, ⟨k, hk⟩, Or.inl rfl, fun hgrow => by omega⟩
  · exact ⟨hlen, ⟨k, hk⟩, Or.inl rfl, fun hgrow => by omega⟩
  · refine ⟨?_, ⟨k + 1, ?_⟩, Or.inr ⟨rfl, h7, ?_⟩, fun _ _ => rfl⟩
    · simp only [List.length_append, List.length_singleton]
      omega
    · rw [hk, pow_succ]
      ring
    · simp
  · refine ⟨?_, ⟨k, hk⟩, Or.inl rfl, fun _ hfull => absurd hfull h7⟩
    simp only [List.length_append, List.length_singleton]
    omega
  · exact ⟨hlen, ⟨k, hk⟩, Or.inl rfl, fun hgrow => by omega⟩

/-- C39: at every point of `editorPrompt`, whatever keys it has handled since it started with
the empty buffer and `bufsize = 128`: `buflen <= bufsize - 1`, so that the byte at index
`buflen` (the terminating NUL) is inside the buffer, and `bufsize` is 128 times a power
of 2.  One more key keeps this: the capacity either stays or doubles, it doubles exactly when
an append finds `buflen = bufsize - 1`, and the appended byte and the NUL after it are stored
inside the new capacity. -/
theorem C39_prompt_buffer_in_capacity :
    (∀ keys : List Int,
      (promptBuffer keys ([], INPUT_BUFSIZE)).1.length ≤
          (promptBuffer keys ([], INPUT_BUFSIZE)).2 - 1 ∧
        (promptBuffer keys ([], INPUT_BUFSIZE)).1.length <
          (promptBuffer keys ([], INPUT_BUFSIZE)).2 ∧
        ∃ k : Nat, (promptBuffer keys ([], INPUT_BUFSIZE)).2 = INPUT_BUFSIZE * 2 ^ k) ∧
    (∀ (buf : List Nat) (bufsize : Nat) (c : Int) (buf1 : List Nat) (bufsize1 : Nat),
      buf.length ≤ bufsize - 1 → (∃ k : Nat, bufsize = INPUT_BUFSIZE * 2 ^ k) →
      promptKey buf bufsize c = PromptAction.more buf1 bufsize1 →
      buf1.length ≤ bufsize1 - 1 ∧ buf1.length < bufsize1 ∧
        (∃ k : Nat, bufsize1 = INPUT_BUFSIZE * 2 ^ k) ∧
        (bufsize1 = bufsize ∨ (bufsize1 = bufsize * 2 ∧ buf.length = bufsize - 1 ∧
          buf1.length = buf.length + 1)) ∧
        (buf1.length = buf.length + 1 → buf.length = bufsize - 1 →
          bufsize1 = bufsize * 2)) := by
  have hlt : ∀ (n s : Nat), n ≤ s - 1 → (∃ k : Nat, s = INPUT_BUFSIZE * 2 ^ k) → n < s := by
    intro n s hn hs
    obtain ⟨k, hk⟩ := hs
    have : 1 ≤ 2 ^ k := Nat.one_le_two_pow
    have h128 : 128 ≤ s := by
      rw [hk]
      unfold INPUT_BUFSIZE
      omega
    omega
  have hfold : ∀ (keys : List Int) (st : List Nat × Nat), st.1.length ≤ st.2 - 1 →
      (∃ k : Nat, st.2 = INPUT_BUFSIZE * 2 ^ k) →
      (promptBuffer keys st).1.length ≤ (promptBuffer keys st).2 - 1 ∧
        ∃ k : Nat, (promptBuffer keys st).2 = INPUT_BUFSIZE * 2 ^ k := by
    intro keys
    induction keys with
    | nil =>
      intro st h1 h2
      exact ⟨h1, h2⟩
    | cons c cs ih =>
      intro st h1 h2
      obtain ⟨buf, bufsize⟩ := st
      simp only [promptBuffer]
      cases hk : promptKey buf bufsize c with
      | more buf1 bufsize1 =>
        obtain ⟨a, b, -, -⟩ := promptKey_capacity buf bufsize c buf1 bufsize1 h1 h2 hk
        exact ih (buf1, bufsize1) a b
      | cancel => exact ⟨h1, h2⟩
      | confirm buf1 => exact ⟨h1, h2⟩
  constructor
  · intro keys
    obtain ⟨a, b⟩ := hfold keys ([], INPUT_BUFSIZE) (by decide) ⟨0, by decide⟩
    exact ⟨a, hlt _ _ a b, b⟩
  · intro buf bufsize c buf1 bufsize1 h1 h2 hk
    obtain ⟨a, b, c1, d⟩ := promptKey_capacity buf bufsize c buf1 bufsize1 h1 h2 hk
    exact ⟨a, hlt _ _ a b, b, c1, d⟩

/-- The key `a` on a buffer of 127 bytes `a` in the first capacity of 128: the capacity doubles
to 256 and the buffer holds 128 bytes. -/
theorem promptKey_doubles :
    promptKey (List.replicate 127 97) INPUT_BUFSIZE 97 =
      PromptAction.more (List.replicate 128 97) (INPUT_BUFSIZE * 2) := by
  have e1 : ¬ ((97 : Int) = DEL_KEY ∨ (97 : Int) = CTRL_KEY 104 ∨ (97 : Int) = BACKSPACE) := by
    decide
  have e2 : ¬ ((97 : Int) = ESC) := by decide
  have e3 : ¬ ((97 : Int) = ENTER) := by decide
  have e4 : ¬ iscntrl 97 ∧ (97 : Int) < 128 := by decide
  have e5 : (List.replicate 127 97).length = INPUT_BUFSIZE - 1 := List.length_replicate _ _
  have e6 : (((97 : Int) % 256).toNat) = 97 := by decide
  unfold promptKey
  rw [if_neg e1, if_neg e2, if_neg e3, if_pos e4, if_pos e5, e6]
  exact congrArg (fun l => PromptAction.more l (INPUT_BUFSIZE * 2))
    (List.replicate_succ' 127 97).symm

/-- The claim C39 for the key `a` on a buffer of 127 bytes in the first capacity of 128. -/
theorem C39_witness :
    promptKey (List.replicate 127 97) INPUT_BUFSIZE 97 =
        PromptAction.more (List.replicate 128 97) (INPUT_BUFSIZE * 2) ∧
      (List.replicate 128 97).length ≤ INPUT_BUFSIZE * 2 - 1 ∧
      (List.replicate 128 97).length < INPUT_BUFSIZE * 2 ∧
      (∃ k : Nat, INPUT_BUFSIZE * 2 = INPUT_BUFSIZE * 2 ^ k) ∧
      (INPUT_BUFSIZE * 2 = INPUT_BUFSIZE ∨ (INPUT_BUFSIZE * 2 = INPUT_BUFSIZE * 2 ∧
        (List.replicate 127 97).length = INPUT_BUFSIZE - 1 ∧
        (List.replicate 128 97).length = (List.replicate 127 97).length + 1)) ∧
      ((List.replicate 128 97).length = (List.replicate 127 97).length + 1 →
        (List.replicate 127 97).length = INPUT_BUFSIZE - 1 →
        INPUT_BUFSIZE * 2 = INPUT_BUFSIZE * 2) :=
  ⟨promptKey_doubles,
    C39_prompt_buffer_in_capacity.2 (List.replicate 127 97) INPUT_BUFSIZE 97
      (List.replicate 128 97) (INPUT_BUFSIZE * 2)
      (le_of_eq (List.length_replicate _ _)) ⟨0, rfl⟩ promptKey_doubles⟩
/-! ## What the editing keys leave alone -/

/-- The five row store operations leave alone whatever does not depend on the rows and
`dirty`. -/
theorem row_store_field {α : Type} (f : editorConfig → α)
    (hdoc : ∀ (E : editorConfig) (rows : List erow) (d : Int),
      f { E with row := rows, dirty := d } = f E)
    (E : editorConfig) :
    (∀ (idx : Int) (s : List Nat), f (editorInsertRow E idx s) = f E) ∧
    (∀ idx : Int, f (editorDelRow E idx) = f E) ∧
    (∀ ri idx c : Int, f (editorRowInsertChar E ri idx c) = f E) ∧
    (∀ (ri : Int) (s : List Nat), f (editorRowAppendString E ri s) = f E) ∧
    (∀ ri idx : Int, f (editorRowDelChar E ri idx) = f E) := by
  refine ⟨?_, ?_, ?_, ?_, ?_⟩
  · intro idx s
    unfold editorInsertRow
    split_ifs
    · rfl
    · exact hdoc E _ _
  · intro idx
    unfold editorDelRow
    split_ifs
    · rfl
    · exact hdoc E _ _
  · intro ri idx c
    unfold editorRowInsertChar
    split
    · rfl
    · exact hdoc E _ _
  · intro ri s
    unfold editorRowAppendString
    split
    · rfl
    · exact hdoc E _ _
  · intro ri idx
    unfold editorRowDelChar
    split
    · rfl
    · split_ifs
      · rfl
      · exact hdoc E _ _

/-- Every key handled by the `switch` outside the quit and save commands leaves alone whatever
does not depend on the cursor, the rows and `dirty`. -/
theorem processEditKey_field {α : Type} (f : editorConfig → α)
    (hf : ∀ (E : editorConfig) (x y : Int) (rows : List erow) (d : Int),
      f { E with file_position_x := x, file_position_y := y, row := rows, dirty := d } = f E)
    (E : editorConfig) (c : Int) : f (processEditKey E c) = f E := by
  have hdoc : ∀ (E1 : editorConfig) (rows : List erow) (d : Int),
      f { E1 with row := rows, dirty := d } = f E1 :=
    fun E1 rows d => hf E1 E1.file_position_x E1.file_position_y rows d
  have hcur : ∀ (E1 : editorConfig) (x y : Int),
      f { E1 with file_position_x := x, file_position_y := y } = f E1 :=
    fun E1 x y => hf E1 x y E1.row E1.dirty
  have hmove : ∀ (E1 : editorConfig) (key : Int), f (editorMoveCursor E1 key) = f E1 := by
    intro E1 key
    rw [editorMoveCursor_frame]
    exact hcur E1 _ _
  have htimes : ∀ (key : Int) (times : Nat) (E1 : editorConfig),
      f (moveCursorTimes key times E1) = f E1 := by
    intro key times
    induction times with
    | zero => exact fun E1 => rfl
    | succ n ih =>
      intro E1
      simp only [moveCursorTimes]
      rw [ih, hmove]
  have hdel : ∀ E1 : editorConfig, f (editorDelChar E1) = f E1 := by
    intro E1
    unfold editorDelChar
    by_cases h1 : E1.file_position_y = E1.number_of_rows
    · rw [if_pos h1]
    rw [if_neg h1]
    by_cases h2 : E1.file_position_x = 0 ∧ E1.file_position_y = 0
    · rw [if_pos h2]
    rw [if_neg h2]
    cases rowAt E1 E1.file_position_y with
    | none => rfl
    | some row =>
      simp only
      by_cases h3 : E1.file_position_x > 0
      · rw [if_pos h3]
        exact (hcur _ _ _).trans ((row_store_field f hdoc E1).2.2.2.2 _ _)
      rw [if_neg h3]
      cases rowAt E1 (E1.file_position_y - 1) with
      | none => rfl
      | some prev =>
        simp only
        refine (hcur _ _ _).trans ?_
        refine ((row_store_field f hdoc _).2.1 _).trans ?_
        refine ((row_store_field f hdoc _).2.2.2.1 _ _).trans ?_
        exact hcur E1 _ _
  unfold processEditKey
  by_cases k1 : c = ENTER
  · rw [if_pos k1]
    unfold editorInsertNewline
    refine (hcur _ _ _).trans ?_
    split_ifs
    · exact (row_store_field f hdoc E).1 _ _
    · cases rowAt E E.file_position_y with
      | none => rfl
      | some row =>
        simp only
        have h1 := (row_store_field f hdoc E).1 (E.file_position_y + 1)
          (row.characters.drop E.file_position_x.toNat)
        generalize editorInsertRow E (E.file_position_y + 1)
          (row.characters.drop E.file_position_x.toNat) = E1 at h1
        split
        · exact h1
        · exact (hf E1 E1.file_position_x E1.file_position_y _ E1.dirty).trans h1
  rw [if_neg k1]
  by_cases k2 : c = HOME_KEY
  · rw [if_pos k2]
    exact hcur E _ _
  rw [if_neg k2]
  by_cases k3 : c = END_KEY
  · rw [if_pos k3]
    split_ifs
    · cases rowAt E E.file_position_y with
      | none => rfl
      | some row => exact hcur E _ _
    · rfl
  rw [if_neg k3]
  by_cases k4 : c = BACKSPACE ∨ c = CTRL_KEY 104 ∨ c = DEL_KEY
  · rw [if_pos k4]
    split_ifs
    · rw [hdel, hmove]
    · exact hdel E
  rw [if_neg k4]
  by_cases k5 : c = PAGE_UP ∨ c = PAGE_DOWN
  · rw [if_pos k5]
    simp only
    rw [htimes]
    split_ifs
    · exact hcur E _ _
    · exact hcur E _ _
    · exact hcur E _ _
  rw [if_neg k5]
  by_cases k6 : c = ARROW_UP ∨ c = ARROW_DOWN ∨ c = ARROW_LEFT ∨ c = ARROW_RIGHT
  · rw [if_pos k6]
    exact hmove E c
  rw [if_neg k6]
  by_cases k7 : c = CTRL_KEY 108 ∨ c = ESC
  · rw [if_pos k7]
  rw [if_neg k7]
  unfold editorInsertChar
  refine (hcur _ _ _).trans ?_
  refine ((row_store_field f hdoc _).2.2.1 _ _ _).trans ?_
  split_ifs
  · exact (row_store_field f hdoc E).1 _ _
  · rfl

/-! ## The cursor row and the offsets are never negative -/

/-- The `switch` of `editorMoveCursor`, and so `editorMoveCursor`, keeps the cursor row at 0
or more. -/
theorem editorMoveCursor_row_nonneg (E : editorConfig) (key : Int)
    (hy : 0 ≤ E.file_position_y) : 0 ≤ (editorMoveCursor E key).file_position_y := by
  rw [editorMoveCursor_eq]
  simp only
  unfold moveCursorSwitch
  by_cases k1 : key = ARROW_LEFT
  · rw [if_pos k1]
    by_cases a : E.file_position_x ≠ 0
    · rw [if_pos a]
      exact hy
    rw [if_neg a]
    by_cases b : E.file_position_y > 0
    · rw [if_pos b]
      simp only
      cases rowAt { E with file_position_y := E.file_position_y - 1 }
          (E.file_position_y - 1) with
      | none =>
        simp only
        omega
      | some row =>
        simp only
        omega
    rw [if_neg b]
    exact hy
  rw [if_neg k1]
  by_cases k2 : key = ARROW_RIGHT
  · rw [if_pos k2]
    cases cursorRow E with
    | none => exact hy
    | some row =>
      simp only
      split_ifs
      · exact hy
      · simp only
        omega
      · exact hy
  rw [if_neg k2]
  by_cases k3 : key = ARROW_UP
  · rw [if_pos k3]
    split_ifs
    · simp only
      omega
    · exact hy
  rw [if_neg k3]
  by_cases k4 : key = ARROW_DOWN
  · rw [if_pos k4]
    split_ifs
    · simp only
      omega
    · exact hy
  rw [if_neg k4]
  exact hy

/-- The loop of a page key keeps the cursor row at 0 or more. -/
theorem moveCursorTimes_row_nonneg (key : Int) (times : Nat) : ∀ E : editorConfig,
    0 ≤ E.file_position_y → 0 ≤ (moveCursorTimes key times E).file_position_y := by
  induction times with
  | zero => exact fun E h => h
  | succ n ih =>
    intro E h
    exact ih _ (editorMoveCursor_row_nonneg E key h)

/-- The five row store operations keep the cursor row. -/
theorem row_store_cursor_row (E : editorConfig) :
    (∀ (idx : Int) (s : List Nat),
      (editorInsertRow E idx s).file_position_y = E.file_position_y) ∧
    (∀ idx : Int, (editorDelRow E idx).file_position_y = E.file_position_y) ∧
    (∀ ri idx c : Int, (editorRowInsertChar E ri idx c).file_position_y = E.file_position_y) ∧
    (∀ (ri : Int) (s : List Nat),
      (editorRowAppendString E ri s).file_position_y = E.file_position_y) ∧
    (∀ ri idx : Int, (editorRowDelChar E ri idx).file_position_y = E.file_position_y) :=
  row_store_field (fun E1 => E1.file_position_y) (fun _ _ _ => rfl) E

/-- The function `editorDelChar` keeps the cursor row at 0 or more. -/
theorem editorDelChar_row_nonneg (E : editorConfig) (hy : 0 ≤ E.file_position_y) :
    0 ≤ (editorDelChar E).file_position_y := by
  have hrow := row_store_cursor_row
  unfold editorDelChar
  by_cases h1 : E.file_position_y = E.number_of_rows
  · rw [if_pos h1]
    exact hy
  rw [if_neg h1]
  by_cases h2 : E.file_position_x = 0 ∧ E.file_position_y = 0
  · rw [if_pos h2]
    exact hy
  rw [if_neg h2]
  cases rowAt E E.file_position_y with
  | none => exact hy
  | some row =>
    simp only
    by_cases h3 : E.file_position_x > 0
    · rw [if_pos h3]
      simp only
      rw [(hrow E).2.2.2.2 _ _]
      exact hy
    rw [if_neg h3]
    cases hprev : rowAt E (E.file_position_y - 1) with
    | none => exact hy
    | some prev =>
      have hb := rowAt_some_bounds E _ prev hprev
      simp only
      rw [(hrow _).2.1 _, (hrow _).2.2.2.1 _ _]
      simp only
      omega

/-- The function `editorInsertNewline` moves the cursor one row down. -/
theorem editorInsertNewline_row (E : editorConfig) :
    (editorInsertNewline E).file_position_y = E.file_position_y + 1 := by
  have hrow := row_store_cursor_row
  have h3 : ∀ E3 : editorConfig, E3.file_position_y = E.file_position_y →
      ({ E3 with file_position_y := E3.file_position_y + 1, file_position_x := 0 } :
        editorConfig).file_position_y = E.file_position_y + 1 := by
    intro E3 h
    simp only [h]
  unfold editorInsertNewline
  refine h3 _ ?_
  split_ifs
  · exact (hrow E).1 _ _
  · cases rowAt E E.file_position_y with
    | none => rfl
    | some row =>
      simp only
      have h1 := (hrow E).1 (E.file_position_y + 1)
        (row.characters.drop E.file_position_x.toNat)
      generalize editorInsertRow E (E.file_position_y + 1)
        (row.characters.drop E.file_position_x.toNat) = E1 at h1
      split
      · exact h1
      · exact h1

/-- Every key handled by the `switch` outside the quit and save commands keeps the cursor row
at 0 or more, when the row offset is at 0 or more and the last screen row is not above row 0
(as `editorScroll` leaves them). -/
theorem processEditKey_row_nonneg (E : editorConfig) (c : Int) (hy : 0 ≤ E.file_position_y)
    (hro : 0 ≤ E.row_offset) (hlast : 0 ≤ E.row_offset + E.screen_rows - 1) :
    0 ≤ (processEditKey E c).file_position_y := by
  have hrow := row_store_cursor_row
  unfold processEditKey
  by_cases k1 : c = ENTER
  · rw [if_pos k1, editorInsertNewline_row]
    omega
  rw [if_neg k1]
  by_cases k2 : c = HOME_KEY
  · rw [if_pos k2]
    exact hy
  rw [if_neg k2]
  by_cases k3 : c = END_KEY
  · rw [if_pos k3]
    split_ifs
    · cases rowAt E E.file_position_y <;> exact hy
    · exact hy
  rw [if_neg k3]
  by_cases k4 : c = BACKSPACE ∨ c = CTRL_KEY 104 ∨ c = DEL_KEY
  · rw [if_pos k4]
    split_ifs
    · exact editorDelChar_row_nonneg _ (editorMoveCursor_row_nonneg E _ hy)
    · exact editorDelChar_row_nonneg E hy
  rw [if_neg k4]
  by_cases k5 : c = PAGE_UP ∨ c = PAGE_DOWN
  · rw [if_pos k5]
    simp only
    apply moveCursorTimes_row_nonneg
    split_ifs
    · exact hro
    · show 0 ≤ E.number_of_rows
      unfold editorConfig.number_of_rows
      omega
    · exact hlast
  rw [if_neg k5]
  by_cases k6 : c = ARROW_UP ∨ c = ARROW_DOWN ∨ c = ARROW_LEFT ∨ c = ARROW_RIGHT
  · rw [if_pos k6]
    exact editorMoveCursor_row_nonneg E c hy
  rw [if_neg k6]
  by_cases k7 : c = CTRL_KEY 108 ∨ c = ESC
  · rw [if_pos k7]
    exact hy
  rw [if_neg k7]
  unfold editorInsertChar
  simp only
  rw [(hrow _).2.2.1 _ _ _]
  split_ifs
  · rw [(hrow E).1 _ _]
    exact hy
  · exact hy

/-- A property of the editor state that the status message, the file name, the reset of
`dirty`, `editorScroll`, and every editing key pressed after `editorScroll` keep, is kept by a
turn of the loop of `main` that returns. -/
theorem mainLoopStep_keeps (P : editorConfig → Prop)
    (hmsg : ∀ (now : Int) (E : editorConfig) (t : List Nat),
      P E → P (editorSetStatusMessage now E t))
    (hfile : ∀ (E : editorConfig) (fn : Option (List Nat)), P E → P { E with filename := fn })
    (hdirty : ∀ E : editorConfig, P E → P { E with dirty := 0 })
    (hscroll : ∀ E : editorConfig, P E → P (editorScroll E))
    (hkey : ∀ (E : editorConfig) (c : Int), P E → P (processEditKey (editorScroll E) c))
    (env : Env) (W W1 : World) (hP : P W.E)
    (hrun : mainLoopStep env W = Outcome.running W1) : P W1.E := by
  have hs := hscroll W.E hP
  have hwrite : ∀ W0 : World, P W0.E → P (writeFile env W0).E := by
    intro W0 h0
    unfold writeFile
    cases env.save
    · exact hmsg _ _ _ h0
    · exact hmsg _ _ _ h0
    · exact hmsg _ _ _ h0
    · exact hmsg _ _ _ (hdirty _ h0)
  have hsaveas : ∀ W0 W3 : World, P W0.E → editorSaveAs env W0 = Outcome.running W3 →
      P W3.E := by
    intro W0 W3 h0 h
    have hprompt := promptLoop_keeps P hscroll hmsg env.charSigned env.now
      (bytesOf "Save as: ") (bytesOf " (ESC to cancel)") (W0.input.length + 1) []
      INPUT_BUFSIZE W0.E W0.input h0
    unfold editorSaveAs at h
    cases hp : editorPrompt env.charSigned env.now (bytesOf "Save as: ")
        (bytesOf " (ESC to cancel)") W0.E W0.input with
    | blocked =>
      rw [hp] at h
      cases h
    | died =>
      rw [hp] at h
      cases h
    | cancelled E1 rest =>
      rw [hp] at h
      simp only at h
      injection h with h
      subst h
      exact hmsg _ _ _ (hprompt E1 rest [] (Or.inr hp))
    | entered buf E1 rest =>
      rw [hp] at h
      simp only at h
      injection h with h
      subst h
      exact hwrite _ (hfile _ _ (hprompt E1 rest buf (Or.inl hp)))
  have hsave : ∀ W0 W3 : World, P W0.E → editorSave env W0 = Outcome.running W3 →
      P W3.E := by
    intro W0 W3 h0 h
    unfold editorSave at h
    cases hfn : W0.E.filename with
    | none =>
      rw [hfn] at h
      exact hsaveas W0 W3 h0 h
    | some fname =>
      rw [hfn] at h
      simp only at h
      injection h with h
      subst h
      exact hwrite W0 h0
  have hreset : ∀ o : Outcome, resetQuitTimes o = Outcome.running W1 →
      ∃ W3 : World, o = Outcome.running W3 ∧ W1.E = W3.E := by
    intro o h
    cases o with
    | running W3 =>
      simp only [resetQuitTimes] at h
      injection h with h
      subst h
      exact ⟨W3, rfl, rfl⟩
    | exited W3 out => cases h
    | died => cases h
    | blocked => cases h
  unfold mainLoopStep editorRefreshScreen at hrun
  generalize hW2 : ({ W with E := editorScroll W.E } : World) = W2 at hrun
  have hE2 : W2.E = editorScroll W.E := by rw [← hW2]
  unfold editorProcessKeypress at hrun
  cases hk : editorReadKey env.charSigned W2.input with
  | blocked =>
    rw [hk] at hrun
    cases hrun
  | died =>
    rw [hk] at hrun
    cases hrun
  | key c rest =>
    rw [hk] at hrun
    simp only at hrun
    by_cases hq : c = CTRL_KEY 113
    · rw [if_pos hq] at hrun
      split_ifs at hrun
      injection hrun with hrun
      subst hrun
      refine hmsg _ _ _ ?_
      show P W2.E
      rw [hE2]
      exact hs
    rw [if_neg hq] at hrun
    by_cases ha : c = CTRL_KEY 97
    · rw [if_pos ha] at hrun
      obtain ⟨W3, h3, hE3⟩ := hreset _ hrun
      rw [hE3]
      exact hsaveas { W2 with input := rest } W3 (by show P W2.E; rw [hE2]; exact hs) h3
    rw [if_neg ha] at hrun
    by_cases hsv : c = CTRL_KEY 115
    · rw [if_pos hsv] at hrun
      obtain ⟨W3, h3, hE3⟩ := hreset _ hrun
      rw [hE3]
      exact hsave { W2 with input := rest } W3 (by show P W2.E; rw [hE2]; exact hs) h3
    rw [if_neg hsv] at hrun
    obtain ⟨W3, h3, hE3⟩ := hreset _ hrun
    injection h3 with h3
    rw [hE3, ← h3]
    show P (processEditKey W2.E c)
    rw [hE2]
    exact hkey W.E c hP

/-- Such a property is kept by the loop of `main` over any number of turns. -/
theorem mainLoop_keeps (P : editorConfig → Prop)
    (hmsg : ∀ (now : Int) (E : editorConfig) (t : List Nat),
      P E → P (editorSetStatusMessage now E t))
    (hfile : ∀ (E : editorConfig) (fn : Option (List Nat)), P E → P { E with filename := fn })
    (hdirty : ∀ E : editorConfig, P E → P { E with dirty := 0 })
    (hscroll : ∀ E : editorConfig, P E → P (editorScroll E))
    (hkey : ∀ (E : editorConfig) (c : Int), P E → P (processEditKey (editorScroll E) c))
    (envs : List Env) : ∀ W W1 : World, P W.E →
    mainLoop envs W = Outcome.running W1 → P W1.E := by
  induction envs with
  | nil =>
    intro W W1 hP h
    simp only [mainLoop] at h
    injection h with h
    subst h
    exact hP
  | cons env envs ih =>
    intro W W1 hP h
    simp only [mainLoop] at h
    cases hstep : mainLoopStep env W with
    | running W2 =>
      rw [hstep] at h
      exact ih W2 W1 (mainLoopStep_keeps P hmsg hfile hdirty hscroll hkey env W W2 hP hstep) h
    | exited W2 out =>
      rw [hstep] at h
      cases h
    | died =>
      rw [hstep] at h
      cases h
    | blocked =>
      rw [hstep] at h
      cases h

/-- The render column that `editorScroll` computes is never negative. -/
theorem cursorRenderCol_nonneg (E : editorConfig) : 0 ≤ cursorRenderCol E := by
  have hloop : ∀ (chars : List Nat) (n j : Nat) (sx : Int), 0 ≤ sx →
      0 ≤ screenXLoop chars n j sx := by
    intro chars n
    induction n with
    | zero => exact fun j sx h => h
    | succ m ih =>
      intro j sx h
      simp only [screenXLoop]
      apply ih
      have h8 : (TEXOR_TAB_STOP : Int) = 8 := rfl
      split_ifs
      · rw [h8]
        omega
      · omega
  unfold cursorRenderCol
  split_ifs
  · cases rowAt E E.file_position_y with
    | none => exact le_refl 0
    | some row => exact hloop _ _ _ _ (le_refl 0)
  · exact le_refl 0

/-- The two checks of `editorScroll` on one axis keep an offset at 0 or more, for a position
at 0 or more and any extent; and they leave the last position of the window at 0 or more. -/
theorem scrollOffset_nonneg (pos offset extent : Int) (hp : 0 ≤ pos) (ho : 0 ≤ offset) :
    0 ≤ scrollOffset pos offset extent ∧ 0 ≤ scrollOffset pos offset extent + extent - 1 := by
  unfold scrollOffset
  split_ifs <;> omega

/-- C37: for `row_offset >= 0`, `column_offset >= 0` and `file_position_y >= 0`, and any
screen extents, `editorScroll` leaves `row_offset >= 0` and `column_offset >= 0`.  So in every
state reached from start-up (any window size, with or without a file) through the loop of
`main`, and in the state `editorRefreshScreen` makes of it to draw the frame, the two offsets
are at 0 or more: the slice start `column_offset` and every row index `y + row_offset`, for a
screen row `y >= 0`, that `editorDrawRows` uses are not negative. -/
theorem C37_offsets_never_negative :
    (∀ E : editorConfig, 0 ≤ E.row_offset → 0 ≤ E.column_offset → 0 ≤ E.file_position_y →
      0 ≤ (editorScroll E).row_offset ∧ 0 ≤ (editorScroll E).column_offset) ∧
    (∀ (now rows cols : Int) (file : Option (List Nat × List Nat)) (input : List ReadResult)
      (envs : List Env) (W : World),
      mainLoop envs (startWorld now rows cols file input) = Outcome.running W →
      (0 ≤ W.E.row_offset ∧ 0 ≤ W.E.column_offset) ∧
      (0 ≤ (editorRefreshScreen W.E).row_offset ∧
        0 ≤ (editorRefreshScreen W.E).column_offset) ∧
      ∀ y : Int, 0 ≤ y → 0 ≤ y + (editorRefreshScreen W.E).row_offset) := by
  have hstep : ∀ E : editorConfig,
      0 ≤ E.file_position_y ∧ 0 ≤ E.row_offset ∧ 0 ≤ E.column_offset →
      (0 ≤ (editorScroll E).file_position_y ∧ 0 ≤ (editorScroll E).row_offset ∧
        0 ≤ (editorScroll E).column_offset) ∧
      0 ≤ (editorScroll E).row_offset + (editorScroll E).screen_rows - 1 := by
    intro E h
    obtain ⟨hy, hro, hco⟩ := h
    have h1 := scrollOffset_nonneg E.file_position_y E.row_offset E.screen_rows hy hro
    have h2 := scrollOffset_nonneg (cursorRenderCol E) E.column_offset E.screen_columns
      (cursorRenderCol_nonneg E) hco
    rw [editorScroll_eq]
    exact ⟨⟨hy, h1.1, h2.1⟩, h1.2⟩
  have hkey : ∀ (E : editorConfig) (c : Int),
      0 ≤ E.file_position_y ∧ 0 ≤ E.row_offset ∧ 0 ≤ E.column_offset →
      0 ≤ (processEditKey (editorScroll E) c).file_position_y ∧
        0 ≤ (processEditKey (editorScroll E) c).row_offset ∧
        0 ≤ (processEditKey (editorScroll E) c).column_offset := by
    intro E c h
    obtain ⟨⟨a, b, d⟩, e⟩ := hstep E h
    have f1 : (processEditKey (editorScroll E) c).row_offset = (editorScroll E).row_offset :=
      processEditKey_field (fun E1 => E1.row_offset) (fun _ _ _ _ _ => rfl) _ c
    have f2 : (processEditKey (editorScroll E) c).column_offset =
        (editorScroll E).column_offset :=
      processEditKey_field (fun E1 => E1.column_offset) (fun _ _ _ _ _ => rfl) _ c
    rw [f1, f2]
    exact ⟨processEditKey_row_nonneg _ c a b e, b, d⟩
  constructor
  · intro E hro hco hy
    exact (hstep E ⟨hy, hro, hco⟩).1.2
  · intro now rows cols file input envs W hrun
    have hstart : 0 ≤ (startWorld now rows cols file input).E.file_position_y ∧
        0 ≤ (startWorld now rows cols file input).E.row_offset ∧
        0 ≤ (startWorld now rows cols file input).E.column_offset := by
      cases file with
      | none => exact ⟨le_refl 0, le_refl 0, le_refl 0⟩
      | some f =>
        obtain ⟨filename, content⟩ := f
        unfold startWorld
        simp only [startDocument]
        rw [editorOpen_eq]
        exact ⟨le_refl 0, le_refl 0, le_refl 0⟩
    have hW := mainLoop_keeps
      (fun E => 0 ≤ E.file_position_y ∧ 0 ≤ E.row_offset ∧ 0 ≤ E.column_offset)
      (fun _ _ _ h => h) (fun _ _ h => h) (fun _ h => h) (fun E h => (hstep E h).1) hkey envs
      _ W hstart hrun
    obtain ⟨⟨-, b, d⟩, -⟩ := hstep W.E hW
    refine ⟨⟨hW.2.1, hW.2.2⟩, ⟨b, d⟩, ?_⟩
    intro y hy
    have : 0 ≤ (editorRefreshScreen W.E).row_offset := b
    omega

/-! ## The size of the rendered form -/

/-- The length of the tab expansion that continues an already rendered `out`: each byte adds
at least one byte, a tab at most `TEXOR_TAB_STOP`; the upper bound is met exactly when every tab
starts at a rendered length that is a multiple of the tab stop. -/
theorem tabExpansionFrom_length (raw : List Nat) : ∀ out : List Nat,
    out.length + raw.length ≤ (tabExpansionFrom TEXOR_TAB_STOP out raw).length ∧
      (tabExpansionFrom TEXOR_TAB_STOP out raw).length ≤
        out.length + raw.length + countTabs raw * (TEXOR_TAB_STOP - 1) ∧
      ((tabExpansionFrom TEXOR_TAB_STOP out raw).length =
          out.length + raw.length + countTabs raw * (TEXOR_TAB_STOP - 1) ↔
        ∀ pre post : List Nat, raw = pre ++ TAB :: post →
          (tabExpansionFrom TEXOR_TAB_STOP out pre).length % TEXOR_TAB_STOP = 0) := by
  have h8 : TEXOR_TAB_STOP = 8 := rfl
  induction raw with
  | nil =>
    intro out
    simp only [tabExpansionFrom, countTabs, List.length_nil]
    refine ⟨by omega, by omega, ?_⟩
    constructor
    · intro _ pre post h
      cases pre <;> cases h
    · intro _
      omega
  | cons b rest ih =>
    intro out
    by_cases hb : b = TAB
    · subst hb
      obtain ⟨lo, hi, heq⟩ := ih
        (out ++ SPACE :: List.replicate
          ((TEXOR_TAB_STOP - (out.length + 1) % TEXOR_TAB_STOP) % TEXOR_TAB_STOP) SPACE)
      have hstep : tabExpansionFrom TEXOR_TAB_STOP out (TAB :: rest) =
          tabExpansionFrom TEXOR_TAB_STOP
            (out ++ SPACE :: List.replicate
              ((TEXOR_TAB_STOP - (out.length + 1) % TEXOR_TAB_STOP) % TEXOR_TAB_STOP) SPACE)
            rest := by
        simp only [tabExpansionFrom, if_true]
      have hlen : (out ++ SPACE :: List.replicate
          ((TEXOR_TAB_STOP - (out.length + 1) % TEXOR_TAB_STOP) % TEXOR_TAB_STOP) SPACE).length =
          out.length + (8 - out.length % 8) := by
        simp only [List.length_append, List.length_cons, List.length_replicate, h8]
        omega
      have hct : countTabs (TAB :: rest) = 1 + countTabs rest := by
        simp only [countTabs, if_true]
      rw [hstep, hct]
      rw [hlen] at lo hi heq
      simp only [List.length_cons, h8] at lo hi heq ⊢
      refine ⟨by omega, by omega, ?_⟩
      constructor
      · intro hfull pre post hsplit
        have hmod : out.length % 8 = 0 := by omega
        cases pre with
        | nil =>
          simp only [tabExpansionFrom]
          exact hmod
        | cons p pre1 =>
          simp only [List.cons_append, List.cons.injEq] at hsplit
          obtain ⟨hp, hrest⟩ := hsplit
          subst hp
          have := heq.1 (by omega) pre1 post hrest
          simpa only [tabExpansionFrom, if_true, h8] using this
      · intro hall
        have hmod : out.length % 8 = 0 := by
          have := hall [] rest rfl
          simpa only [tabExpansionFrom] using this
        have hrest := heq.2 (by
          intro pre post hsplit
          have := hall (TAB :: pre) post (by rw [hsplit]; rfl)
          simpa only [tabExpansionFrom, if_true, h8] using this)
        omega
    · obtain ⟨lo, hi, heq⟩ := ih (out ++ [b])
      have hstep : tabExpansionFrom TEXOR_TAB_STOP out (b :: rest) =
          tabExpansionFrom TEXOR_TAB_STOP (out ++ [b]) rest := by
        simp only [tabExpansionFrom, if_neg hb]
      have hct : countTabs (b :: rest) = countTabs rest := by
        simp only [countTabs, if_neg hb, Nat.zero_add]
      rw [hstep, hct]
      simp only [List.length_append, List.length_singleton, List.length_cons, List.length_nil, h8]
        at lo hi heq ⊢
      refine ⟨by omega, by omega, ?_⟩
      constructor
      · intro hfull pre post hsplit
        cases pre with
        | nil =>
          simp only [List.nil_append, List.cons.injEq] at hsplit
          exact absurd hsplit.1 hb
        | cons p pre1 =>
          simp only [List.cons_append, List.cons.injEq] at hsplit
          obtain ⟨hp, hrest⟩ := hsplit
          subst hp
          have := heq.1 (by omega) pre1 post hrest
          simpa only [tabExpansionFrom, if_neg hb, h8] using this
      · intro hall
        have hrest := heq.2 (by
          intro pre post hsplit
          have := hall (b :: pre) post (by rw [hsplit]; rfl)
          simpa only [tabExpansionFrom, if_neg hb, h8] using this)
        omega

/-- An `int` expression whose value is a value of `int` is that value. -/
theorem wrapInt_of_range (v : Int) (h0 : -2147483648 ≤ v) (h1 : v ≤ INT_MAX) :
    wrapInt v = v := by
  unfold INT_MAX at h1
  unfold wrapInt
  omega

/-- A row of tab bytes has as many tabs as bytes. -/
theorem countTabs_replicate (n : Nat) : countTabs (List.replicate n TAB) = n := by
  induction n with
  | zero => rfl
  | succ m ih =>
    rw [List.replicate_succ]
    simp only [countTabs, if_true, ih]
    omega

/-- A row of `n` tab bytes renders to `TEXOR_TAB_STOP * n` bytes. -/
theorem tabExpansion_replicate_length (n : Nat) :
    (tabExpansion (List.replicate n TAB)).length = TEXOR_TAB_STOP * n := by
  have h8 : TEXOR_TAB_STOP = 8 := rfl
  obtain ⟨-, -, heq⟩ := tabExpansionFrom_length (List.replicate n TAB) []
  have hall : ∀ k : Nat, ∀ out : List Nat, out.length % 8 = 0 →
      (tabExpansionFrom TEXOR_TAB_STOP out (List.replicate k TAB)).length % 8 = 0 := by
    intro k
    induction k with
    | zero =>
      intro out h
      simpa only [List.replicate_zero, tabExpansionFrom] using h
    | succ m ih =>
      intro out h
      rw [List.replicate_succ]
      simp only [tabExpansionFrom, if_true]
      apply ih
      simp only [List.length_append, List.length_cons, List.length_replicate, h8]
      omega
  have hfull := heq.2 (by
    intro pre post hsplit
    have hpre : pre = List.replicate pre.length TAB := by
      apply List.eq_replicate_of_mem
      intro b hb
      have hmem : b ∈ List.replicate n TAB := by
        rw [hsplit]
        exact List.mem_append_left _ hb
      exact (List.mem_replicate.mp hmem).2
    rw [hpre, h8]
    exact hall _ [] rfl)
  unfold tabExpansion
  rw [hfull, countTabs_replicate, List.length_replicate, h8]
  simp only [List.length_nil]
  omega

/-- C31: for every row whose `size + tabs * (TEXOR_TAB_STOP - 1) + 1` is a value of `int`
(`tabs` the number of tab bytes), `editorUpdateRow` leaves
`size <= rendered_size <= size + tabs * (TEXOR_TAB_STOP - 1)`, the upper bound being met
exactly when every tab starts at a rendered column that is a multiple of the tab stop; the
bytes written fill the indices `0 .. rendered_size - 1` and the terminating NUL goes to index
`rendered_size`, inside the bytes allocated.  Beyond that range the `int` argument of `malloc`
overflows: for the row of `2 ^ 28` tabs (size and tab count values of `int`) it wraps to a
negative number, and for the row of `2 ^ 29` tabs it wraps to 1, while `2 ^ 32` bytes are
written. -/
theorem C31_rendered_size_and_allocation :
    (∀ row : erow,
      row.size + (countTabs row.characters : Int) * ((TEXOR_TAB_STOP : Int) - 1) + 1 ≤ INT_MAX →
      row.size ≤ (editorUpdateRow row).rendered_size ∧
      (editorUpdateRow row).rendered_size ≤
        row.size + (countTabs row.characters : Int) * ((TEXOR_TAB_STOP : Int) - 1) ∧
      ((editorUpdateRow row).rendered_size =
          row.size + (countTabs row.characters : Int) * ((TEXOR_TAB_STOP : Int) - 1) ↔
        ∀ pre post : List Nat, row.characters = pre ++ TAB :: post →
          (tabExpansion pre).length % TEXOR_TAB_STOP = 0) ∧
      (((editorUpdateRow row).rendered_characters.length : Nat) : Int) =
        (editorUpdateRow row).rendered_size ∧
      renderCapacity row =
        row.size + (countTabs row.characters : Int) * ((TEXOR_TAB_STOP : Int) - 1) + 1 ∧
      (editorUpdateRow row).rendered_size < renderCapacity row) ∧
    (sampleTabs28.size = 268435456 ∧ (countTabs sampleTabs28.characters : Int) = 268435456 ∧
      sampleTabs28.size ≤ INT_MAX ∧
      (editorUpdateRow sampleTabs28).rendered_characters.length = 2147483648 ∧
      renderCapacity sampleTabs28 = -2147483647) ∧
    (sampleTabs29.size = 536870912 ∧ (countTabs sampleTabs29.characters : Int) = 536870912 ∧
      sampleTabs29.size ≤ INT_MAX ∧
      (editorUpdateRow sampleTabs29).rendered_characters.length = 4294967296 ∧
      renderCapacity sampleTabs29 = 1) := by
  have h8 : TEXOR_TAB_STOP = 8 := rfl
  have hsample : ∀ n : Nat,
      (tabsRow n).size = (n : Int) ∧
      (countTabs (tabsRow n).characters : Int) = (n : Int) ∧
      (editorUpdateRow (tabsRow n)).rendered_characters.length = 8 * n ∧
      renderCapacity (tabsRow n) =
        wrapInt (wrapInt ((n : Int) + wrapInt ((n : Int) * 7)) + 1) := by
    intro n
    refine ⟨?_, ?_, ?_, ?_⟩
    · unfold erow.size tabsRow
      rw [List.length_replicate]
    · unfold tabsRow
      rw [countTabs_replicate]
    · rw [editorUpdateRow_eq]
      exact tabExpansion_replicate_length n
    · unfold renderCapacity erow.size tabsRow
      rw [countTabs_replicate, List.length_replicate, h8]
      rfl
  refine ⟨?_, ?_, ?_⟩
  · intro row hrange
    obtain ⟨lo, hi, heq⟩ := tabExpansionFrom_length row.characters []
    have hcap : renderCapacity row =
        row.size + (countTabs row.characters : Int) * ((TEXOR_TAB_STOP : Int) - 1) + 1 := by
      unfold renderCapacity
      unfold erow.size INT_MAX at *
      simp only [h8] at hrange ⊢
      have e1 : wrapInt ((countTabs row.characters : Int) * (((8 : Nat) : Int) - 1)) =
          (countTabs row.characters : Int) * (((8 : Nat) : Int) - 1) :=
        wrapInt_of_range _ (by omega) (by unfold INT_MAX; omega)
      rw [e1]
      have e2 : wrapInt ((row.characters.length : Int) +
            (countTabs row.characters : Int) * (((8 : Nat) : Int) - 1)) =
          (row.characters.length : Int) +
            (countTabs row.characters : Int) * (((8 : Nat) : Int) - 1) :=
        wrapInt_of_range _ (by omega) (by unfold INT_MAX; omega)
      rw [e2]
      exact wrapInt_of_range _ (by omega) (by unfold INT_MAX; omega)
    rw [hcap, editorUpdateRow_eq]
    unfold erow.size tabExpansion
    simp only [List.length_nil, h8] at lo hi heq ⊢
    refine ⟨by omega, by omega, ?_, trivial, trivial, by omega⟩
    rw [← heq]
    constructor
    · intro h
      have : ((tabExpansionFrom 8 [] row.characters).length : Int) =
          ((0 + row.characters.length + countTabs row.characters * (8 - 1) : Nat) : Int) := by
        rw [h]
        push_cast
        ring
      exact_mod_cast this
    · intro h
      rw [h]
      push_cast
      ring
  · obtain ⟨a, b, c, d⟩ := hsample 268435456
    refine ⟨a, b, ?_, c, ?_⟩
    · rw [show sampleTabs28.size = ((268435456 : Nat) : Int) from a]
      decide
    · rw [show renderCapacity sampleTabs28 = _ from d]
      decide
  · obtain ⟨a, b, c, d⟩ := hsample 536870912
    refine ⟨a, b, ?_, c, ?_⟩
    · rw [show sampleTabs29.size = ((536870912 : Nat) : Int) from a]
      decide
    · rw [show renderCapacity sampleTabs29 = _ from d]
      decide

/-! ## Drawing the rows -/

/-- C32: on a window of 2 rows `initEditor` leaves `screen_rows = 0`; `editorScroll` then sets
`row_offset` to 1, Page-Up puts the cursor on row 1 and calls `editorMoveCursor` no time, and
the cursor is on row 1 of a document with 0 rows.  The next key `x` reaches
`editorInsertChar`, which appends no row (`file_position_y` is not `number_of_rows`) and hands
`&E.row[1]` to `editorRowInsertChar`: there is no such row.  For `screen_rows >= 1` every state
reached through the loop of `main`, before and after `editorRefreshScreen`, has the cursor
within its bounds and `row_offset >= 0`. -/
theorem C32_row_index_out_of_range_on_two_row_window :
    (initEditor 2 80).screen_rows = 0 ∧
    mainLoop [sampleEnv] sampleTinyStart = Outcome.running sampleTinyAfterPageUp ∧
    sampleTinyAfterPageUp.E.file_position_y = 1 ∧
    sampleTinyAfterPageUp.E.number_of_rows = 0 ∧
    editorReadKey sampleEnv.charSigned sampleTinyAfterPageUp.input = KeyResult.key 120 [] ∧
    processEditKey (editorRefreshScreen sampleTinyAfterPageUp.E) 120 =
      editorInsertChar (editorRefreshScreen sampleTinyAfterPageUp.E) 120 ∧
    (editorRefreshScreen sampleTinyAfterPageUp.E).file_position_y ≠
      (editorRefreshScreen sampleTinyAfterPageUp.E).number_of_rows ∧
    rowAt (editorRefreshScreen sampleTinyAfterPageUp.E)
      (editorRefreshScreen sampleTinyAfterPageUp.E).file_position_y = none ∧
    (∀ (now rows cols : Int) (file : Option (List Nat × List Nat)) (input : List ReadResult)
      (envs : List Env) (W : World), 1 ≤ (initEditor rows cols).screen_rows →
      mainLoop envs (startWorld now rows cols file input) = Outcome.running W →
      (cursorInBounds W.E ∧ 0 ≤ W.E.row_offset) ∧
      (cursorInBounds (editorRefreshScreen W.E) ∧
        0 ≤ (editorRefreshScreen W.E).row_offset)) := by
  refine ⟨by decide, by decide, by decide, by decide, by decide, by decide, by decide,
    by decide, ?_⟩
  intro now rows cols file input envs W hrows hrun
  have hW := loopInvariant_mainLoop envs _ W
    (loopInvariant_startWorld now rows cols file input hrows) hrun
  have hS := (loopInvariant_editorScroll W.E hW).1
  exact ⟨⟨hW.1, hW.2.1⟩, ⟨hS.1, hS.2.1⟩⟩

end Texor
